import Mathlib

/-!
# CFML/HTML formatter core (`FixedCFMLFormatter` in `extension.js`)

A shallow embedding of the tag classifier (`analyzeTag`) and of the line
formatter (`formatDocument`, `parseAndFormat`, `processLineWithAlignment`,
`findMatchingTagInStack`, `removeFromTagStack`), followed by theorems about them.

Modelling conventions.
* A JavaScript string is a `List Char`.  All patterns used by the formatter
  mention ASCII characters only and none of its regular expressions carries the
  `u` flag, so matching on code points agrees with matching on code units.
* Indent levels are JavaScript numbers holding integers; they are modelled by `Int`.
* The tag stack is a JavaScript array mutated in place; it is modelled by a list
  (bottom first, top last) that is passed in and returned.
-/

namespace CFML

/-- A JavaScript string. -/
abbrev Str := List Char

/-! ## String primitives -/

/-- The characters stripped by `String.prototype.trim`: the ECMAScript `WhiteSpace`
and `LineTerminator` productions. -/
def isWhiteSpace (c : Char) : Bool :=
  let n := c.toNat
  n == 0x09 || n == 0x0A || n == 0x0B || n == 0x0C || n == 0x0D || n == 0x20 ||
  n == 0xA0 || n == 0x1680 || (0x2000 ≤ n && n ≤ 0x200A) || n == 0x2028 ||
  n == 0x2029 || n == 0x202F || n == 0x205F || n == 0x3000 || n == 0xFEFF

/-- The method `String.prototype.trim`. -/
def trim (s : Str) : Str :=
  (s.dropWhile isWhiteSpace).rdropWhile isWhiteSpace

/-- The method `String.prototype.startsWith`. -/
def startsWith (s pre : Str) : Bool := pre.isPrefixOf s

/-- The method `String.prototype.endsWith`. -/
def endsWith (s suf : Str) : Bool := suf.isSuffixOf s

/-- The method `String.prototype.toLowerCase`, on the ASCII range.  It is applied by the
formatter to a captured run of ASCII letters and digits, and to a string that is then
compared with the prefix `<!doctype`; the only non-ASCII code points whose lower case
contains an ASCII letter are U+0130 (giving `i`) and U+212A (giving `k`), and neither
letter occurs in `doctype`, so the ASCII mapping decides both uses exactly. -/
def toLowerCase (s : Str) : Str := s.map Char.toLower

/-- The method `String.prototype.repeat`. -/
def strRepeat (s : Str) : Nat → Str
  | 0 => []
  | n + 1 => s ++ strRepeat s n

/-- The method `Array.prototype.join` with separator `\n`. -/
def joinLines : List Str → Str
  | [] => []
  | [l] => l
  | l :: ls => l ++ '\n' :: joinLines ls

/-- The method `String.prototype.split` with separator `\n`. -/
def splitLines : Str → List Str
  | [] => [[]]
  | c :: cs =>
    if c = '\n' then [] :: splitLines cs
    else
      match splitLines cs with
      | [] => [[c]]
      | l :: ls => (c :: l) :: ls

/-- The replacement `text.replace(/\r\n/g, '\n')`. -/
def replaceCRLF : Str → Str
  | [] => []
  | [c] => [c]
  | c :: d :: cs =>
    if c = '\r' ∧ d = '\n' then '\n' :: replaceCRLF cs
    else c :: replaceCRLF (d :: cs)

/-- The replacement `text.replace(/\r/g, '\n')`. -/
def replaceCR (s : Str) : Str :=
  s.map (fun c => if c = '\r' then '\n' else c)

/-! ## Regular expressions -/

/-- Whether `s` begins with the literal `lit` under the `i` flag.  Without the `u` flag a
character matches a literal ASCII character case-insensitively only if it is that
character in either ASCII case. -/
def ciPrefix (lit s : Str) : Bool :=
  (lit.map Char.toLower).isPrefixOf (s.map Char.toLower)

/-- The lazy run `[\s\S]*?` followed by the literal `pat` (also `[^>]*` followed by
`>`): the shortest prefix of the input that ends with `pat`, and what follows it. -/
def findFirst (pat : Str) : Str → Option (Str × Str)
  | [] => none
  | c :: cs =>
    if pat.isPrefixOf (c :: cs) then some (pat, (c :: cs).drop pat.length)
    else
      match findFirst pat cs with
      | some (a, r) => some (c :: a, r)
      | none => none

/-- An alternative of `tagRegex` made of a literal `lit` (matched under the `i` flag) and
a run that stops at the first `pat`, tried on the text after `<`. -/
def tagLiteral (lit pat r : Str) : Option (Str × Str) :=
  if ciPrefix lit r then
    (findFirst pat (r.drop lit.length)).map
      (fun m => ('<' :: r.take lit.length ++ m.1, m.2))
  else none

/-- Alternative `!--[\s\S]*?--` and the final `>`, tried on the text after `<`. -/
def tagComment (r : Str) : Option (Str × Str) :=
  tagLiteral "!--".toList "-->".toList r

/-- Alternative `!\[CDATA\[[\s\S]*?\]\]` and the final `>`, tried on the text after `<`. -/
def tagCData (r : Str) : Option (Str × Str) :=
  tagLiteral "![CDATA[".toList "]]>".toList r

/-- Alternative `!DOCTYPE[^>]*` and the final `>`, tried on the text after `<`. -/
def tagDoctype (r : Str) : Option (Str × Str) :=
  tagLiteral "!DOCTYPE".toList ">".toList r

/-- Alternative `[^>]+` and the final `>`, tried on the text after `<`. -/
def tagGeneric (r : Str) : Option (Str × Str) :=
  match r with
  | [] => none
  | c :: cs =>
    if c = '>' then none
    else (findFirst ['>'] cs).map (fun m => ('<' :: c :: m.1, m.2))

/-- One attempt of `tagRegex`,
`/<(?:!--[\s\S]*?--|!\[CDATA\[[\s\S]*?\]\]|!DOCTYPE[^>]*|[^>]+)>/gi`,
anchored at the head of the input: the matched text and the rest of the input.  The
alternatives are tried in order, as a backtracking matcher does. -/
def matchTagAt : Str → Option (Str × Str)
  | [] => none
  | c :: r =>
    if c = '<' then
      (tagComment r).or ((tagCData r).or ((tagDoctype r).or (tagGeneric r)))
    else none

/-- One call of `tagRegex.exec`: the leftmost position at which the pattern matches.
Returns the text skipped before the match, the match, and the rest of the input. -/
def execTag : Str → Option (Str × Str × Str)
  | [] => none
  | c :: cs =>
    match matchTagAt (c :: cs) with
    | some (tag, rest) => some ([], tag, rest)
    | none =>
      match execTag cs with
      | some (before, tag, rest) => some (c :: before, tag, rest)
      | none => none

/-- The loop `while ((match = tagRegex.exec(line)) !== null)`, bounded by `fuel`
iterations: every match as (text between the previous match and this one, matched text),
and the text after the last match. -/
def execAllFuel : Nat → Str → List (Str × Str) × Str
  | 0, s => ([], s)
  | fuel + 1, s =>
    match execTag s with
    | none => ([], s)
    | some (before, tag, rest) =>
      ((before, tag) :: (execAllFuel fuel rest).1, (execAllFuel fuel rest).2)

/-- All matches of `tagRegex` on a line.  Every match consumes at least one character, so
`line.length` iterations exhaust the line (`execAll_eq`). -/
def execAll (line : Str) : List (Str × Str) × Str :=
  execAllFuel line.length line

/-- The capture of a name pattern `([a-zA-Z][a-zA-Z0-9]*)` at the head of the input. -/
def nameAt : Str → Option Str
  | [] => none
  | d :: ds => if d.isAlpha then some (d :: ds.takeWhile Char.isAlphanum) else none

/-- Capture group 1 of `trimmed.match(/<([a-zA-Z][a-zA-Z0-9]*)/i)`: the pattern is not
anchored, so the leftmost `<` followed by a letter is used. -/
def matchOpenName : Str → Option Str
  | [] => none
  | c :: cs =>
    if c = '<' then
      match nameAt cs with
      | some n => some n
      | none => matchOpenName cs
    else matchOpenName cs

/-- Capture group 1 of `trimmed.match(/<\/([a-zA-Z][a-zA-Z0-9]*)/i)`: the pattern is not
anchored, so the leftmost `</` followed by a letter is used. -/
def matchCloseName : Str → Option Str
  | [] => none
  | c :: cs =>
    if c = '<' ∧ cs.head? = some '/' then
      match nameAt cs.tail with
      | some n => some n
      | none => matchCloseName cs
    else matchCloseName cs

/-! ## Vocabulary -/

/-- Self-closing CFML tags. -/
def selfClosingCFTags : List Str :=
  ["cfset", "cfparam", "cfargument", "cfreturn", "cfinclude",
   "cflocation", "cfabort", "cfdump", "cfthrow", "cfbreak",
   "cfcontinue", "cfheader", "cfcookie", "cfcontent", "cfflush",
   "cfimport", "cfprocessingdirective", "cfqueryparam", "cfhttpparam",
   "cfinput", "cfselect", "cfoption"].map String.toList

/-- Self-closing HTML tags. -/
def selfClosingHTMLTags : List Str :=
  ["area", "base", "br", "col", "embed", "hr", "img", "input",
   "link", "meta", "param", "source", "track", "wbr"].map String.toList

/-- Block-level CFML tags. -/
def blockLevelCFTags : List Str :=
  ["cffunction", "cfcomponent", "cfif", "cfelseif", "cfelse",
   "cfloop", "cfquery", "cftry", "cfcatch", "cffinally",
   "cfscript", "cfoutput", "cfmail", "cfhttp", "cftransaction",
   "cflock", "cfthread", "cfcase", "cfdefaultcase", "cfswitch",
   "cfdocument", "cfsavecontent", "cfsilent", "cfform",
   "cfmodule", "cfprocparam", "cfinvoke", "cfobject"].map String.toList

/-- HTML block elements. -/
def blockLevelHTMLTags : List Str :=
  ["html", "head", "body", "title", "style", "script",
   "div", "p", "h1", "h2", "h3", "h4", "h5", "h6", "section", "article",
   "header", "footer", "nav", "main", "aside", "form", "fieldset", "legend",
   "ul", "ol", "li", "dl", "dt", "dd", "table", "thead", "tbody", "tfoot",
   "tr", "td", "th", "caption", "colgroup", "blockquote", "pre",
   "address", "figure", "figcaption", "details", "summary", "dialog",
   "template", "canvas", "svg", "video", "audio", "picture",
   "iframe", "embed", "object", "noscript", "select", "optgroup",
   "option", "textarea", "button", "label", "output", "progress", "meter"].map String.toList

/-! ## Tag classifier -/

/-- The object returned by `analyzeTag`. -/
structure TagInfo where
  fullTag : Str
  isComment : Bool
  isDoctype : Bool
  isClosing : Bool
  isOpening : Bool
  isSelfClosing : Bool
  isBlock : Bool
  tagName : Str
  isCFML : Bool
  deriving DecidableEq, Repr

/-- The object `info` as `analyzeTag` initialises it. -/
def initialInfo (trimmed : Str) : TagInfo :=
  { fullTag := trimmed, isComment := false, isDoctype := false, isClosing := false,
    isOpening := false, isSelfClosing := false, isBlock := false, tagName := [],
    isCFML := false }

/-- The branch "Check for closing tag" of `analyzeTag`. -/
def closingInfo (trimmed : Str) : TagInfo :=
  { initialInfo trimmed with
    isClosing := true
    tagName := match matchCloseName trimmed with
      | some m => toLowerCase m
      | none => [] }

/-- The tag name extracted by the branch "Opening or self-closing tag" of `analyzeTag`. -/
def openingName (trimmed : Str) : Str :=
  match matchOpenName trimmed with
  | some m => toLowerCase m
  | none => []

/-- The branch "Opening or self-closing tag" of `analyzeTag`. -/
def openingInfo (trimmed : Str) : TagInfo :=
  { initialInfo trimmed with
    isOpening := true
    tagName := openingName trimmed
    isSelfClosing := endsWith trimmed "/>".toList ||
      selfClosingCFTags.contains (openingName trimmed) ||
      selfClosingHTMLTags.contains (openingName trimmed) }

/-- The block "Determine properties" of `analyzeTag`. -/
def determineProperties (info : TagInfo) : TagInfo :=
  if info.tagName ≠ [] then
    { info with
      isCFML := startsWith info.tagName "cf".toList
      isBlock := if startsWith info.tagName "cf".toList
                 then blockLevelCFTags.contains info.tagName
                 else blockLevelHTMLTags.contains info.tagName }
  else info

/-- The method `analyzeTag`. -/
def analyzeTag (tag : Str) : TagInfo :=
  let trimmed := trim tag
  if startsWith trimmed "<!--".toList || startsWith trimmed "<!---".toList then
    { initialInfo trimmed with isComment := true, isBlock := true }
  else if startsWith (toLowerCase trimmed) "<!doctype".toList then
    { initialInfo trimmed with isDoctype := true, isBlock := true }
  else if startsWith trimmed "</".toList then
    determineProperties (closingInfo trimmed)
  else
    determineProperties (openingInfo trimmed)

/-! ## Indent stack -/

/-- An entry of `tagStack`: the object `{...tagInfo, indentLevel: lineIndentLevel}`. -/
structure StackItem extends TagInfo where
  indentLevel : Int
  deriving DecidableEq, Repr

/-- The method `findMatchingTagInStack`: the loop runs from the top of the stack down
and returns the first entry with the given name, or `null`. -/
def findMatchingTagInStack (tagStack : List StackItem) (tagName : Str) : Option StackItem :=
  tagStack.reverse.find? (fun e => e.tagName == tagName)

/-- Removes the first entry satisfying `p`, scanning from the head. -/
def eraseFirst {α : Type} (p : α → Bool) : List α → List α
  | [] => []
  | e :: es => if p e then es else e :: eraseFirst p es

/-- The method `removeFromTagStack`: the loop runs from the top of the stack down and
splices out the first entry with the given name. -/
def removeFromTagStack (tagStack : List StackItem) (tagName : Str) : List StackItem :=
  (eraseFirst (fun e => e.tagName == tagName) tagStack.reverse).reverse

/-! ## Line formatter -/

/-- The statements `if (content) content += ' '; content += piece`. -/
def appendPiece (content piece : Str) : Str :=
  (if content ≠ [] then content ++ [' '] else content) ++ piece

/-- The mutable variables of the second loop of `processLineWithAlignment`. -/
structure PassState where
  content : Str
  tagStack : List StackItem
  indentLevel : Int
  deriving DecidableEq, Repr

/-- One iteration of the second loop of `processLineWithAlignment`, on the match
`fullTag` preceded by the unmatched text `before`. -/
def processTag (lineIndentLevel : Int) (st : PassState) (before fullTag : Str) : PassState :=
  let beforeTag := trim before
  let content := if beforeTag ≠ [] then appendPiece st.content beforeTag else st.content
  let tagInfo := analyzeTag fullTag
  if tagInfo.isClosing then
    if tagInfo.isBlock && (findMatchingTagInStack st.tagStack tagInfo.tagName).isSome then
      let tagStack := removeFromTagStack st.tagStack tagInfo.tagName
      { content := appendPiece content fullTag
        tagStack := tagStack
        indentLevel := match tagStack.getLast? with
          | some top => top.indentLevel + 1
          | none => 0 }
    else
      { st with content := appendPiece content fullTag }
  else if tagInfo.isOpening && !tagInfo.isSelfClosing then
    if tagInfo.isBlock then
      { content := appendPiece content fullTag
        tagStack := st.tagStack ++ [{ toTagInfo := tagInfo, indentLevel := lineIndentLevel }]
        indentLevel := lineIndentLevel + 1 }
    else
      { st with content := appendPiece content fullTag }
  else
    { st with content := appendPiece content fullTag }

/-- The second loop of `processLineWithAlignment` over the matches of a line. -/
def processTags (lineIndentLevel : Int) : PassState → List (Str × Str) → PassState
  | st, [] => st
  | st, (before, fullTag) :: ms =>
    processTags lineIndentLevel (processTag lineIndentLevel st before fullTag) ms

/-- The flag `hasClosingTag` computed by the first loop of `processLineWithAlignment`. -/
def hasClosingTag (tempMatches : List TagInfo) : Bool :=
  tempMatches.any (fun tagInfo => tagInfo.isClosing && tagInfo.isBlock)

/-- The value of `lineIndentLevel` (and of `indentLevel`) after the block
"If line starts with closing tag, align it with its opening tag". -/
def alignLevel (tempMatches : List TagInfo) (currentIndentLevel : Int)
    (tagStack : List StackItem) : Int :=
  if hasClosingTag tempMatches && decide (tempMatches.length > 0) then
    match tempMatches.head? with
    | some firstTag =>
      if firstTag.isClosing && firstTag.isBlock then
        match findMatchingTagInStack tagStack firstTag.tagName with
        | some matchingTag => matchingTag.indentLevel
        | none => currentIndentLevel
      else currentIndentLevel
    | none => currentIndentLevel
  else currentIndentLevel

/-- The object returned by `processLineWithAlignment`, together with the tag stack as the
call leaves it. -/
structure LineResult where
  content : Str
  indentLevel : Int
  newIndentLevel : Int
  tagStack : List StackItem
  deriving DecidableEq, Repr

/-- The method `processLineWithAlignment` (its parameter `indentUnit` is never read). -/
def processLineWithAlignment (line : Str) (currentIndentLevel : Int)
    (tagStack : List StackItem) : LineResult :=
  let ms := execAll line
  let tempMatches := ms.1.map (fun m => analyzeTag m.2)
  let lineIndentLevel := alignLevel tempMatches currentIndentLevel tagStack
  let st := processTags lineIndentLevel
    { content := [], tagStack := tagStack, indentLevel := lineIndentLevel } ms.1
  let remaining := trim ms.2
  let content := if remaining ≠ [] then appendPiece st.content remaining else st.content
  { content := trim content
    indentLevel := lineIndentLevel
    newIndentLevel := st.indentLevel
    tagStack := st.tagStack }

/-- The expression `indentUnit.repeat(Math.max(0, level))`. -/
def indentOf (indentUnit : Str) (level : Int) : Str :=
  strRepeat indentUnit (max 0 level).toNat

/-- The loop `for (let line of lines)` of `parseAndFormat`: the array `result`. -/
def formatLines (indentUnit : Str) : List Str → Int → List StackItem → List Str
  | [], _, _ => []
  | line :: lines, indentLevel, tagStack =>
    let trimmedLine := trim line
    if trimmedLine = [] then formatLines indentUnit lines indentLevel tagStack
    else
      let processedLine := processLineWithAlignment trimmedLine indentLevel tagStack
      if processedLine.content ≠ [] then
        (indentOf indentUnit processedLine.indentLevel ++ processedLine.content) ::
          formatLines indentUnit lines processedLine.newIndentLevel processedLine.tagStack
      else
        formatLines indentUnit lines indentLevel processedLine.tagStack

/-- The method `parseAndFormat`. -/
def parseAndFormat (text indentUnit : Str) : Str :=
  joinLines (formatLines indentUnit (splitLines (replaceCR (replaceCRLF text))) 0 [])

/-- The `options` argument of `formatDocument`; an absent key is `none`. -/
structure Options where
  indentSize : Option Nat := none
  insertSpaces : Option Bool := none
  deriving DecidableEq, Repr

/-- The expression `options.indentSize || 4`: an absent or zero size gives 4. -/
def indentSizeOf (options : Options) : Nat :=
  match options.indentSize with
  | some n => if n = 0 then 4 else n
  | none => 4

/-- The constant `indentUnit` of `formatDocument`. -/
def indentUnitOf (options : Options) : Str :=
  if options.insertSpaces ≠ some false then strRepeat [' '] (indentSizeOf options)
  else ['\t']

/-- The body of `formatDocument` around a scanner that may throw: the `try` block returns
what the scanner returns and the `catch` block returns `text`. -/
def formatDocumentWith {ε : Type} (scan : Str → Str → Except ε Str)
    (text : Str) (options : Options) : Str :=
  match scan text (indentUnitOf options) with
  | .ok formatted => formatted
  | .error _ => text

/-- The method `formatDocument`; `parseAndFormat` as modelled here never throws. -/
def formatDocument (text : Str) (options : Options := {}) : Str :=
  formatDocumentWith (fun t u => (Except.ok (parseAndFormat t u) : Except Unit Str)) text options

/-! ## Auxiliary notions used in the proofs -/

/-- A pattern that ends with `>` and has no other `>`. -/
def EndsGt (pat : Str) : Prop := ∃ q : Str, pat = q ++ ['>'] ∧ '>' ∉ q

/-- No match of `tagRegex` starts inside `b` when `b` is followed by `ctx`. -/
def Quiet : Str → Str → Prop
  | [], _ => True
  | c :: cs, ctx => matchTagAt (c :: (cs ++ ctx)) = none ∧ Quiet cs ctx

/-- A piece preceded by a space; nothing for the empty piece. -/
def sp (x : Str) : Str := if x = [] then [] else ' ' :: x

/-- The pieces that the second loop of `processLineWithAlignment` appends for a list of
matches and the text after the last match, each preceded by a space. -/
def outToks : List (Str × Str) → Str → Str
  | [], rem => sp (trim rem)
  | (b, t) :: ms, rem => sp (trim b) ++ (' ' :: (t ++ outToks ms rem))

/-- The string built by the second loop: the pieces of the matches, starting from `c`. -/
def contentFold : Str → List (Str × Str) → Str
  | c, [] => c
  | c, (b, t) :: ms =>
    contentFold (appendPiece (if trim b ≠ [] then appendPiece c (trim b) else c) t) ms

/-- The pieces of a line, all matches having the shape `<…>`. -/
def TagShaped (ms : List (Str × Str)) : Prop :=
  ∀ m ∈ ms, ∃ x, m.2 = '<' :: x ∧ x.getLast? = some '>'

/-- The matches of a line with the text runs trimmed: all that the second loop reads. -/
def normToks (p : List (Str × Str) × Str) : List (Str × Str) × Str :=
  (p.1.map (fun m => (trim m.1, m.2)), trim p.2)

/-- The body of `processLineWithAlignment` on the matches of the line and the text after
the last match. -/
def processPieces (ms : List (Str × Str)) (rem : Str) (currentIndentLevel : Int)
    (tagStack : List StackItem) : LineResult :=
  let tempMatches := ms.map (fun m => analyzeTag m.2)
  let lineIndentLevel := alignLevel tempMatches currentIndentLevel tagStack
  let st := processTags lineIndentLevel
    { content := [], tagStack := tagStack, indentLevel := lineIndentLevel } ms
  let remaining := trim rem
  let content := if remaining ≠ [] then appendPiece st.content remaining else st.content
  { content := trim content
    indentLevel := lineIndentLevel
    newIndentLevel := st.indentLevel
    tagStack := st.tagStack }

/-! ## The emitted lines and the annotated trace -/

/-- The loop of `parseAndFormat` recording, for every emitted line, the indent level
`processedLine.indentLevel` and the text `processedLine.content`. -/
def layoutLines : List Str → Int → List StackItem → List (Int × Str)
  | [], _, _ => []
  | line :: lines, indentLevel, tagStack =>
    let trimmedLine := trim line
    if trimmedLine = [] then layoutLines lines indentLevel tagStack
    else
      let processedLine := processLineWithAlignment trimmedLine indentLevel tagStack
      if processedLine.content ≠ [] then
        (processedLine.indentLevel, processedLine.content) ::
          layoutLines lines processedLine.newIndentLevel processedLine.tagStack
      else
        layoutLines lines indentLevel processedLine.tagStack

/-- The emitted lines of a text: indent level and content of each. -/
def layout (text : Str) : List (Int × Str) :=
  layoutLines (splitLines (replaceCR (replaceCRLF text))) 0 []

/-- A stack entry paired with the number of the emitted line whose processing pushed it.
The number is a ghost annotation: the formatter never reads it. -/
structure TracedItem where
  item : StackItem
  origin : Nat
  deriving DecidableEq, Repr

/-- The method `findMatchingTagInStack` on an annotated stack. -/
def findMatchingTraced (ts : List TracedItem) (tagName : Str) : Option TracedItem :=
  ts.reverse.find? (fun e => e.item.tagName == tagName)

/-- The method `removeFromTagStack` on an annotated stack. -/
def removeFromTraced (ts : List TracedItem) (tagName : Str) : List TracedItem :=
  (eraseFirst (fun e => e.item.tagName == tagName) ts.reverse).reverse

/-- The mutable variables of the second loop, with an annotated stack. -/
structure TracedState where
  content : Str
  tagStack : List TracedItem
  indentLevel : Int
  deriving DecidableEq, Repr

/-- One iteration of the second loop of `processLineWithAlignment` on an annotated stack,
while processing emitted line number `k`: an entry that is pushed is annotated with `k`. -/
def processTagTraced (k : Nat) (lineIndentLevel : Int) (st : TracedState)
    (before fullTag : Str) : TracedState :=
  let beforeTag := trim before
  let content := if beforeTag ≠ [] then appendPiece st.content beforeTag else st.content
  let tagInfo := analyzeTag fullTag
  if tagInfo.isClosing then
    if tagInfo.isBlock && (findMatchingTraced st.tagStack tagInfo.tagName).isSome then
      let tagStack := removeFromTraced st.tagStack tagInfo.tagName
      { content := appendPiece content fullTag
        tagStack := tagStack
        indentLevel := match tagStack.getLast? with
          | some top => top.item.indentLevel + 1
          | none => 0 }
    else
      { st with content := appendPiece content fullTag }
  else if tagInfo.isOpening && !tagInfo.isSelfClosing then
    if tagInfo.isBlock then
      { content := appendPiece content fullTag
        tagStack := st.tagStack ++
          [{ item := { toTagInfo := tagInfo, indentLevel := lineIndentLevel }, origin := k }]
        indentLevel := lineIndentLevel + 1 }
    else
      { st with content := appendPiece content fullTag }
  else
    { st with content := appendPiece content fullTag }

/-- The second loop of `processLineWithAlignment` on an annotated stack. -/
def processTagsTraced (k : Nat) (lineIndentLevel : Int) :
    TracedState → List (Str × Str) → TracedState
  | st, [] => st
  | st, (before, fullTag) :: ms =>
    processTagsTraced k lineIndentLevel (processTagTraced k lineIndentLevel st before fullTag) ms

/-- The annotation of the entry that the block "If line starts with closing tag, align it
with its opening tag" finds; `none` when the block does not change the indent level. -/
def alignOrigin (tempMatches : List TagInfo) (ts : List TracedItem) : Option Nat :=
  if hasClosingTag tempMatches && decide (tempMatches.length > 0) then
    match tempMatches.head? with
    | some firstTag =>
      if firstTag.isClosing && firstTag.isBlock then
        (findMatchingTraced ts firstTag.tagName).map (fun e => e.origin)
      else none
    | none => none
  else none

/-- An emitted line: its indent level, its content, and the number of the emitted line
that pushed the entry its leading closing tag was aligned with, if any. -/
structure TracedLine where
  level : Int
  content : Str
  alignedWith : Option Nat
  deriving DecidableEq, Repr

/-- The loop of `parseAndFormat` on an annotated stack; `k` counts the lines emitted
so far. -/
def traceLines : List Str → Nat → Int → List TracedItem → List TracedLine
  | [], _, _, _ => []
  | line :: lines, k, indentLevel, ts =>
    let trimmedLine := trim line
    if trimmedLine = [] then traceLines lines k indentLevel ts
    else
      let ms := execAll trimmedLine
      let tempMatches := ms.1.map (fun m => analyzeTag m.2)
      let lineIndentLevel := alignLevel tempMatches indentLevel (ts.map (fun e => e.item))
      let st := processTagsTraced k lineIndentLevel
        { content := [], tagStack := ts, indentLevel := lineIndentLevel } ms.1
      let processedLine :=
        processLineWithAlignment trimmedLine indentLevel (ts.map (fun e => e.item))
      if processedLine.content ≠ [] then
        { level := processedLine.indentLevel, content := processedLine.content,
          alignedWith := alignOrigin tempMatches ts } ::
          traceLines lines (k + 1) processedLine.newIndentLevel st.tagStack
      else
        traceLines lines k indentLevel st.tagStack

/-- The annotated trace of a text. -/
def traceDocument (text : Str) : List TracedLine :=
  traceLines (splitLines (replaceCR (replaceCRLF text))) 0 0 []

/-- Forgetting the annotations of a state. -/
def TracedState.erase (st : TracedState) : PassState :=
  { content := st.content, tagStack := st.tagStack.map (fun e => e.item),
    indentLevel := st.indentLevel }

/-- Every entry of the annotated stack carries the indent level of the emitted line that
pushed it. -/
def TraceInv (pre : List TracedLine) (ts : List TracedItem) : Prop :=
  ∀ e ∈ ts, ∃ t0, pre[e.origin]? = some t0 ∧ t0.level = e.item.indentLevel

/-- Modelled from the spec: the tag name as the specification words it, the lowercased
first run of letters and digits that immediately follows the leading `</` of a closing
tag or the leading `<` of any other tag (empty when no such run follows). -/
def leadingName (trimmed : Str) : Str :=
  toLowerCase
    ((trimmed.drop (if startsWith trimmed "</".toList then 2 else 1)).takeWhile
      Char.isAlphanum)

/-- A tag that neither pops nor pushes: not a closing block tag and not an opening block tag
that is not self-closing. -/
def InertTag (info : TagInfo) : Prop :=
  (info.isClosing && info.isBlock) = false ∧
    (info.isOpening && !info.isSelfClosing && info.isBlock) = false

/-- The classification with the field `fullTag` blanked. -/
def blankFullTag (info : TagInfo) : TagInfo := { info with fullTag := [] }

/-- Modelled from the spec: the lines of an output text; the empty text has no line. -/
def outputLines (s : Str) : List Str := if s = [] then [] else splitLines s

/-- Modelled from the spec: the tags of a line, in order; a tag is a match of `tagRegex`. -/
def tagsOf (line : Str) : List Str := (execAll line).1.map (fun m => m.2)

/-- Modelled from the spec: the text with its white space deleted, white space being the
characters that `trim` removes. -/
def stripWhiteSpace (s : Str) : Str := s.filter (fun c => !isWhiteSpace c)

/-- The states of the second loop of `processLineWithAlignment`: the state before the
first match and the state after each match. -/
def tagStates (lineIndentLevel : Int) : PassState → List (Str × Str) → List PassState
  | st, [] => [st]
  | st, (before, fullTag) :: ms =>
    st :: tagStates lineIndentLevel (processTag lineIndentLevel st before fullTag) ms

/-- One iteration of the loop of `parseAndFormat` on a non-blank line: the trimmed line,
the running indent level and the stack when the iteration starts, the states of the
second loop of `processLineWithAlignment`, and what the call returns. -/
structure LineStep where
  line : Str
  indentLevel : Int
  tagStack : List StackItem
  states : List PassState
  result : LineResult
  deriving DecidableEq, Repr

/-- The loop of `parseAndFormat`, recording every iteration on a non-blank line. -/
def lineSteps : List Str → Int → List StackItem → List LineStep
  | [], _, _ => []
  | line :: lines, indentLevel, tagStack =>
    let trimmedLine := trim line
    if trimmedLine = [] then lineSteps lines indentLevel tagStack
    else
      let processedLine := processLineWithAlignment trimmedLine indentLevel tagStack
      let lineIndentLevel :=
        alignLevel ((execAll trimmedLine).1.map (fun m => analyzeTag m.2)) indentLevel tagStack
      let step : LineStep := LineStep.mk trimmedLine indentLevel tagStack
        (tagStates lineIndentLevel (PassState.mk [] tagStack lineIndentLevel)
          (execAll trimmedLine).1) processedLine
      if processedLine.content ≠ [] then
        step :: lineSteps lines processedLine.newIndentLevel processedLine.tagStack
      else
        step :: lineSteps lines indentLevel processedLine.tagStack

/-- The values of `indentLevel` and `tagStack` when the loop of `parseAndFormat` ends. -/
def finalState : List Str → Int → List StackItem → Int × List StackItem
  | [], indentLevel, tagStack => (indentLevel, tagStack)
  | line :: lines, indentLevel, tagStack =>
    let trimmedLine := trim line
    if trimmedLine = [] then finalState lines indentLevel tagStack
    else
      let processedLine := processLineWithAlignment trimmedLine indentLevel tagStack
      if processedLine.content ≠ [] then
        finalState lines processedLine.newIndentLevel processedLine.tagStack
      else
        finalState lines indentLevel processedLine.tagStack

/-- The iterations of the loop of `parseAndFormat` on a text. -/
def documentSteps (text : Str) : List LineStep :=
  lineSteps (splitLines (replaceCR (replaceCRLF text))) 0 []

/-- The indent levels of a stack do not decrease from the bottom to the top. -/
def NonDecreasing (tagStack : List StackItem) : Prop :=
  tagStack.Pairwise (fun a b => a.indentLevel ≤ b.indentLevel)

instance decidableNonDecreasing (tagStack : List StackItem) :
    Decidable (NonDecreasing tagStack) :=
  inferInstanceAs
    (Decidable (List.Pairwise (fun (a b : StackItem) => a.indentLevel ≤ b.indentLevel) tagStack))

/-- Modelled from the spec: the tag of a line that holds exactly one tag. -/
def singleTag (line : Str) : Option TagInfo :=
  match (execAll line).1 with
  | [m] => some (analyzeTag m.2)
  | _ => none

/-- Modelled from the spec: an opening non-self-closing block tag. -/
def isOpener (info : TagInfo) : Bool :=
  info.isOpening && !info.isSelfClosing && info.isBlock

/-- Modelled from the spec: the block tags still open after non-blank line number `k`,
given those open before it, each as the number of its opening line and its name, the
innermost last; `none` unless the line holds exactly one tag, that tag being an opening
non-self-closing block tag or the closing tag of the innermost open block tag. -/
def openAfter (k : Nat) (opened : List (Nat × Str)) (line : Str) :
    Option (List (Nat × Str)) :=
  match singleTag line with
  | some info =>
    if isOpener info then some (opened ++ [(k, info.tagName)])
    else if info.isClosing && (opened.getLast?.map (fun o => o.2) == some info.tagName) then
      some opened.dropLast
    else none
  | none => none

/-- Modelled from the spec: the block tags open before each non-blank line and, last,
those open after the last line, the non-blank lines being numbered from `k`; `none` when
the document is not well nested. -/
def nesting : Nat → List (Nat × Str) → List Str → Option (List (List (Nat × Str)))
  | _, opened, [] => some [opened]
  | k, opened, line :: lines =>
    if trim line = [] then nesting k opened lines
    else
      match openAfter k opened (trim line) with
      | some opened2 => (nesting (k + 1) opened2 lines).map (fun r => opened :: r)
      | none => none

/-- A name for which the block "Determine properties" of `analyzeTag` sets `isBlock`. -/
def blockName (n : Str) : Bool :=
  decide (n ≠ []) && (if startsWith n "cf".toList then blockLevelCFTags.contains n
    else blockLevelHTMLTags.contains n)

/-- The stack of a well-nested document: one entry per open block tag, with its name and
with its depth as level, pushed by the line that the open tag records. -/
def NestInv (pre : List LineStep) (opened : List (Nat × Str)) (L : Int)
    (st : List StackItem) : Prop :=
  L = opened.length ∧ st.length = opened.length ∧
  ∀ (i : Nat) (e : StackItem) (o : Nat × Str), st[i]? = some e → opened[i]? = some o →
    e.tagName = o.2 ∧ e.indentLevel = i ∧ blockName o.2 = true ∧
    ∃ s0 info0, pre[o.1]? = some s0 ∧ s0.result.indentLevel = i ∧
      singleTag s0.line = some info0 ∧ isOpener info0 = true ∧ info0.tagName = o.2

/-! ## Lemmas on `trim` -/

theorem trim_of_forall_ws {s : Str} (h : ∀ c ∈ s, isWhiteSpace c = true) : trim s = [] := by
  unfold trim
  have : s.dropWhile isWhiteSpace = [] := by
    rw [List.dropWhile_eq_nil_iff]; exact h
  rw [this]; simp

theorem trim_ws_append {w s : Str} (h : ∀ c ∈ w, isWhiteSpace c = true) :
    trim (w ++ s) = trim s := by
  unfold trim
  rw [List.dropWhile_append_of_pos h]

theorem rdropWhile_append_ws {w s : Str} (h : ∀ c ∈ w, isWhiteSpace c = true) :
    (s ++ w).rdropWhile isWhiteSpace = s.rdropWhile isWhiteSpace := by
  induction w using List.reverseRecOn with
  | nil => simp
  | append_singleton w c ih =>
    rw [← List.append_assoc, List.rdropWhile_concat_pos]
    · exact ih (fun d hd => h d (by simp [hd]))
    · exact h c (by simp)

theorem dropWhile_append_of_ne_nil {s w : Str} (h : s.dropWhile isWhiteSpace ≠ []) :
    (s ++ w).dropWhile isWhiteSpace = s.dropWhile isWhiteSpace ++ w := by
  induction s with
  | nil => simp at h
  | cons c cs ih =>
    by_cases hc : isWhiteSpace c = true
    · simp only [List.cons_append, List.dropWhile_cons, hc, if_true] at h ⊢
      exact ih h
    · simp [List.dropWhile_cons, hc]

theorem trim_append_ws {w s : Str} (h : ∀ c ∈ w, isWhiteSpace c = true) :
    trim (s ++ w) = trim s := by
  by_cases hs : s.dropWhile isWhiteSpace = []
  · have hall : ∀ c ∈ s, isWhiteSpace c = true := by
      rwa [List.dropWhile_eq_nil_iff] at hs
    rw [trim_of_forall_ws hall, trim_of_forall_ws]
    intro c hc
    rcases List.mem_append.1 hc with h1 | h1
    · exact hall c h1
    · exact h c h1
  · unfold trim
    rw [dropWhile_append_of_ne_nil hs, rdropWhile_append_ws h]

/-- Every string is its trimmed form surrounded by white space. -/
theorem trim_decomp (s : Str) :
    ∃ w1 w2 : Str, (∀ c ∈ w1, isWhiteSpace c = true) ∧ (∀ c ∈ w2, isWhiteSpace c = true) ∧
      s = w1 ++ trim s ++ w2 := by
  refine ⟨s.takeWhile isWhiteSpace,
    (s.dropWhile isWhiteSpace).rtakeWhile isWhiteSpace, ?_, ?_, ?_⟩
  · intro c hc
    exact List.mem_takeWhile_imp hc
  · intro c hc
    exact List.mem_rtakeWhile_imp hc
  · unfold trim
    have h1 : (s.dropWhile isWhiteSpace).rdropWhile isWhiteSpace ++
        (s.dropWhile isWhiteSpace).rtakeWhile isWhiteSpace = s.dropWhile isWhiteSpace := by
      unfold List.rdropWhile List.rtakeWhile
      rw [← List.reverse_append, List.takeWhile_append_dropWhile, List.reverse_reverse]
    rw [List.append_assoc, h1, List.takeWhile_append_dropWhile]

theorem trim_head_not_ws {s : Str} {c : Char} {cs : Str} (h : trim s = c :: cs) :
    isWhiteSpace c = false := by
  unfold trim at h
  have hpre : (s.dropWhile isWhiteSpace).rdropWhile isWhiteSpace <+: s.dropWhile isWhiteSpace :=
    List.rdropWhile_prefix _ _
  rw [h] at hpre
  obtain ⟨t, ht⟩ := hpre
  have hne : s.dropWhile isWhiteSpace ≠ [] := by rw [← ht]; simp
  have := List.head_dropWhile_not isWhiteSpace s hne
  simp only [← ht, List.cons_append, List.head_cons] at this
  simpa using this

theorem trim_last_not_ws {s : Str} (h : trim s ≠ []) :
    isWhiteSpace ((trim s).getLast h) = false := by
  have := List.rdropWhile_last_not (p := isWhiteSpace) (l := s.dropWhile isWhiteSpace) h
  simpa [trim] using this

theorem trim_eq_self {s : Str} (h1 : ∀ c cs, s = c :: cs → isWhiteSpace c = false)
    (h2 : ∀ (h : s ≠ []), isWhiteSpace (s.getLast h) = false) : trim s = s := by
  unfold trim
  have hd : s.dropWhile isWhiteSpace = s := by
    cases s with
    | nil => rfl
    | cons c cs => simp [List.dropWhile_cons, h1 c cs rfl]
  rw [hd, List.rdropWhile_eq_self_iff]
  intro hl
  simp [h2 hl]

theorem trim_trim (s : Str) : trim (trim s) = trim s := by
  apply trim_eq_self
  · intro c cs h; exact trim_head_not_ws h
  · intro h; exact trim_last_not_ws h

theorem trim_infix_self (s : Str) : trim s <:+: s := by
  obtain ⟨w1, w2, _, _, h⟩ := trim_decomp s
  exact ⟨w1, w2, h.symm⟩

theorem mem_of_mem_trim {s : Str} {c : Char} (h : c ∈ trim s) : c ∈ s :=
  (trim_infix_self s).subset h

/-! ## Lemmas on `findFirst` -/

theorem findFirst_some {pat : Str} : ∀ {s a r : Str}, findFirst pat s = some (a, r) →
    s = a ++ r ∧ pat <:+ a := by
  intro s
  induction s with
  | nil => intro a r h; simp [findFirst] at h
  | cons c cs ih =>
    intro a r h
    unfold findFirst at h
    split at h
    · rename_i hp
      simp only [Option.some.injEq, Prod.mk.injEq] at h
      obtain ⟨rfl, rfl⟩ := h
      rw [List.isPrefixOf_iff_prefix] at hp
      obtain ⟨t, ht⟩ := hp
      refine ⟨?_, List.suffix_refl _⟩
      rw [← ht, List.drop_left]
    · cases hf : findFirst pat cs with
      | none => simp [hf] at h
      | some p =>
        obtain ⟨a', r'⟩ := p
        simp only [hf, Option.some.injEq, Prod.mk.injEq] at h
        obtain ⟨rfl, rfl⟩ := h
        obtain ⟨h1, h2⟩ := ih hf
        refine ⟨by rw [h1]; rfl, ?_⟩
        exact h2.trans (List.suffix_cons c a')

theorem findFirst_eq_none_iff {pat : Str} (hp : pat ≠ []) :
    ∀ {s : Str}, findFirst pat s = none ↔ ¬ pat <:+: s := by
  intro s
  induction s with
  | nil => simp [findFirst, hp]
  | cons c cs ih =>
    unfold findFirst
    rw [List.infix_cons_iff]
    by_cases h : pat.isPrefixOf (c :: cs) = true
    · simp only [h, if_true]
      rw [List.isPrefixOf_iff_prefix] at h
      simp [h]
    · simp only [h]
      rw [List.isPrefixOf_iff_prefix] at h
      cases hf : findFirst pat cs with
      | none =>
        have := ih.1 hf
        simp [h, this]
      | some p =>
        have : ¬ ¬ pat <:+: cs := fun hn => by rw [ih.2 hn] at hf; cases hf
        simp only [Bool.false_eq_true, if_false, reduceCtorEq, false_iff, not_not]
        right
        exact not_not.1 this

theorem findFirst_stable {pat : Str} (hp : pat ≠ []) :
    ∀ {s a r : Str}, findFirst pat s = some (a, r) → ∀ r' : Str,
      findFirst pat (a ++ r') = some (a, r') := by
  intro s
  induction s with
  | nil => intro a r h; simp [findFirst] at h
  | cons c cs ih =>
    intro a r h r'
    unfold findFirst at h
    split at h
    · simp only [Option.some.injEq, Prod.mk.injEq] at h
      obtain ⟨rfl, rfl⟩ := h
      cases hpat : pat with
      | nil => exact absurd hpat hp
      | cons p ps =>
        rw [← hpat]
        have e : pat ++ r' = p :: (ps ++ r') := by rw [hpat]; rfl
        rw [e]
        unfold findFirst
        rw [← e]
        have hpre : pat.isPrefixOf (pat ++ r') = true := by
          rw [List.isPrefixOf_iff_prefix]; exact List.prefix_append _ _
        simp [hpre]
    · rename_i hnp
      cases hf : findFirst pat cs with
      | none => simp [hf] at h
      | some p =>
        obtain ⟨a', r0⟩ := p
        simp only [hf, Option.some.injEq, Prod.mk.injEq] at h
        obtain ⟨rfl, rfl⟩ := h
        have hih := ih hf r'
        obtain ⟨h1, h2⟩ := findFirst_some hf
        show findFirst pat (c :: (a' ++ r')) = some (c :: a', r')
        unfold findFirst
        have hnp' : ¬ pat.isPrefixOf (c :: (a' ++ r')) = true := by
          intro hpre
          apply hnp
          rw [List.isPrefixOf_iff_prefix] at hpre ⊢
          have hlen : pat.length ≤ (c :: a').length := by
            have := h2.length_le
            simp only [List.length_cons]; omega
          have h3 : pat <+: c :: a' :=
            List.prefix_of_prefix_length_le hpre (List.prefix_append (c :: a') r') hlen
          rw [h1]
          exact h3.trans (List.prefix_append (c :: a') r0)
        simp [hnp', hih]

theorem singleton_infix_iff_mem {c : Char} {s : Str} : [c] <:+: s ↔ c ∈ s := by
  constructor
  · rintro ⟨a, b, rfl⟩; simp
  · intro h
    obtain ⟨a, b, rfl⟩ := List.append_of_mem h
    exact ⟨a, b, by simp⟩

theorem findFirst_gt_eq_none_iff {s : Str} : findFirst ['>'] s = none ↔ '>' ∉ s := by
  rw [findFirst_eq_none_iff (by simp), singleton_infix_iff_mem]

/-- An occurrence of `pat` in `x ++ z` lies in `x`, lies in `z`, or straddles the seam. -/
theorem infix_append_cases {pat x z : Str} (h : pat <:+: x ++ z) :
    pat <:+: x ∨ pat <:+: z ∨
      ∃ p1 p2 : Str, pat = p1 ++ p2 ∧ p1 ≠ [] ∧ p2 ≠ [] ∧ p1 <:+ x ∧ p2 <+: z := by
  obtain ⟨s, t, hst⟩ := h
  rw [List.append_assoc, List.append_eq_append_iff] at hst
  rcases hst with ⟨a', hx, h2⟩ | ⟨c', hs, hz⟩
  · rw [List.append_eq_append_iff] at h2
    rcases h2 with ⟨b', hb, _⟩ | ⟨c', hc, hz⟩
    · left
      exact ⟨s, b', by rw [hx, hb, List.append_assoc]⟩
    · by_cases ha : a' = []
      · right; left
        subst ha
        simp only [List.nil_append] at hc
        exact ⟨[], t, by rw [hz, hc]; simp⟩
      · by_cases hc' : c' = []
        · left
          subst hc'
          simp only [List.append_nil] at hc
          exact ⟨s, [], by rw [hx, hc]; simp⟩
        · right; right
          exact ⟨a', c', hc, ha, hc', ⟨s, hx.symm⟩, ⟨t, hz.symm⟩⟩
  · right; left
    exact ⟨c', t, by rw [hz]; simp⟩

/-! ## Lemmas on `matchTagAt` -/

theorem ciPrefix_append_of_le {lit x : Str} (r : Str) (h : lit.length ≤ x.length) :
    ciPrefix lit (x ++ r) = ciPrefix lit x := by
  unfold ciPrefix
  rw [Bool.eq_iff_iff, List.isPrefixOf_iff_prefix, List.isPrefixOf_iff_prefix, List.map_append]
  constructor
  · intro hp
    exact List.prefix_of_prefix_length_le hp (List.prefix_append _ _) (by simpa using h)
  · intro hp
    exact hp.trans (List.prefix_append _ _)

theorem ciPrefix_length_le {lit x r : Str} (h : ciPrefix lit (x ++ r) = true)
    (hx : '>' ∈ x) (hl : '>' ∉ lit.map Char.toLower) : lit.length ≤ x.length := by
  unfold ciPrefix at h
  rw [List.isPrefixOf_iff_prefix, List.map_append] at h
  rcases List.prefix_or_prefix_of_prefix h (List.prefix_append (x.map Char.toLower) _) with h1 | h1
  · simpa using h1.length_le
  · exfalso
    apply hl
    apply h1.subset
    exact List.mem_map.2 ⟨'>', hx, by decide⟩

theorem ciPrefix_length {lit s : Str} (h : ciPrefix lit s = true) : lit.length ≤ s.length := by
  unfold ciPrefix at h
  rw [List.isPrefixOf_iff_prefix] at h
  simpa using h.length_le

theorem tagLiteral_some {lit pat s t r : Str} (h : tagLiteral lit pat s = some (t, r)) :
    ciPrefix lit s = true ∧ ∃ a, findFirst pat (s.drop lit.length) = some (a, r) ∧
      t = '<' :: s.take lit.length ++ a := by
  unfold tagLiteral at h
  split at h
  · rename_i hc
    refine ⟨hc, ?_⟩
    cases hf : findFirst pat (s.drop lit.length) with
    | none => rw [hf] at h; cases h
    | some p =>
      obtain ⟨a, r0⟩ := p
      rw [hf] at h
      simp only [Option.map_some', Option.some.injEq, Prod.mk.injEq] at h
      obtain ⟨rfl, rfl⟩ := h
      exact ⟨a, rfl, rfl⟩
  · cases h

theorem tagGeneric_cons {c : Char} (cs : Str) (hc : c ≠ '>') :
    tagGeneric (c :: cs) = (findFirst ['>'] cs).map (fun m => ('<' :: c :: m.1, m.2)) := by
  simp [tagGeneric, hc]

theorem tagGeneric_some {s t r : Str} (h : tagGeneric s = some (t, r)) :
    ∃ c cs a, s = c :: cs ∧ c ≠ '>' ∧ findFirst ['>'] cs = some (a, r) ∧ t = '<' :: c :: a := by
  cases s with
  | nil => simp [tagGeneric] at h
  | cons c cs =>
    by_cases hc : c = '>'
    · simp [tagGeneric, hc] at h
    · rw [tagGeneric_cons cs hc] at h
      cases hf : findFirst ['>'] cs with
      | none => rw [hf] at h; cases h
      | some p =>
        obtain ⟨a, r0⟩ := p
        rw [hf] at h
        simp only [Option.map_some', Option.some.injEq, Prod.mk.injEq] at h
        obtain ⟨rfl, rfl⟩ := h
        exact ⟨c, cs, a, rfl, hc, hf, rfl⟩

theorem endsGt_comment : EndsGt "-->".toList := ⟨['-', '-'], rfl, by decide⟩
theorem endsGt_cdata : EndsGt "]]>".toList := ⟨[']', ']'], rfl, by decide⟩
theorem endsGt_gt : EndsGt ">".toList := ⟨[], rfl, by decide⟩

theorem EndsGt.ne_nil {pat : Str} (h : EndsGt pat) : pat ≠ [] := by
  obtain ⟨q, rfl, _⟩ := h; simp

theorem getLast?_of_suffix_endsGt {pat a : Str} (hp : EndsGt pat) (h : pat <:+ a) :
    a.getLast? = some '>' := by
  obtain ⟨q, rfl, _⟩ := hp
  obtain ⟨u, rfl⟩ := h
  rw [← List.append_assoc]
  simp

theorem tagLiteral_shape {lit pat s t r : Str} (hp : EndsGt pat)
    (h : tagLiteral lit pat s = some (t, r)) :
    ∃ x, t = '<' :: x ∧ s = x ++ r ∧ x.getLast? = some '>' := by
  obtain ⟨_, a, hf, rfl⟩ := tagLiteral_some h
  obtain ⟨h1, h2⟩ := findFirst_some hf
  refine ⟨s.take lit.length ++ a, rfl, ?_, ?_⟩
  · rw [List.append_assoc, ← h1, List.take_append_drop]
  · have ha := getLast?_of_suffix_endsGt hp h2
    have hne : a ≠ [] := by intro e; rw [e] at ha; simp at ha
    rw [List.getLast?_append_of_ne_nil _ hne]
    exact ha

theorem tagGeneric_shape {s t r : Str} (h : tagGeneric s = some (t, r)) :
    ∃ x, t = '<' :: x ∧ s = x ++ r ∧ x.getLast? = some '>' := by
  obtain ⟨c, cs, a, rfl, _, hf, rfl⟩ := tagGeneric_some h
  obtain ⟨h1, h2⟩ := findFirst_some hf
  refine ⟨c :: a, rfl, by rw [h1]; rfl, ?_⟩
  have ha := getLast?_of_suffix_endsGt endsGt_gt h2
  have hne : a ≠ [] := by intro e; rw [e] at ha; simp at ha
  have e : c :: a = [c] ++ a := rfl
  rw [e, List.getLast?_append_of_ne_nil _ hne]
  exact ha

theorem matchTagAt_of_ne {c : Char} (s : Str) (h : c ≠ '<') : matchTagAt (c :: s) = none := by
  simp [matchTagAt, h]

theorem matchTagAt_cons_lt (v : Str) :
    matchTagAt ('<' :: v) =
      (tagComment v).or ((tagCData v).or ((tagDoctype v).or (tagGeneric v))) := by
  simp [matchTagAt]

theorem or_eq_some_cases {α : Type} {a b : Option α} {m : α} (h : a.or b = some m) :
    a = some m ∨ (a = none ∧ b = some m) := by
  cases a with
  | none => right; exact ⟨rfl, by simpa using h⟩
  | some x => left; simpa using h

/-- A match of `tagRegex` is a prefix of the input that starts with `<` and ends
with `>`. -/
theorem matchTagAt_shape {s t r : Str} (h : matchTagAt s = some (t, r)) :
    ∃ x, t = '<' :: x ∧ s = t ++ r ∧ x.getLast? = some '>' := by
  cases s with
  | nil => simp [matchTagAt] at h
  | cons c v =>
    by_cases hc : c = '<'
    · subst hc
      rw [matchTagAt_cons_lt] at h
      have key : ∀ {t r : Str}, (∃ x, t = '<' :: x ∧ v = x ++ r ∧ x.getLast? = some '>') →
          ∃ x, t = '<' :: x ∧ '<' :: v = t ++ r ∧ x.getLast? = some '>' := by
        rintro t r ⟨x, rfl, rfl, hx⟩
        exact ⟨x, rfl, rfl, hx⟩
      rcases or_eq_some_cases h with h1 | ⟨_, h⟩
      · exact key (tagLiteral_shape endsGt_comment h1)
      rcases or_eq_some_cases h with h2 | ⟨_, h⟩
      · exact key (tagLiteral_shape endsGt_cdata h2)
      rcases or_eq_some_cases h with h3 | ⟨_, h⟩
      · exact key (tagLiteral_shape endsGt_gt h3)
      exact key (tagGeneric_shape h)
    · rw [matchTagAt_of_ne v hc] at h; cases h

theorem tagLiteral_eq_none_of_not_mem {lit pat v : Str} (hp : EndsGt pat) (hv : '>' ∉ v) :
    tagLiteral lit pat v = none := by
  unfold tagLiteral
  split
  · have : findFirst pat (v.drop lit.length) = none := by
      rw [findFirst_eq_none_iff hp.ne_nil]
      intro hin
      apply hv
      obtain ⟨q, rfl, _⟩ := hp
      have : '>' ∈ v.drop lit.length := hin.subset (by simp)
      exact List.mem_of_mem_drop this
    rw [this]; rfl
  · rfl

theorem tagLiteral_gt_cons {lit pat v : Str} (hl : ∃ c l, lit = c :: l ∧ c.toLower ≠ '>') :
    tagLiteral lit pat ('>' :: v) = none := by
  obtain ⟨c, l, rfl, hc⟩ := hl
  unfold tagLiteral
  have : ciPrefix (c :: l) ('>' :: v) = false := by
    simp only [ciPrefix, List.map_cons, List.isPrefixOf]
    have : (c.toLower == '>'.toLower) = false := by
      rw [beq_eq_false_iff_ne]; exact hc
    rw [this]; rfl
  simp [this]

theorem tagGeneric_eq_none_iff {v : Str} :
    tagGeneric v = none ↔ (v.head? = some '>' ∨ '>' ∉ v) := by
  cases v with
  | nil => simp [tagGeneric]
  | cons c cs =>
    by_cases hc : c = '>'
    · subst hc; simp [tagGeneric]
    · rw [tagGeneric_cons cs hc, Option.map_eq_none', findFirst_gt_eq_none_iff]
      simp only [List.head?_cons, Option.some.injEq, hc, List.mem_cons, false_or, not_or]
      constructor
      · intro h; exact ⟨Ne.symm hc, h⟩
      · intro h; exact h.2

/-- The pattern `tagRegex` fails at a `<` exactly when the next character is `>` or no
`>` follows. -/
theorem matchTagAt_eq_none_iff {v : Str} :
    matchTagAt ('<' :: v) = none ↔ (v.head? = some '>' ∨ '>' ∉ v) := by
  rw [matchTagAt_cons_lt]
  constructor
  · intro h
    rw [← tagGeneric_eq_none_iff]
    simp only [Option.or_eq_none] at h
    exact h.2.2.2
  · intro h
    have h4 := tagGeneric_eq_none_iff.2 h
    have h123 : tagComment v = none ∧ tagCData v = none ∧ tagDoctype v = none := by
      rcases h with h | h
      · cases v with
        | nil => simp at h
        | cons c cs =>
          simp only [List.head?_cons, Option.some.injEq] at h
          subst h
          refine ⟨tagLiteral_gt_cons ⟨'!', _, rfl, by decide⟩,
            tagLiteral_gt_cons ⟨'!', _, rfl, by decide⟩,
            tagLiteral_gt_cons ⟨'!', _, rfl, by decide⟩⟩
      · exact ⟨tagLiteral_eq_none_of_not_mem endsGt_comment h,
          tagLiteral_eq_none_of_not_mem endsGt_cdata h,
          tagLiteral_eq_none_of_not_mem endsGt_gt h⟩
    rw [h123.1, h123.2.1, h123.2.2, h4]
    rfl

theorem tagLiteral_some_stable {lit pat x r : Str} (hp : pat ≠ [])
    (h : tagLiteral lit pat (x ++ r) = some ('<' :: x, r)) (r' : Str) :
    tagLiteral lit pat (x ++ r') = some ('<' :: x, r') := by
  obtain ⟨hc, a, hf, ht⟩ := tagLiteral_some h
  have hlen := ciPrefix_length hc
  obtain ⟨h1, _⟩ := findFirst_some hf
  simp only [List.cons_append, List.cons.injEq, true_and] at ht
  have hxl : x.length = lit.length + a.length := by
    have := congrArg List.length ht
    simp only [List.length_append, List.length_take] at this
    simp only [List.length_append] at hlen
    omega
  have hle : lit.length ≤ x.length := by omega
  have htake : (x ++ r).take lit.length = x.take lit.length := List.take_append_of_le_length hle
  have hdrop : ∀ z : Str, (x ++ z).drop lit.length = x.drop lit.length ++ z :=
    fun z => List.drop_append_of_le_length hle
  have ha : a = x.drop lit.length := by
    rw [htake] at ht
    have : x.take lit.length ++ x.drop lit.length = x.take lit.length ++ a := by
      rw [List.take_append_drop]; exact ht
    exact (List.append_cancel_left this).symm
  unfold tagLiteral
  rw [ciPrefix_append_of_le r' hle, ← ciPrefix_append_of_le r hle, hc]
  rw [hdrop] at hf
  rw [← ha] at hf
  simp only [if_true]
  rw [hdrop, ← ha, findFirst_stable hp hf r', List.take_append_of_le_length hle]
  simp only [Option.map_some', Option.some.injEq, Prod.mk.injEq, List.cons.injEq, true_and,
    and_true]
  rw [ha, List.cons_append, List.take_append_drop]

theorem tagLiteral_none_stable {lit pat x r r' : Str} (hx : x.getLast? = some '>')
    (hlit : '>' ∉ lit.map Char.toLower) (hpat : EndsGt pat)
    (hn : pat <:+: r' → pat <:+: r) (h : tagLiteral lit pat (x ++ r) = none) :
    tagLiteral lit pat (x ++ r') = none := by
  have hxm : '>' ∈ x := List.mem_of_getLast?_eq_some hx
  unfold tagLiteral
  split
  · rename_i hc'
    have hle := ciPrefix_length_le hc' hxm hlit
    have hc : ciPrefix lit (x ++ r) = true := by
      rw [ciPrefix_append_of_le r hle, ← ciPrefix_append_of_le r' hle]; exact hc'
    unfold tagLiteral at h
    rw [if_pos hc] at h
    have hf : findFirst pat ((x ++ r).drop lit.length) = none := by
      simpa using h
    rw [List.drop_append_of_le_length hle, findFirst_eq_none_iff hpat.ne_nil] at hf
    have : findFirst pat ((x ++ r').drop lit.length) = none := by
      rw [List.drop_append_of_le_length hle, findFirst_eq_none_iff hpat.ne_nil]
      intro hin
      rcases infix_append_cases hin with h1 | h1 | ⟨p1, p2, hp, hp1, hp2, hs, _⟩
      · exact hf (h1.trans (List.infix_append' [] _ r |>.trans (by simp)))
      · exact hf ((hn h1).trans ⟨x.drop lit.length, [], by simp⟩)
      · obtain ⟨q, rfl, hq⟩ := hpat
        -- the last character of `p1` is the last character of `x`, which is `>`
        have hxs : p1 <:+ x := hs.trans (List.drop_suffix _ _)
        obtain ⟨u, hu⟩ := hxs
        have hl1 : p1.getLast? = some '>' := by
          rw [← hu, List.getLast?_append_of_ne_nil _ hp1] at hx; exact hx
        have hm1 : '>' ∈ p1 := List.mem_of_getLast?_eq_some hl1
        -- but `p1` is a proper prefix of `q ++ [>]`, hence a prefix of `q`
        have hpre : p1 <+: q := by
          have h1 : p1 <+: q ++ ['>'] := ⟨p2, hp.symm⟩
          rcases List.prefix_or_prefix_of_prefix h1 (List.prefix_append q ['>']) with h2 | h2
          · exact h2
          · exfalso
            have l1 := h2.length_le
            have l2 := congrArg List.length hp
            simp only [List.length_append, List.length_singleton] at l2
            have : 0 < p2.length := List.length_pos.2 hp2
            have : q.length = p1.length := by omega
            have : p2.length = 1 := by omega
            -- then `p1 = q`, and `>` is in `q`
            have := List.IsPrefix.eq_of_length h2 (by omega)
            rw [this] at hq
            exact hq hm1
        exact hq (hpre.subset hm1)
    rw [this]; rfl
  · rfl

theorem tagGeneric_some_stable {x r : Str} (h : tagGeneric (x ++ r) = some ('<' :: x, r))
    (r' : Str) : tagGeneric (x ++ r') = some ('<' :: x, r') := by
  obtain ⟨c, cs, a, hs, hc, hf, ht⟩ := tagGeneric_some h
  simp only [List.cons.injEq, true_and] at ht
  subst ht
  simp only [List.cons_append, List.cons.injEq, true_and] at hs
  rw [← hs] at hf
  have := findFirst_stable (by simp) hf r'
  show tagGeneric (c :: (a ++ r')) = _
  rw [tagGeneric_cons _ hc, this]
  rfl

/-- A match of `tagRegex` is unaffected by a change of the text after it that
introduces no new `-->`, `]]>` or `>`. -/
theorem matchTagAt_stable {t r r' : Str} (h : matchTagAt (t ++ r) = some (t, r))
    (hn1 : "-->".toList <:+: r' → "-->".toList <:+: r)
    (hn2 : "]]>".toList <:+: r' → "]]>".toList <:+: r)
    (hn3 : ">".toList <:+: r' → ">".toList <:+: r) :
    matchTagAt (t ++ r') = some (t, r') := by
  obtain ⟨x, rfl, _, hx⟩ := matchTagAt_shape h
  simp only [List.cons_append] at h ⊢
  rw [matchTagAt_cons_lt] at h ⊢
  rcases or_eq_some_cases h with h1 | ⟨h1, h⟩
  · have := tagLiteral_some_stable (by decide) h1 r'
    unfold tagComment; rw [this]; rfl
  have h1' : tagComment (x ++ r') = none :=
    tagLiteral_none_stable hx (by decide) endsGt_comment hn1 h1
  rw [h1', Option.none_or]
  rcases or_eq_some_cases h with h2 | ⟨h2, h⟩
  · have := tagLiteral_some_stable (by decide) h2 r'
    unfold tagCData; rw [this]; rfl
  have h2' : tagCData (x ++ r') = none :=
    tagLiteral_none_stable hx (by decide) endsGt_cdata hn2 h2
  rw [h2', Option.none_or]
  rcases or_eq_some_cases h with h3 | ⟨h3, h⟩
  · have := tagLiteral_some_stable (by decide) h3 r'
    unfold tagDoctype; rw [this]; rfl
  have h3' : tagDoctype (x ++ r') = none :=
    tagLiteral_none_stable hx (by decide) endsGt_gt hn3 h3
  rw [h3', Option.none_or]
  exact tagGeneric_some_stable h r'

/-! ## Lemmas on `execTag` and `execAll` -/

theorem quiet_append {x y ctx : Str} : Quiet (x ++ y) ctx ↔ Quiet x (y ++ ctx) ∧ Quiet y ctx := by
  induction x with
  | nil => simp [Quiet]
  | cons c cs ih =>
    show Quiet (c :: (cs ++ y)) ctx ↔ _
    simp only [Quiet, ih, List.append_assoc, and_assoc]

theorem quiet_of_ws {w : Str} (ctx : Str) (h : ∀ c ∈ w, isWhiteSpace c = true) : Quiet w ctx := by
  induction w with
  | nil => trivial
  | cons c cs ih =>
    refine ⟨?_, ih (fun d hd => h d (List.mem_cons_of_mem _ hd))⟩
    apply matchTagAt_of_ne
    intro hc
    have := h c (List.mem_cons_self _ _)
    rw [hc] at this
    exact absurd this (by decide)

theorem execTag_eq_none_iff {s : Str} : execTag s = none ↔ Quiet s [] := by
  induction s with
  | nil => simp [execTag, Quiet]
  | cons c cs ih =>
    unfold execTag
    simp only [Quiet, List.append_nil]
    cases hm : matchTagAt (c :: cs) with
    | some p => simp
    | none =>
      cases he : execTag cs with
      | none => simp [← ih, he]
      | some q => simp [← ih, he]

theorem execTag_some {s b t r : Str} (h : execTag s = some (b, t, r)) :
    s = b ++ (t ++ r) ∧ matchTagAt (t ++ r) = some (t, r) ∧ Quiet b (t ++ r) := by
  induction s generalizing b with
  | nil => simp [execTag] at h
  | cons c cs ih =>
    unfold execTag at h
    cases hm : matchTagAt (c :: cs) with
    | some p =>
      obtain ⟨t', r'⟩ := p
      rw [hm] at h
      simp only [Option.some.injEq, Prod.mk.injEq] at h
      obtain ⟨rfl, rfl, rfl⟩ := h
      obtain ⟨_, _, hs, _⟩ := matchTagAt_shape hm
      refine ⟨hs, ?_, trivial⟩
      rw [← hs]; exact hm
    | none =>
      rw [hm] at h
      cases he : execTag cs with
      | none => rw [he] at h; cases h
      | some q =>
        obtain ⟨b', t', r'⟩ := q
        rw [he] at h
        simp only [Option.some.injEq, Prod.mk.injEq] at h
        obtain ⟨rfl, rfl, rfl⟩ := h
        obtain ⟨h1, h2, h3⟩ := ih he
        refine ⟨by rw [h1]; rfl, h2, ?_, h3⟩
        show matchTagAt (c :: (b' ++ (t' ++ r'))) = none
        rw [← h1]; exact hm

theorem execTag_of_quiet {b t r : Str} (hq : Quiet b (t ++ r))
    (hm : matchTagAt (t ++ r) = some (t, r)) : execTag (b ++ (t ++ r)) = some (b, t, r) := by
  induction b with
  | nil =>
    obtain ⟨x, rfl, _, _⟩ := matchTagAt_shape hm
    simp only [List.nil_append, List.cons_append] at hm ⊢
    unfold execTag
    rw [hm]
  | cons c cs ih =>
    obtain ⟨h1, h2⟩ := hq
    show execTag (c :: (cs ++ (t ++ r))) = _
    unfold execTag
    rw [h1, ih h2]

theorem execTag_length {s b t r : Str} (h : execTag s = some (b, t, r)) :
    r.length < s.length := by
  obtain ⟨h1, h2, _⟩ := execTag_some h
  obtain ⟨x, rfl, _, _⟩ := matchTagAt_shape h2
  rw [h1]
  simp only [List.length_append, List.length_cons]
  omega

theorem execAllFuel_eq : ∀ {n m : Nat} {s : Str}, s.length ≤ n → s.length ≤ m →
    execAllFuel n s = execAllFuel m s := by
  intro n
  induction n with
  | zero =>
    intro m s hn _
    have hs : s = [] := List.length_eq_zero.1 (Nat.le_zero.1 hn)
    subst hs
    cases m with
    | zero => rfl
    | succ m => simp [execAllFuel, execTag]
  | succ n ih =>
    intro m s hn hm
    cases m with
    | zero =>
      have hs : s = [] := List.length_eq_zero.1 (Nat.le_zero.1 hm)
      subst hs
      simp [execAllFuel, execTag]
    | succ m =>
      unfold execAllFuel
      cases he : execTag s with
      | none => rfl
      | some q =>
        obtain ⟨b, t, r⟩ := q
        have := execTag_length he
        simp only
        rw [ih (s := r) (by omega) (by omega : r.length ≤ m)]

theorem execAll_none {s : Str} (h : execTag s = none) : execAll s = ([], s) := by
  unfold execAll
  cases hl : s.length with
  | zero => rfl
  | succ n => unfold execAllFuel; rw [h]

/-- The loop over `tagRegex.exec` unfolds as the JavaScript loop does: the fuel never runs
out before the line does. -/
theorem execAll_some {s b t r : Str} (h : execTag s = some (b, t, r)) :
    execAll s = ((b, t) :: (execAll r).1, (execAll r).2) := by
  have hlen := execTag_length h
  unfold execAll
  cases hl : s.length with
  | zero => omega
  | succ n =>
    simp only [execAllFuel, h]
    rw [execAllFuel_eq (n := n) (m := r.length) (by omega) (le_refl _)]

theorem execAll_induction {P : Str → Prop}
    (h0 : ∀ s, execTag s = none → P s)
    (h1 : ∀ s b t r, execTag s = some (b, t, r) → P r → P s) : ∀ s, P s := by
  have key : ∀ n : Nat, ∀ s : Str, s.length ≤ n → P s := by
    intro n
    induction n with
    | zero =>
      intro s hs
      have hs : s = [] := List.length_eq_zero.1 (Nat.le_zero.1 hs)
      subst hs
      exact h0 [] rfl
    | succ n ih =>
      intro s hs
      cases he : execTag s with
      | none => exact h0 s he
      | some q =>
        obtain ⟨b, t, r⟩ := q
        have := execTag_length he
        exact h1 s b t r he (ih r (by omega))
  exact fun s => key s.length s (le_refl _)

/-! ## Re-scanning the content of a formatted line -/

theorem ws_space : isWhiteSpace ' ' = true := by decide
theorem not_ws_lt : isWhiteSpace '<' = false := by decide
theorem not_ws_gt : isWhiteSpace '>' = false := by decide

theorem sp_head (x : Str) : sp x = [] ∨ ∃ y, sp x = ' ' :: y := by
  unfold sp; split
  · left; rfl
  · right; exact ⟨x, rfl⟩

theorem outToks_head (ms : List (Str × Str)) (rem : Str) :
    outToks ms rem = [] ∨ ∃ y, outToks ms rem = ' ' :: y := by
  cases ms with
  | nil => exact sp_head _
  | cons m ms =>
    obtain ⟨b, t⟩ := m
    right
    unfold outToks
    rcases sp_head (trim b) with h | ⟨y, h⟩
    · rw [h]; exact ⟨_, rfl⟩
    · rw [h]; exact ⟨_, rfl⟩

theorem quiet_transfer {X ctx1 : Str} (ctx2 : Str) (h : Quiet X ctx1) (h1 : '>' ∈ ctx1)
    (h2 : ctx1.head? ≠ some '>') : Quiet X ctx2 := by
  induction X with
  | nil => trivial
  | cons c cs ih =>
    obtain ⟨hm, hq⟩ := h
    refine ⟨?_, ih hq⟩
    by_cases hc : c = '<'
    · subst hc
      rw [matchTagAt_eq_none_iff] at hm ⊢
      rcases hm with hm | hm
      · left
        cases cs with
        | nil => exact absurd hm h2
        | cons d ds => simpa using hm
      · exact absurd (List.mem_append_right _ h1) hm
    · exact matchTagAt_of_ne _ hc

theorem quiet_trailing {X w : Str} (h : Quiet X w) (hw : ∀ c ∈ w, isWhiteSpace c = true) :
    Quiet X [] := by
  induction X with
  | nil => trivial
  | cons c cs ih =>
    obtain ⟨hm, hq⟩ := h
    refine ⟨?_, ih hq⟩
    by_cases hc : c = '<'
    · subst hc
      rw [matchTagAt_eq_none_iff] at hm ⊢
      rcases hm with hm | hm
      · left
        cases cs with
        | nil =>
          have : '>' ∈ w := List.mem_of_mem_head? (by simpa using hm)
          have := hw _ this
          rw [not_ws_gt] at this; cases this
        | cons d ds => simpa using hm
      · right
        intro hin
        apply hm
        simp only [List.append_nil] at hin
        exact List.mem_append_left _ hin
    · exact matchTagAt_of_ne _ hc

theorem quiet_sp {X ctx : Str} (h : Quiet X ctx) : Quiet (sp X) ctx := by
  unfold sp; split
  · trivial
  · exact ⟨matchTagAt_of_ne _ (by decide), h⟩

theorem infix_of_infix_space_cons {pat y : Str} (hp : ' ' ∉ pat) (hne : pat ≠ [])
    (h : pat <:+: ' ' :: y) : pat <:+: y := by
  rw [List.infix_cons_iff] at h
  rcases h with h | h
  · exfalso
    cases pat with
    | nil => exact hne rfl
    | cons p ps =>
      obtain ⟨u, hu⟩ := h
      simp only [List.cons_append, List.cons.injEq] at hu
      apply hp; rw [hu.1]; exact List.mem_cons_self _ _
  · exact h

theorem infix_of_infix_sp {pat x : Str} (hp : ' ' ∉ pat) (hne : pat ≠ [])
    (h : pat <:+: sp x) : pat <:+: x := by
  unfold sp at h; split at h
  · rename_i hx; rw [hx]; exact h
  · exact infix_of_infix_space_cons hp hne h

theorem not_straddle_space {pat p1 p2 z : Str} (hp : ' ' ∉ pat) (he : pat = p1 ++ p2)
    (hp2 : p2 ≠ []) (hpre : p2 <+: z) (hz : z = [] ∨ ∃ y, z = ' ' :: y) : False := by
  cases p2 with
  | nil => exact hp2 rfl
  | cons c cs =>
    obtain ⟨u, hu⟩ := hpre
    rcases hz with hz | ⟨y, hz⟩
    · rw [hz] at hu; cases hu
    · rw [hz] at hu
      simp only [List.cons_append, List.cons.injEq] at hu
      apply hp; rw [he, hu.1]; simp

theorem infix_append_space {pat x z : Str} (hp : ' ' ∉ pat)
    (hz : z = [] ∨ ∃ y, z = ' ' :: y) (h : pat <:+: x ++ z) : pat <:+: x ∨ pat <:+: z := by
  rcases infix_append_cases h with h | h | ⟨p1, p2, he, _, hp2, _, hpre⟩
  · exact Or.inl h
  · exact Or.inr h
  · exact (not_straddle_space hp he hp2 hpre hz).elim

/-- A space-free pattern that occurs in the re-joined pieces of a line occurs in
the line. -/
theorem infix_outToks {pat : Str} (hp : ' ' ∉ pat) (hne : pat ≠ []) :
    ∀ s : Str, pat <:+: outToks (execAll s).1 (execAll s).2 → pat <:+: s := by
  apply execAll_induction
  · intro s he h
    rw [execAll_none he] at h
    exact (infix_of_infix_sp hp hne h).trans (trim_infix_self s)
  · intro s b t r he ih h
    rw [execAll_some he] at h
    obtain ⟨hs, _, _⟩ := execTag_some he
    simp only [outToks] at h
    rw [hs]
    rcases infix_append_space hp (Or.inr ⟨_, rfl⟩) h with h | h
    · exact ((infix_of_infix_sp hp hne h).trans (trim_infix_self b)).trans
        (List.infix_append' [] b _)
    · have h := infix_of_infix_space_cons hp hne h
      rcases infix_append_space hp (outToks_head _ _) h with h | h
      · exact h.trans ⟨b, r, by simp⟩
      · exact (ih h).trans ⟨b ++ t, [], by simp⟩

theorem head?_ws_append_lt {w x r : Str} (hw : ∀ c ∈ w, isWhiteSpace c = true) :
    (w ++ ('<' :: x ++ r)).head? ≠ some '>' := by
  cases w with
  | nil => simp
  | cons c cs =>
    simp only [List.cons_append, List.head?_cons, ne_eq, Option.some.injEq]
    intro hc
    have := hw c (List.mem_cons_self _ _)
    rw [hc, not_ws_gt] at this; cases this

/-- Scanning the re-joined pieces of a line finds the same matches, separated by the
trimmed text runs. -/
theorem execAll_outToks : ∀ s : Str,
    execAll (outToks (execAll s).1 (execAll s).2) =
      ((execAll s).1.map (fun m => (sp (trim m.1) ++ [' '], m.2)), sp (trim (execAll s).2)) := by
  apply execAll_induction
  · intro s he
    rw [execAll_none he]
    simp only [outToks, List.map_nil]
    apply execAll_none
    rw [execTag_eq_none_iff] at he ⊢
    obtain ⟨w1, w2, _, hw2, hs⟩ := trim_decomp s
    rw [hs, List.append_assoc, quiet_append, quiet_append] at he
    exact quiet_sp (quiet_trailing he.2.1 (by simpa using hw2))
  · intro s b t r he ih
    rw [execAll_some he]
    obtain ⟨hs, hm, hq⟩ := execTag_some he
    obtain ⟨x, rfl, _, hx⟩ := matchTagAt_shape hm
    have hxm : '>' ∈ x := List.mem_of_getLast?_eq_some hx
    simp only [outToks, List.map_cons]
    have hm' : matchTagAt ('<' :: x ++ outToks (execAll r).1 (execAll r).2) =
        some ('<' :: x, outToks (execAll r).1 (execAll r).2) :=
      matchTagAt_stable hm (infix_outToks (by decide) (by decide) r)
        (infix_outToks (by decide) (by decide) r) (infix_outToks (by decide) (by decide) r)
    have hq' : Quiet (sp (trim b) ++ [' ']) ('<' :: x ++ outToks (execAll r).1 (execAll r).2) := by
      rw [quiet_append]
      refine ⟨quiet_sp ?_, quiet_of_ws _ (by simp [ws_space])⟩
      obtain ⟨w1, w2, _, hw2, hb⟩ := trim_decomp b
      rw [hb, List.append_assoc, quiet_append, quiet_append] at hq
      exact quiet_transfer _ hq.2.1 (by simp [hxm]) (head?_ws_append_lt hw2)
    have he' := execTag_of_quiet hq' hm'
    have e : sp (trim b) ++ ' ' :: ('<' :: x ++ outToks (execAll r).1 (execAll r).2) =
        (sp (trim b) ++ [' ']) ++ ('<' :: x ++ outToks (execAll r).1 (execAll r).2) := by simp
    rw [e, execAll_some he', ih]

/-! ## The content and the state effect of a line depend on its pieces only -/

theorem appendPiece_ne_nil {c p : Str} (hp : p ≠ []) : appendPiece c p ≠ [] := by
  unfold appendPiece; simp [hp]

theorem processTag_content (lvl : Int) (st : PassState) (b t : Str) :
    (processTag lvl st b t).content =
      appendPiece (if trim b ≠ [] then appendPiece st.content (trim b) else st.content) t := by
  unfold processTag
  simp only
  split
  · split <;> rfl
  · split
    · split <;> rfl
    · rfl

theorem processTags_content (lvl : Int) : ∀ (ms : List (Str × Str)) (st : PassState),
    (processTags lvl st ms).content = contentFold st.content ms := by
  intro ms
  induction ms with
  | nil => intro st; rfl
  | cons m ms ih =>
    intro st
    obtain ⟨b, t⟩ := m
    simp only [processTags, contentFold]
    rw [ih, processTag_content]

theorem contentFold_outToks : ∀ (ms : List (Str × Str)) (rem c : Str),
    (∀ m ∈ ms, m.2 ≠ []) →
    (if trim rem ≠ [] then appendPiece (contentFold c ms) (trim rem) else contentFold c ms) =
      if c = [] then (outToks ms rem).tail else c ++ outToks ms rem := by
  intro ms
  induction ms with
  | nil =>
    intro rem c _
    simp only [contentFold, outToks, sp, appendPiece]
    by_cases h1 : trim rem = [] <;> by_cases h2 : c = [] <;> simp [h1, h2]
  | cons m ms ih =>
    intro rem c hms
    obtain ⟨b, t⟩ := m
    have ht : t ≠ [] := hms (b, t) (List.mem_cons_self _ _)
    simp only [contentFold, outToks]
    rw [ih rem _ (fun m hm => hms m (List.mem_cons_of_mem _ hm)), if_neg (appendPiece_ne_nil ht)]
    simp only [appendPiece, sp]
    by_cases h1 : trim b = [] <;> by_cases h2 : c = [] <;> simp [h1, h2]

/-- Every match found on a line starts with `<` and ends with `>`. -/
theorem execAll_tag_shape : ∀ s : Str, ∀ m ∈ (execAll s).1,
    ∃ x, m.2 = '<' :: x ∧ x.getLast? = some '>' := by
  apply execAll_induction
  · intro s he m hm
    rw [execAll_none he] at hm; cases hm
  · intro s b t r he ih m hm
    rw [execAll_some he] at hm
    rcases List.mem_cons.1 hm with rfl | hm
    · obtain ⟨_, h2, _⟩ := execTag_some he
      obtain ⟨x, hx, _, hl⟩ := matchTagAt_shape h2
      exact ⟨x, hx, hl⟩
    · exact ih m hm

theorem outToks_second (ms : List (Str × Str)) (rem : Str) (hms : TagShaped ms) :
    outToks ms rem = [] ∨ ∃ c y, outToks ms rem = ' ' :: c :: y ∧ isWhiteSpace c = false := by
  cases ms with
  | nil =>
    simp only [outToks, sp]
    cases h : trim rem with
    | nil => left; simp
    | cons c y => right; exact ⟨c, y, by simp, trim_head_not_ws h⟩
  | cons m ms =>
    obtain ⟨b, t⟩ := m
    obtain ⟨x, hx, _⟩ := hms (b, t) (List.mem_cons_self _ _)
    simp only at hx
    subst hx
    right
    simp only [outToks, sp]
    cases h : trim b with
    | nil => exact ⟨'<', x ++ outToks ms rem, by simp, not_ws_lt⟩
    | cons c y =>
      exact ⟨c, y ++ ' ' :: '<' :: (x ++ outToks ms rem), by simp, trim_head_not_ws h⟩

theorem outToks_last : ∀ (ms : List (Str × Str)) (rem : Str), TagShaped ms →
    ∀ h : outToks ms rem ≠ [], isWhiteSpace ((outToks ms rem).getLast h) = false := by
  intro ms
  induction ms with
  | nil =>
    intro rem _ h
    simp only [outToks, sp] at h ⊢
    by_cases h1 : trim rem = []
    · simp [h1] at h
    · have := trim_last_not_ws h1
      simp only [h1, if_false]
      rw [List.getLast_cons h1]
      exact this
  | cons m ms ih =>
    intro rem hms h
    obtain ⟨b, t⟩ := m
    obtain ⟨x, hx, hl⟩ := hms (b, t) (List.mem_cons_self _ _)
    simp only at hx
    subst hx
    have hms' : TagShaped ms := fun m hm => hms m (List.mem_cons_of_mem _ hm)
    simp only [outToks]
    by_cases ho : outToks ms rem = []
    · simp only [ho, List.append_nil]
      have hxne : x ≠ [] := by intro e; rw [e] at hl; simp at hl
      have e : sp (trim b) ++ ' ' :: '<' :: x = (sp (trim b) ++ [' ', '<']) ++ x := by simp
      have hlast : (sp (trim b) ++ ' ' :: '<' :: x).getLast? = some '>' := by
        rw [e, List.getLast?_append_of_ne_nil _ hxne]; exact hl
      have hne : sp (trim b) ++ ' ' :: '<' :: x ≠ [] := by simp
      rw [List.getLast?_eq_getLast _ hne] at hlast
      simp only [Option.some.injEq] at hlast
      rw [hlast]; exact not_ws_gt
    · have e : sp (trim b) ++ ' ' :: ('<' :: x ++ outToks ms rem) =
          (sp (trim b) ++ ' ' :: '<' :: x) ++ outToks ms rem := by simp
      have := ih rem hms' ho
      have h2 : (sp (trim b) ++ ' ' :: ('<' :: x ++ outToks ms rem)).getLast? =
          some ((outToks ms rem).getLast ho) := by
        rw [e, List.getLast?_append_of_ne_nil _ ho, List.getLast?_eq_getLast _ ho]
      have hne : sp (trim b) ++ ' ' :: ('<' :: x ++ outToks ms rem) ≠ [] := by simp
      rw [List.getLast?_eq_getLast _ hne] at h2
      simp only [Option.some.injEq] at h2
      rw [h2]; exact this

theorem trim_tail_outToks (ms : List (Str × Str)) (rem : Str) (hms : TagShaped ms) :
    trim (outToks ms rem).tail = (outToks ms rem).tail := by
  rcases outToks_second ms rem hms with h | ⟨c, y, h, hc⟩
  · rw [h]; rfl
  · apply trim_eq_self
    · intro d ds hd
      rw [h] at hd
      simp only [List.tail_cons, List.cons.injEq] at hd
      rw [← hd.1]; exact hc
    · intro hne
      have ho : outToks ms rem ≠ [] := by rw [h]; simp
      have := outToks_last ms rem hms ho
      have e : (outToks ms rem).tail.getLast hne = (outToks ms rem).getLast ho := by
        simp
      rw [e]; exact this

/-- The content of a processed line is its pieces joined by single spaces, whatever the
indent level and the stack. -/
theorem processLine_content (line : Str) (L : Int) (st : List StackItem) :
    (processLineWithAlignment line L st).content =
      (outToks (execAll line).1 (execAll line).2).tail := by
  have hsh : TagShaped (execAll line).1 := execAll_tag_shape line
  have hne : ∀ m ∈ (execAll line).1, m.2 ≠ [] := by
    intro m hm
    obtain ⟨x, hx, _⟩ := hsh m hm
    rw [hx]; simp
  unfold processLineWithAlignment
  simp only
  rw [processTags_content]
  have := contentFold_outToks (execAll line).1 (execAll line).2 [] hne
  simp only [if_true] at this
  rw [this, trim_tail_outToks _ _ hsh]

theorem processTag_trim (lvl : Int) (st : PassState) (b t : Str) :
    processTag lvl st (trim b) t = processTag lvl st b t := by
  unfold processTag
  rw [trim_trim]

theorem processTags_norm (lvl : Int) : ∀ (ms : List (Str × Str)) (st : PassState),
    processTags lvl st (ms.map (fun m => (trim m.1, m.2))) = processTags lvl st ms := by
  intro ms
  induction ms with
  | nil => intro st; rfl
  | cons m ms ih =>
    intro st
    obtain ⟨b, t⟩ := m
    simp only [List.map_cons, processTags]
    rw [processTag_trim, ih]

theorem processLine_eq_pieces (line : Str) (L : Int) (st : List StackItem) :
    processLineWithAlignment line L st =
      processPieces (execAll line).1 (execAll line).2 L st := rfl

theorem processPieces_norm (ms : List (Str × Str)) (rem : Str) (L : Int)
    (st : List StackItem) :
    processPieces (normToks (ms, rem)).1 (normToks (ms, rem)).2 L st =
      processPieces ms rem L st := by
  unfold processPieces normToks
  simp only [List.map_map, Function.comp_def, processTags_norm, trim_trim]

/-- Two lines with the same matches and the same trimmed text runs are processed alike. -/
theorem processLine_congr {l1 l2 : Str} (h : normToks (execAll l1) = normToks (execAll l2))
    (L : Int) (st : List StackItem) :
    processLineWithAlignment l1 L st = processLineWithAlignment l2 L st := by
  rw [processLine_eq_pieces, processLine_eq_pieces, ← processPieces_norm (execAll l1).1,
    ← processPieces_norm (execAll l2).1]
  show processPieces (normToks (execAll l1)).1 (normToks (execAll l1)).2 L st =
    processPieces (normToks (execAll l2)).1 (normToks (execAll l2)).2 L st
  rw [h]

theorem execTag_cons_of_none {c : Char} {cs : Str} (h : matchTagAt (c :: cs) = none) :
    execTag (c :: cs) = (execTag cs).map (fun q => (c :: q.1, q.2.1, q.2.2)) := by
  rw [execTag, h]
  cases execTag cs with
  | none => rfl
  | some q => obtain ⟨b, t, r⟩ := q; rfl

theorem execTag_space_cons (c : Str) :
    execTag (' ' :: c) = (execTag c).map (fun q => (' ' :: q.1, q.2.1, q.2.2)) :=
  execTag_cons_of_none (matchTagAt_of_ne c (by decide))

theorem trim_space_cons (x : Str) : trim (' ' :: x) = trim x :=
  trim_ws_append (w := [' ']) (by simp [ws_space])

theorem trim_sp (x : Str) : trim (sp x) = trim x := by
  unfold sp; split
  · rename_i h; rw [h]
  · exact trim_space_cons x

theorem normToks_execAll_space (c : Str) :
    normToks (execAll (' ' :: c)) = normToks (execAll c) := by
  cases h : execTag c with
  | none =>
    have h' : execTag (' ' :: c) = none := by rw [execTag_space_cons, h]; rfl
    rw [execAll_none h, execAll_none h']
    simp [normToks, trim_space_cons]
  | some q =>
    obtain ⟨b, t, r⟩ := q
    have h' : execTag (' ' :: c) = some (' ' :: b, t, r) := by
      rw [execTag_space_cons, h]; rfl
    rw [execAll_some h, execAll_some h']
    simp [normToks, trim_space_cons]

theorem normToks_execAll_outToks (s : Str) :
    normToks (execAll (outToks (execAll s).1 (execAll s).2)) = normToks (execAll s) := by
  rw [execAll_outToks]
  simp only [normToks, List.map_map, Function.comp_def, trim_sp, trim_trim]
  congr 1
  apply List.map_congr_left
  intro m _
  rw [trim_append_ws (by simp [ws_space]), trim_sp, trim_trim]

theorem execAll_fst_eq_nil {s : Str} (h : (execAll s).1 = []) : execAll s = ([], s) := by
  cases he : execTag s with
  | none => exact execAll_none he
  | some q =>
    obtain ⟨b, t, r⟩ := q
    rw [execAll_some he] at h; cases h

/-- Scanning the content of a processed line gives the pieces of the line itself. -/
theorem normToks_execAll_content (line : Str) (L : Int) (st : List StackItem) :
    normToks (execAll (processLineWithAlignment line L st).content) =
      normToks (execAll line) := by
  rw [processLine_content]
  rcases outToks_head (execAll line).1 (execAll line).2 with h | ⟨y, h⟩
  · rw [h]
    have h1 : (execAll line).1 = [] := by
      cases hm : (execAll line).1 with
      | nil => rfl
      | cons m ms =>
        obtain ⟨b, t⟩ := m
        rw [hm] at h
        simp only [outToks] at h
        exact absurd h (by simp)
    have h2 : trim (execAll line).2 = [] := by
      rw [h1] at h
      simp only [outToks, sp] at h
      by_contra hne
      simp [hne] at h
    show normToks (execAll []) = _
    simp only [normToks, h1, h2, List.map_nil]
    rfl
  · have := normToks_execAll_outToks line
    rw [h, normToks_execAll_space] at this
    rw [h]; exact this

/-- Processing the content of an already processed line acts on the indent level and
on the stack just as processing the line does, and leaves the content unchanged. -/
theorem processLine_content_eq (line : Str) (L0 : Int) (st0 : List StackItem)
    (L : Int) (st : List StackItem) :
    processLineWithAlignment (processLineWithAlignment line L0 st0).content L st =
      processLineWithAlignment line L st :=
  processLine_congr (normToks_execAll_content line L0 st0) L st

theorem processLine_content_indep (line : Str) (L0 : Int) (st0 : List StackItem)
    (L : Int) (st : List StackItem) :
    (processLineWithAlignment line L0 st0).content =
      (processLineWithAlignment line L st).content := by
  rw [processLine_content, processLine_content]

theorem trim_processLine_content (line : Str) (L : Int) (st : List StackItem) :
    trim (processLineWithAlignment line L st).content =
      (processLineWithAlignment line L st).content := by
  rw [processLine_content]
  exact trim_tail_outToks _ _ (execAll_tag_shape line)

/-- A line that is not blank yields content. -/
theorem processLine_content_ne_nil {line : Str} (h : trim line ≠ []) (L : Int)
    (st : List StackItem) : (processLineWithAlignment line L st).content ≠ [] := by
  intro hc
  have := normToks_execAll_content line L st
  rw [hc] at this
  have h0 : normToks (execAll []) = ([], []) := rfl
  rw [h0] at this
  have h1 : (execAll line).1 = [] := by
    have := congrArg Prod.fst this
    simp only [normToks] at this
    exact List.map_eq_nil_iff.1 this.symm
  have h2 : trim (execAll line).2 = [] := (congrArg Prod.snd this).symm
  rw [execAll_fst_eq_nil h1] at h2
  exact h h2

/-- The content of a processed line contains no character other than those of the line
and the space. -/
theorem mem_processLine_content {line : Str} {L : Int} {st : List StackItem} {c : Char}
    (h : c ∈ (processLineWithAlignment line L st).content) : c = ' ' ∨ c ∈ line := by
  by_cases hc : c = ' '
  · exact Or.inl hc
  · right
    rw [processLine_content] at h
    have h1 : c ∈ outToks (execAll line).1 (execAll line).2 := List.mem_of_mem_tail h
    have h2 := @infix_outToks [c] (by simpa using Ne.symm hc) (by simp) line
      (singleton_infix_iff_mem.2 h1)
    exact singleton_infix_iff_mem.1 h2

/-! ## Document level -/

theorem mem_strRepeat {u : Str} {c : Char} : ∀ {n : Nat}, c ∈ strRepeat u n → c ∈ u := by
  intro n
  induction n with
  | zero => intro h; simp [strRepeat] at h
  | succ n ih =>
    intro h
    simp only [strRepeat, List.mem_append] at h
    rcases h with h | h
    · exact h
    · exact ih h

theorem mem_indentOf {u : Str} {c : Char} {L : Int} (h : c ∈ indentOf u L) : c ∈ u :=
  mem_strRepeat h

theorem trim_indentOf_append {u : Str} (hu : ∀ c ∈ u, isWhiteSpace c = true) (L : Int)
    (x : Str) : trim (indentOf u L ++ x) = trim x :=
  trim_ws_append (fun c hc => hu c (mem_indentOf hc))

/-- Formatting the lines produced by the line loop, from the same indent level and stack,
reproduces them. -/
theorem formatLines_idem {u : Str} (hu : ∀ c ∈ u, isWhiteSpace c = true) :
    ∀ (lines : List Str) (L : Int) (st : List StackItem),
      formatLines u (formatLines u lines L st) L st = formatLines u lines L st := by
  intro lines
  induction lines with
  | nil => intro L st; rfl
  | cons line lines ih =>
    intro L st
    by_cases hb : trim line = []
    · have e : formatLines u (line :: lines) L st = formatLines u lines L st := by
        simp [formatLines, hb]
      rw [e]; exact ih L st
    · have hne : (processLineWithAlignment (trim line) L st).content ≠ [] :=
        processLine_content_ne_nil (by rw [trim_trim]; exact hb) L st
      have e : formatLines u (line :: lines) L st =
          (indentOf u (processLineWithAlignment (trim line) L st).indentLevel ++
            (processLineWithAlignment (trim line) L st).content) ::
          formatLines u lines (processLineWithAlignment (trim line) L st).newIndentLevel
            (processLineWithAlignment (trim line) L st).tagStack := by
        simp [formatLines, hb, hne]
      rw [e]
      have ht : trim (indentOf u (processLineWithAlignment (trim line) L st).indentLevel ++
          (processLineWithAlignment (trim line) L st).content) =
          (processLineWithAlignment (trim line) L st).content := by
        rw [trim_indentOf_append hu, trim_processLine_content]
      have hp := processLine_content_eq (trim line) L st L st
      rw [formatLines]
      simp only [ht, hne, hp, if_false, ne_eq, not_false_eq_true, if_true]
      rw [ih]

/-- A character other than the space that occurs neither in the indent unit nor in the
input lines does not occur in the output lines. -/
theorem not_mem_formatLines {u : Str} {d : Char} (hd : d ≠ ' ') (hu : d ∉ u) :
    ∀ (lines : List Str) (L : Int) (st : List StackItem), (∀ l ∈ lines, d ∉ l) →
      ∀ l ∈ formatLines u lines L st, d ∉ l := by
  intro lines
  induction lines with
  | nil => intro L st _ l hl; simp [formatLines] at hl
  | cons line lines ih =>
    intro L st hlines l hl
    have hrest : ∀ l ∈ lines, d ∉ l := fun l h => hlines l (List.mem_cons_of_mem _ h)
    rw [formatLines] at hl
    simp only at hl
    split at hl
    · exact ih _ _ hrest l hl
    · split at hl
      · rcases List.mem_cons.1 hl with rfl | hl
        · intro hmem
          rcases List.mem_append.1 hmem with h | h
          · exact hu (mem_indentOf h)
          · rcases mem_processLine_content h with h | h
            · exact hd h
            · exact hlines line (List.mem_cons_self _ _) (mem_of_mem_trim h)
        · exact ih _ _ hrest l hl
      · exact ih _ _ hrest l hl

theorem splitLines_ne_nil (s : Str) : splitLines s ≠ [] := by
  cases s with
  | nil => simp [splitLines]
  | cons c cs =>
    unfold splitLines
    split
    · simp
    · split <;> simp

theorem splitLines_cons_of_ne {c : Char} (cs : Str) (hc : c ≠ '\n') :
    splitLines (c :: cs) = (c :: (splitLines cs).head!) :: (splitLines cs).tail := by
  rw [splitLines]
  simp only [hc, if_false]
  cases h : splitLines cs with
  | nil => exact absurd h (splitLines_ne_nil cs)
  | cons l ls => rfl

theorem mem_splitLines {s : Str} : ∀ l ∈ splitLines s, '\n' ∉ l ∧ ∀ c ∈ l, c ∈ s := by
  induction s with
  | nil => intro l hl; simp [splitLines] at hl; subst hl; simp
  | cons c cs ih =>
    intro l hl
    by_cases hc : c = '\n'
    · subst hc
      simp only [splitLines, if_true, List.mem_cons] at hl
      rcases hl with rfl | hl
      · simp
      · obtain ⟨h1, h2⟩ := ih l hl
        exact ⟨h1, fun c hc => List.mem_cons_of_mem _ (h2 c hc)⟩
    · rw [splitLines_cons_of_ne cs hc] at hl
      cases h : splitLines cs with
      | nil => exact absurd h (splitLines_ne_nil cs)
      | cons l0 ls =>
        rw [h] at hl ih
        simp only [List.head!_cons, List.tail_cons, List.mem_cons] at hl
        rcases hl with rfl | hl
        · obtain ⟨h1, h2⟩ := ih l0 (List.mem_cons_self _ _)
          refine ⟨?_, ?_⟩
          · simp only [List.mem_cons, not_or]; exact ⟨Ne.symm hc, h1⟩
          · intro x hx
            rcases List.mem_cons.1 hx with rfl | hx
            · exact List.mem_cons_self _ _
            · exact List.mem_cons_of_mem _ (h2 x hx)
        · obtain ⟨h1, h2⟩ := ih l (List.mem_cons_of_mem _ hl)
          exact ⟨h1, fun c hc => List.mem_cons_of_mem _ (h2 c hc)⟩

theorem splitLines_of_not_mem {l : Str} (h : '\n' ∉ l) : splitLines l = [l] := by
  induction l with
  | nil => rfl
  | cons c cs ih =>
    simp only [List.mem_cons, not_or] at h
    rw [splitLines_cons_of_ne cs (Ne.symm h.1), ih h.2]
    rfl

theorem splitLines_append_nl {l : Str} (rest : Str) (h : '\n' ∉ l) :
    splitLines (l ++ '\n' :: rest) = l :: splitLines rest := by
  induction l with
  | nil => simp [splitLines]
  | cons c cs ih =>
    simp only [List.mem_cons, not_or] at h
    show splitLines (c :: (cs ++ '\n' :: rest)) = _
    rw [splitLines_cons_of_ne _ (Ne.symm h.1), ih h.2]
    rfl

theorem splitLines_joinLines : ∀ {ls : List Str}, ls ≠ [] → (∀ l ∈ ls, '\n' ∉ l) →
    splitLines (joinLines ls) = ls := by
  intro ls
  induction ls with
  | nil => intro h; exact absurd rfl h
  | cons l ls ih =>
    intro _ hls
    cases ls with
    | nil => exact splitLines_of_not_mem (hls l (List.mem_cons_self _ _))
    | cons l2 ls =>
      show splitLines (l ++ '\n' :: joinLines (l2 :: ls)) = _
      rw [splitLines_append_nl _ (hls l (List.mem_cons_self _ _)),
        ih (by simp) (fun x hx => hls x (List.mem_cons_of_mem _ hx))]

theorem mem_joinLines {c : Char} : ∀ {ls : List Str}, c ∈ joinLines ls →
    c = '\n' ∨ ∃ l ∈ ls, c ∈ l := by
  intro ls
  induction ls with
  | nil => intro h; simp [joinLines] at h
  | cons l ls ih =>
    intro h
    cases ls with
    | nil => right; exact ⟨l, List.mem_cons_self _ _, h⟩
    | cons l2 ls =>
      have h' : c ∈ l ++ '\n' :: joinLines (l2 :: ls) := h
      rcases List.mem_append.1 h' with h1 | h1
      · right; exact ⟨l, List.mem_cons_self _ _, h1⟩
      · rcases List.mem_cons.1 h1 with h2 | h2
        · exact Or.inl h2
        · rcases ih h2 with h3 | ⟨x, hx, hc⟩
          · exact Or.inl h3
          · right; exact ⟨x, List.mem_cons_of_mem _ hx, hc⟩

theorem replaceCRLF_of_not_mem : ∀ {s : Str}, '\r' ∉ s → replaceCRLF s = s := by
  intro s
  induction s using replaceCRLF.induct with
  | case1 => intro _; rfl
  | case2 c => intro _; rfl
  | case3 c d cs h ih =>
    intro hs; exfalso; apply hs; rw [h.1]; exact List.mem_cons_self _ _
  | case4 c d cs h ih =>
    intro hs
    rw [replaceCRLF]
    simp only [h, if_false]
    rw [ih (fun hm => hs (List.mem_cons_of_mem _ hm))]

theorem replaceCR_of_not_mem {s : Str} (h : '\r' ∉ s) : replaceCR s = s := by
  unfold replaceCR
  induction s with
  | nil => rfl
  | cons c cs ih =>
    simp only [List.mem_cons, not_or] at h
    simp only [List.map_cons, ih h.2]
    rw [if_neg (Ne.symm h.1)]

theorem not_mem_replaceCR (s : Str) : '\r' ∉ replaceCR s := by
  unfold replaceCR
  intro h
  obtain ⟨c, _, hc⟩ := List.mem_map.1 h
  split at hc
  · exact absurd hc (by decide)
  · rename_i hne; exact hne hc

/-- The method `parseAndFormat` is idempotent for an indent unit made of white space
other than line breaks. -/
theorem parseAndFormat_idem {u : Str} (hu : ∀ c ∈ u, isWhiteSpace c = true)
    (hr : '\r' ∉ u) (hn : '\n' ∉ u) (text : Str) :
    parseAndFormat (parseAndFormat text u) u = parseAndFormat text u := by
  have hlines : ∀ l ∈ splitLines (replaceCR (replaceCRLF text)), '\r' ∉ l ∧ '\n' ∉ l := by
    intro l hl
    obtain ⟨h1, h2⟩ := mem_splitLines l hl
    exact ⟨fun h => not_mem_replaceCR _ (h2 _ h), h1⟩
  have hout_r := not_mem_formatLines (u := u) (d := '\r') (by decide) hr
    (splitLines (replaceCR (replaceCRLF text))) 0 [] (fun l hl => (hlines l hl).1)
  have hout_n := not_mem_formatLines (u := u) (d := '\n') (by decide) hn
    (splitLines (replaceCR (replaceCRLF text))) 0 [] (fun l hl => (hlines l hl).2)
  have hcr : '\r' ∉ parseAndFormat text u := by
    intro h
    rcases mem_joinLines h with h | ⟨l, hl, hc⟩
    · exact absurd h (by decide)
    · exact hout_r l hl hc
  show joinLines (formatLines u
    (splitLines (replaceCR (replaceCRLF (parseAndFormat text u)))) 0 []) = _
  rw [replaceCRLF_of_not_mem hcr, replaceCR_of_not_mem hcr]
  by_cases he : formatLines u (splitLines (replaceCR (replaceCRLF text))) 0 [] = []
  · have e : parseAndFormat text u = [] := by
      unfold parseAndFormat; rw [he]; rfl
    rw [e]
    rfl
  · unfold parseAndFormat
    rw [splitLines_joinLines he hout_n, formatLines_idem hu]

theorem indentUnitOf_ws (options : Options) :
    (∀ c ∈ indentUnitOf options, isWhiteSpace c = true) ∧ '\r' ∉ indentUnitOf options ∧
      '\n' ∉ indentUnitOf options := by
  unfold indentUnitOf
  split
  · refine ⟨?_, ?_, ?_⟩
    · intro c hc
      have := mem_strRepeat hc
      simp only [List.mem_singleton] at this
      rw [this]; rfl
    · intro hc
      have := mem_strRepeat hc
      simp at this
    · intro hc
      have := mem_strRepeat hc
      simp at this
  · refine ⟨?_, by decide, by decide⟩
    intro c hc
    simp only [List.mem_singleton] at hc
    rw [hc]; rfl

theorem formatDocument_eq (text : Str) (options : Options) :
    formatDocument text options = parseAndFormat text (indentUnitOf options) := rfl

/-! ## Lemmas for the claims -/

theorem formatLines_eq_layout (u : Str) : ∀ (lines : List Str) (L : Int) (st : List StackItem),
    formatLines u lines L st = (layoutLines lines L st).map (fun p => indentOf u p.1 ++ p.2) := by
  intro lines
  induction lines with
  | nil => intro L st; rfl
  | cons line lines ih =>
    intro L st
    rw [formatLines, layoutLines]
    simp only
    split
    · exact ih _ _
    · split
      · rw [List.map_cons, ih]
      · exact ih _ _

theorem strRepeat_singleton (c : Char) (n : Nat) : strRepeat [c] n = List.replicate n c := by
  induction n with
  | zero => rfl
  | succ n ih => simp [strRepeat, ih, List.replicate_succ]

theorem strRepeat_replicate (c : Char) (k n : Nat) :
    strRepeat (List.replicate k c) n = List.replicate (n * k) c := by
  induction n with
  | zero => simp [strRepeat]
  | succ n ih =>
    simp only [strRepeat, ih, List.append_replicate_replicate]
    congr 1
    rw [Nat.succ_mul, Nat.add_comm]

theorem mem_replaceCRLF {c : Char} : ∀ {s : Str}, c ∈ replaceCRLF s → c ∈ s := by
  intro s
  induction s using replaceCRLF.induct with
  | case1 => intro h; exact h
  | case2 d => intro h; exact h
  | case3 a b cs h ih =>
    intro hm
    rw [replaceCRLF] at hm
    simp only [h, and_self, if_true, List.mem_cons] at hm
    rcases hm with hm | hm
    · rw [hm, ← h.2]; simp
    · exact List.mem_cons_of_mem _ (List.mem_cons_of_mem _ (ih hm))
  | case4 a b cs h ih =>
    intro hm
    rw [replaceCRLF] at hm
    simp only [h, if_false, List.mem_cons] at hm
    rcases hm with hm | hm
    · rw [hm]; exact List.mem_cons_self _ _
    · exact List.mem_cons_of_mem _ (ih hm)

theorem mem_replaceCR {c : Char} {s : Str} (h : c ∈ replaceCR s) : c = '\n' ∨ c ∈ s := by
  unfold replaceCR at h
  obtain ⟨d, hd, hc⟩ := List.mem_map.1 h
  split at hc
  · exact Or.inl hc.symm
  · right; rw [← hc]; exact hd

theorem formatLines_blank (u : Str) : ∀ (lines : List Str) (L : Int) (st : List StackItem),
    (∀ l ∈ lines, trim l = []) → formatLines u lines L st = [] := by
  intro lines
  induction lines with
  | nil => intro L st _; rfl
  | cons line lines ih =>
    intro L st h
    rw [formatLines]
    simp only [h line (List.mem_cons_self _ _), if_true]
    exact ih _ _ (fun l hl => h l (List.mem_cons_of_mem _ hl))

theorem formatDocument_eq_layout (text : Str) (options : Options) :
    formatDocument text options =
      joinLines ((layout text).map (fun p => indentOf (indentUnitOf options) p.1 ++ p.2)) := by
  rw [formatDocument_eq]
  unfold parseAndFormat layout
  rw [formatLines_eq_layout]

theorem determineProperties_isOpening (info : TagInfo) :
    (determineProperties info).isOpening = info.isOpening := by
  unfold determineProperties; split <;> rfl

theorem determineProperties_isClosing (info : TagInfo) :
    (determineProperties info).isClosing = info.isClosing := by
  unfold determineProperties; split <;> rfl

theorem determineProperties_isSelfClosing (info : TagInfo) :
    (determineProperties info).isSelfClosing = info.isSelfClosing := by
  unfold determineProperties; split <;> rfl

theorem determineProperties_tagName (info : TagInfo) :
    (determineProperties info).tagName = info.tagName := by
  unfold determineProperties; split <;> rfl

/-- For an opening tag, `isSelfClosing` is the disjunction computed by `analyzeTag`. -/
theorem analyzeTag_isSelfClosing {tag : Str} (h : (analyzeTag tag).isOpening = true) :
    (analyzeTag tag).isSelfClosing =
      (endsWith (trim tag) "/>".toList ||
        selfClosingCFTags.contains (analyzeTag tag).tagName ||
        selfClosingHTMLTags.contains (analyzeTag tag).tagName) := by
  unfold analyzeTag at h ⊢
  simp only at h ⊢
  split
  · rename_i h1; rw [if_pos h1] at h; cases h
  · rename_i h1
    rw [if_neg h1] at h
    split
    · rename_i h2; rw [if_pos h2] at h; cases h
    · rename_i h2
      rw [if_neg h2] at h
      split
      · rename_i h3
        rw [if_pos h3, determineProperties_isOpening] at h
        cases h
      · rw [determineProperties_isSelfClosing, determineProperties_tagName]
        rfl

theorem execAll_single_shape {line : Str} (h : execAll line = ([([], line)], [])) :
    ∃ x, line = '<' :: x ∧ x.getLast? = some '>' := by
  have := execAll_tag_shape line ([], line) (by rw [h]; exact List.mem_cons_self _ _)
  exact this

theorem trim_tag {x : Str} (hx : x.getLast? = some '>') : trim ('<' :: x) = '<' :: x := by
  apply trim_eq_self
  · intro c cs h
    simp only [List.cons.injEq] at h
    rw [← h.1]; rfl
  · intro hne
    have hxne : x ≠ [] := by intro e; rw [e] at hx; simp at hx
    have : ('<' :: x).getLast? = some '>' := by
      have e : '<' :: x = ['<'] ++ x := rfl
      rw [e, List.getLast?_append_of_ne_nil _ hxne]; exact hx
    rw [List.getLast?_eq_getLast _ hne] at this
    simp only [Option.some.injEq] at this
    rw [this]; rfl

theorem eraseFirst_map {α β : Type} (f : α → β) (p : β → Bool) : ∀ l : List α,
    eraseFirst p (l.map f) = (eraseFirst (fun a => p (f a)) l).map f := by
  intro l
  induction l with
  | nil => rfl
  | cons a l ih =>
    simp only [List.map_cons, eraseFirst]
    split
    · rfl
    · rw [List.map_cons, ih]

theorem mem_of_mem_eraseFirst {α : Type} {p : α → Bool} {a : α} : ∀ {l : List α},
    a ∈ eraseFirst p l → a ∈ l := by
  intro l
  induction l with
  | nil => intro h; exact h
  | cons b l ih =>
    intro h
    simp only [eraseFirst] at h
    split at h
    · exact List.mem_cons_of_mem _ h
    · rcases List.mem_cons.1 h with h | h
      · rw [h]; exact List.mem_cons_self _ _
      · exact List.mem_cons_of_mem _ (ih h)

theorem findMatching_erase (ts : List TracedItem) (name : Str) :
    findMatchingTagInStack (ts.map (fun e => e.item)) name =
      (findMatchingTraced ts name).map (fun e => e.item) := by
  unfold findMatchingTagInStack findMatchingTraced
  rw [← List.map_reverse, List.find?_map]
  rfl

theorem removeFrom_erase (ts : List TracedItem) (name : Str) :
    removeFromTagStack (ts.map (fun e => e.item)) name =
      (removeFromTraced ts name).map (fun e => e.item) := by
  unfold removeFromTagStack removeFromTraced
  rw [← List.map_reverse, eraseFirst_map, List.map_reverse]

theorem processTagTraced_erase (k : Nat) (lvl : Int) (st : TracedState) (b t : Str) :
    (processTagTraced k lvl st b t).erase = processTag lvl st.erase b t := by
  unfold processTagTraced processTag TracedState.erase
  simp only [findMatching_erase, removeFrom_erase, Option.isSome_map']
  split
  · split
    · simp only [PassState.mk.injEq, true_and]
      rw [List.getLast?_map]
      cases (removeFromTraced st.tagStack (analyzeTag t).tagName).getLast? <;> simp
    · rfl
  · split
    · split
      · simp
      · rfl
    · rfl

theorem processTagsTraced_erase (k : Nat) (lvl : Int) : ∀ (ms : List (Str × Str))
    (st : TracedState),
    (processTagsTraced k lvl st ms).erase = processTags lvl st.erase ms := by
  intro ms
  induction ms with
  | nil => intro st; rfl
  | cons m ms ih =>
    intro st
    obtain ⟨b, t⟩ := m
    simp only [processTagsTraced, processTags]
    rw [ih, processTagTraced_erase]

theorem mem_processTagTraced {k : Nat} {lvl : Int} {st : TracedState} {b t : Str}
    {e : TracedItem} (h : e ∈ (processTagTraced k lvl st b t).tagStack) :
    e ∈ st.tagStack ∨ (e.origin = k ∧ e.item.indentLevel = lvl) := by
  unfold processTagTraced at h
  simp only at h
  split at h
  · split at h
    · left
      simp only [removeFromTraced, List.mem_reverse] at h
      have := mem_of_mem_eraseFirst h
      simpa using this
    · exact Or.inl h
  · split at h
    · split at h
      · simp only [List.mem_append, List.mem_singleton] at h
        rcases h with h | h
        · exact Or.inl h
        · right; rw [h]; exact ⟨rfl, rfl⟩
      · exact Or.inl h
    · exact Or.inl h

theorem mem_processTagsTraced {k : Nat} {lvl : Int} {e : TracedItem} :
    ∀ (ms : List (Str × Str)) (st : TracedState),
      e ∈ (processTagsTraced k lvl st ms).tagStack →
      e ∈ st.tagStack ∨ (e.origin = k ∧ e.item.indentLevel = lvl) := by
  intro ms
  induction ms with
  | nil => intro st h; exact Or.inl h
  | cons m ms ih =>
    intro st h
    obtain ⟨b, t⟩ := m
    simp only [processTagsTraced] at h
    rcases ih _ h with h | h
    · exact mem_processTagTraced h
    · exact Or.inr h

theorem alignOrigin_some {temp : List TagInfo} {ts : List TracedItem} {o : Nat} (L : Int)
    (h : alignOrigin temp ts = some o) :
    ∃ e ∈ ts, e.origin = o ∧ alignLevel temp L (ts.map (fun e => e.item)) = e.item.indentLevel := by
  unfold alignOrigin at h
  unfold alignLevel
  split at h
  · rename_i hc
    rw [if_pos hc]
    cases hh : temp.head? with
    | none => rw [hh] at h; cases h
    | some firstTag =>
      rw [hh] at h
      simp only at h ⊢
      split at h
      · rename_i hf
        rw [if_pos hf, findMatching_erase]
        cases hm : findMatchingTraced ts firstTag.tagName with
        | none => rw [hm] at h; cases h
        | some e =>
          rw [hm] at h
          simp only [Option.map_some', Option.some.injEq] at h
          refine ⟨e, ?_, h, rfl⟩
          unfold findMatchingTraced at hm
          have := List.mem_of_find?_eq_some hm
          simpa using this
      · cases h
  · cases h

theorem processLine_tagStack_traced (k : Nat) (line : Str) (L : Int) (ts : List TracedItem) :
    (processLineWithAlignment line L (ts.map (fun e => e.item))).tagStack =
      (processTagsTraced k
        (alignLevel ((execAll line).1.map (fun m => analyzeTag m.2)) L
          (ts.map (fun e => e.item)))
        { content := [], tagStack := ts,
          indentLevel := alignLevel ((execAll line).1.map (fun m => analyzeTag m.2)) L
            (ts.map (fun e => e.item)) }
        (execAll line).1).tagStack.map (fun e => e.item) := by
  have := processTagsTraced_erase k
    (alignLevel ((execAll line).1.map (fun m => analyzeTag m.2)) L (ts.map (fun e => e.item)))
    (execAll line).1
    { content := [], tagStack := ts,
      indentLevel := alignLevel ((execAll line).1.map (fun m => analyzeTag m.2)) L
        (ts.map (fun e => e.item)) }
  have h2 := congrArg PassState.tagStack this
  exact h2.symm

/-- Forgetting the annotations of the trace gives the lines the formatter emits. -/
theorem traceLines_erase : ∀ (lines : List Str) (k : Nat) (L : Int) (ts : List TracedItem),
    (traceLines lines k L ts).map (fun t => (t.level, t.content)) =
      layoutLines lines L (ts.map (fun e => e.item)) := by
  intro lines
  induction lines with
  | nil => intro k L ts; rfl
  | cons line lines ih =>
    intro k L ts
    rw [traceLines, layoutLines]
    simp only
    split
    · exact ih _ _ _
    · split
      · rw [List.map_cons, ih, ← processLine_tagStack_traced]
      · rw [ih, ← processLine_tagStack_traced]

theorem traceLines_aligned : ∀ (lines : List Str) (k : Nat) (L : Int) (ts : List TracedItem)
    (pre : List TracedLine), pre.length = k → TraceInv pre ts →
    ∀ (j o : Nat) (t : TracedLine), (pre ++ traceLines lines k L ts)[j]? = some t → k ≤ j →
      t.alignedWith = some o →
      o < j ∧ ∃ t0, (pre ++ traceLines lines k L ts)[o]? = some t0 ∧ t.level = t0.level := by
  intro lines
  induction lines with
  | nil =>
    intro k L ts pre hk _ j o t hj hkj _
    simp only [traceLines, List.append_nil] at hj
    have := List.getElem?_eq_some.1 hj
    obtain ⟨hlt, _⟩ := this
    omega
  | cons line lines ih =>
    intro k L ts pre hk hinv j o t hj hkj ho
    rw [traceLines] at hj ⊢
    simp only at hj ⊢
    by_cases hb : trim line = []
    · simp only [hb, if_true] at hj ⊢
      exact ih k L ts pre hk hinv j o t hj hkj ho
    · have hne : (processLineWithAlignment (trim line) L (ts.map (fun e => e.item))).content
          ≠ [] := processLine_content_ne_nil (by rw [trim_trim]; exact hb) _ _
      simp only [hb, if_false, hne, ne_eq, not_false_eq_true, if_true] at hj ⊢
      -- the line emitted now
      generalize hlvl : alignLevel ((execAll (trim line)).1.map (fun m => analyzeTag m.2)) L
        (ts.map (fun e => e.item)) = lvl at hj ⊢
      have hlevel : (processLineWithAlignment (trim line) L
          (ts.map (fun e => e.item))).indentLevel = lvl := hlvl
      generalize ht1 : TracedLine.mk
          (processLineWithAlignment (trim line) L (ts.map (fun e => e.item))).indentLevel
          (processLineWithAlignment (trim line) L (ts.map (fun e => e.item))).content
          (alignOrigin ((execAll (trim line)).1.map (fun m => analyzeTag m.2)) ts)
          = t1 at hj ⊢
      have ht1l : t1.level = lvl := by rw [← ht1]; exact hlevel
      have ht1a : t1.alignedWith =
          alignOrigin ((execAll (trim line)).1.map (fun m => analyzeTag m.2)) ts := by
        rw [← ht1]
      generalize hts : (processTagsTraced k lvl
        { content := [], tagStack := ts, indentLevel := lvl } (execAll (trim line)).1).tagStack
        = ts' at hj ⊢
      generalize (processLineWithAlignment (trim line) L
        (ts.map (fun e => e.item))).newIndentLevel = L' at hj ⊢
      have happ : pre ++ t1 :: traceLines lines (k + 1) L' ts' =
          (pre ++ [t1]) ++ traceLines lines (k + 1) L' ts' := by simp
      rw [happ] at hj ⊢
      have hinv' : TraceInv (pre ++ [t1]) ts' := by
        intro e he
        rw [← hts] at he
        rcases mem_processTagsTraced _ _ he with h | ⟨h1, h2⟩
        · obtain ⟨t0, h3, h4⟩ := hinv e h
          refine ⟨t0, ?_, h4⟩
          have hlt := (List.getElem?_eq_some.1 h3).1
          rw [List.getElem?_append_left hlt]; exact h3
        · refine ⟨t1, ?_, by rw [ht1l, h2]⟩
          rw [h1, List.getElem?_append_right (by omega)]
          simp [hk]
      by_cases hjk : j = k
      · subst hjk
        have htj : t = t1 := by
          rw [List.getElem?_append_left (by simp [hk])] at hj
          rw [List.getElem?_append_right (by omega)] at hj
          simp [hk] at hj
          exact hj.symm
        subst htj
        rw [ht1a] at ho
        obtain ⟨e, he, heo, hal⟩ := alignOrigin_some L ho
        obtain ⟨t0, h3, h4⟩ := hinv e he
        have hlt := (List.getElem?_eq_some.1 h3).1
        rw [heo] at h3 hlt
        refine ⟨by omega, t0, ?_, ?_⟩
        · rw [List.getElem?_append_left (by simp; omega),
            List.getElem?_append_left hlt]
          exact h3
        · rw [ht1l, ← hlvl, hal, h4]
      · exact ih (k + 1) L' ts' (pre ++ [t1]) (by simp [hk]) hinv' j o t hj (by omega) ho

theorem determineProperties_isComment (info : TagInfo) :
    (determineProperties info).isComment = info.isComment := by
  unfold determineProperties; split <;> rfl

theorem determineProperties_isDoctype (info : TagInfo) :
    (determineProperties info).isDoctype = info.isDoctype := by
  unfold determineProperties; split <;> rfl

theorem determineProperties_nil {info : TagInfo} (h : info.tagName = []) :
    determineProperties info = info := by
  unfold determineProperties; simp [h]

/-- The four ways `analyzeTag` returns. -/
theorem analyzeTag_cases (tag : Str) :
    ((startsWith (trim tag) "<!--".toList || startsWith (trim tag) "<!---".toList) = true ∧
      analyzeTag tag = { initialInfo (trim tag) with isComment := true, isBlock := true }) ∨
    ((startsWith (trim tag) "<!--".toList || startsWith (trim tag) "<!---".toList) = false ∧
      startsWith (toLowerCase (trim tag)) "<!doctype".toList = true ∧
      analyzeTag tag = { initialInfo (trim tag) with isDoctype := true, isBlock := true }) ∨
    ((startsWith (trim tag) "<!--".toList || startsWith (trim tag) "<!---".toList) = false ∧
      startsWith (toLowerCase (trim tag)) "<!doctype".toList = false ∧
      startsWith (trim tag) "</".toList = true ∧
      analyzeTag tag = determineProperties (closingInfo (trim tag))) ∨
    ((startsWith (trim tag) "<!--".toList || startsWith (trim tag) "<!---".toList) = false ∧
      startsWith (toLowerCase (trim tag)) "<!doctype".toList = false ∧
      startsWith (trim tag) "</".toList = false ∧
      analyzeTag tag = determineProperties (openingInfo (trim tag))) := by
  unfold analyzeTag
  simp only
  by_cases h1 : (startsWith (trim tag) "<!--".toList || startsWith (trim tag) "<!---".toList)
      = true
  · left; exact ⟨h1, by rw [if_pos h1]⟩
  · right
    rw [if_neg h1]
    have h1' := Bool.eq_false_iff.2 h1
    by_cases h2 : startsWith (toLowerCase (trim tag)) "<!doctype".toList = true
    · left; exact ⟨h1', h2, by rw [if_pos h2]⟩
    · right
      rw [if_neg h2]
      have h2' := Bool.eq_false_iff.2 h2
      by_cases h3 : startsWith (trim tag) "</".toList = true
      · left; exact ⟨h1', h2', h3, by rw [if_pos h3]⟩
      · right; exact ⟨h1', h2', Bool.eq_false_iff.2 h3, by rw [if_neg h3]⟩

theorem isUpper_iff (c : Char) : c.isUpper = true ↔ 65 ≤ c.toNat ∧ c.toNat ≤ 90 := by
  simp only [Char.isUpper, Char.toNat, Bool.and_eq_true, decide_eq_true_eq, ge_iff_le]
  exact Iff.rfl
theorem isLower_iff (c : Char) : c.isLower = true ↔ 97 ≤ c.toNat ∧ c.toNat ≤ 122 := by
  simp only [Char.isLower, Char.toNat, Bool.and_eq_true, decide_eq_true_eq, ge_iff_le]
  exact Iff.rfl
theorem isDigit_iff (c : Char) : c.isDigit = true ↔ 48 ≤ c.toNat ∧ c.toNat ≤ 57 := by
  simp only [Char.isDigit, Char.toNat, Bool.and_eq_true, decide_eq_true_eq, ge_iff_le]
  exact Iff.rfl

theorem forall_range {P : Char → Prop} (a k : Nat)
    (hP : ∀ n, n < k → P (Char.ofNat (a + n))) (c : Char)
    (h : a ≤ c.toNat ∧ c.toNat < a + k) : P c := by
  have := hP (c.toNat - a) (by omega)
  rwa [show a + (c.toNat - a) = c.toNat by omega, Char.ofNat_toNat] at this

theorem isAlpha_not_ws {c : Char} (h : c.isAlpha = true) : isWhiteSpace c = false := by
  simp only [Char.isAlpha, Bool.or_eq_true, isUpper_iff, isLower_iff] at h
  rcases h with h | h
  · exact forall_range (P := fun c => isWhiteSpace c = false) 65 26 (by decide) c (by omega)
  · exact forall_range (P := fun c => isWhiteSpace c = false) 97 26 (by decide) c (by omega)

theorem toLower_of_not_upper {c : Char} (h : c.isUpper = false) : c.toLower = c := by
  have : ¬ (65 ≤ c.toNat ∧ c.toNat ≤ 90) := by
    rw [← isUpper_iff, h]; simp
  unfold Char.toLower
  simp only [ge_iff_le]
  rw [if_neg this]

theorem toLower_isLower_of_isAlpha {c : Char} (h : c.isAlpha = true) :
    c.toLower.isLower = true := by
  cases hu : c.isUpper with
  | true =>
    rw [isUpper_iff] at hu
    exact forall_range (P := fun c => c.toLower.isLower = true) 65 26 (by decide) c (by omega)
  | false =>
    rw [toLower_of_not_upper hu]
    simpa [Char.isAlpha, hu] using h

theorem isAlpha_ne {c p : Char} (h : c.isAlpha = true) (hp : p.isAlpha = false) : c ≠ p := by
  rintro rfl
  rw [h] at hp; cases hp

theorem toLower_ne_of_isAlpha {c p : Char} (h : c.isAlpha = true) (hp : p.isLower = false) :
    c.toLower ≠ p := by
  intro e
  have := toLower_isLower_of_isAlpha h
  rw [e, hp] at this; cases this

theorem isAlphanum_of_isAlpha {c : Char} (h : c.isAlpha = true) : c.isAlphanum = true := by
  simp [Char.isAlphanum, h]

theorem nameAt_cons {d : Char} (rest : Str) (h : d.isAlpha = true) :
    nameAt (d :: rest) = some (d :: rest.takeWhile Char.isAlphanum) := by
  simp [nameAt, h]

theorem findMatching_eq_none_iff (tagStack : List StackItem) (name : Str) :
    findMatchingTagInStack tagStack name = none ↔ ∀ e ∈ tagStack, e.tagName ≠ name := by
  unfold findMatchingTagInStack
  simp [List.find?_eq_none]

theorem findMatching_eq_some_iff (tagStack : List StackItem) (name : Str) (e : StackItem) :
    findMatchingTagInStack tagStack name = some e ↔
      ∃ pre post, tagStack = pre ++ e :: post ∧ e.tagName = name ∧
        ∀ x ∈ post, x.tagName ≠ name := by
  unfold findMatchingTagInStack
  rw [List.find?_eq_some]
  constructor
  · rintro ⟨hp, as, bs, hs, has⟩
    refine ⟨bs.reverse, as.reverse, ?_, by simpa using hp, ?_⟩
    · have := congrArg List.reverse hs
      simpa using this
    · intro x hx
      have := has x (List.mem_reverse.1 hx)
      simpa using this
  · rintro ⟨pre, post, rfl, hn, hpost⟩
    refine ⟨by simpa using hn, post.reverse, pre.reverse, by simp, ?_⟩
    intro x hx
    have := hpost x (List.mem_reverse.1 hx)
    simpa using this

theorem eraseFirst_of_forall_not {α : Type} {p : α → Bool} : ∀ {l : List α},
    (∀ a ∈ l, p a = false) → eraseFirst p l = l := by
  intro l
  induction l with
  | nil => intro _; rfl
  | cons a l ih =>
    intro h
    simp only [eraseFirst, h a (List.mem_cons_self _ _), Bool.false_eq_true, if_false]
    rw [ih (fun b hb => h b (List.mem_cons_of_mem _ hb))]

theorem eraseFirst_append_cons {α : Type} {p : α → Bool} {b : α} (bs : List α) (hb : p b = true) :
    ∀ {as : List α}, (∀ a ∈ as, p a = false) → eraseFirst p (as ++ b :: bs) = as ++ bs := by
  intro as
  induction as with
  | nil => intro _; simp [eraseFirst, hb]
  | cons a as ih =>
    intro h
    show eraseFirst p (a :: (as ++ b :: bs)) = _
    simp only [eraseFirst, h a (List.mem_cons_self _ _), Bool.false_eq_true, if_false]
    rw [ih (fun c hc => h c (List.mem_cons_of_mem _ hc))]
    rfl

theorem removeFrom_of_split {pre post : List StackItem} {e : StackItem} {name : Str}
    (he : e.tagName = name) (hpost : ∀ x ∈ post, x.tagName ≠ name) :
    removeFromTagStack (pre ++ e :: post) name = pre ++ post := by
  unfold removeFromTagStack
  have e1 : (pre ++ e :: post).reverse = post.reverse ++ e :: pre.reverse := by simp
  rw [e1, eraseFirst_append_cons _ (by simpa using he)]
  · simp
  · intro a ha
    have := hpost a (List.mem_reverse.1 ha)
    simpa using this

theorem removeFrom_of_forall_ne {tagStack : List StackItem} {name : Str}
    (h : ∀ x ∈ tagStack, x.tagName ≠ name) : removeFromTagStack tagStack name = tagStack := by
  unfold removeFromTagStack
  rw [eraseFirst_of_forall_not]
  · simp
  · intro a ha
    have := h a (List.mem_reverse.1 ha)
    simpa using this

theorem processTag_inert {lvl : Int} {st : PassState} {b t : Str}
    (h : InertTag (analyzeTag t)) :
    (processTag lvl st b t).tagStack = st.tagStack ∧
      (processTag lvl st b t).indentLevel = st.indentLevel := by
  obtain ⟨h1, h2⟩ := h
  unfold processTag
  simp only
  cases hc : (analyzeTag t).isClosing with
  | true =>
    rw [hc] at h1
    simp only [Bool.true_and] at h1
    simp [h1]
  | false =>
    cases ho : ((analyzeTag t).isOpening && !(analyzeTag t).isSelfClosing) with
    | false => simp
    | true =>
      rw [ho] at h2
      simp only [Bool.true_and] at h2
      simp [h2]

theorem processTags_inert {lvl : Int} : ∀ (ms : List (Str × Str)) (st : PassState),
    (∀ m ∈ ms, InertTag (analyzeTag m.2)) →
    (processTags lvl st ms).tagStack = st.tagStack ∧
      (processTags lvl st ms).indentLevel = st.indentLevel := by
  intro ms
  induction ms with
  | nil => intro st _; exact ⟨rfl, rfl⟩
  | cons m ms ih =>
    intro st h
    obtain ⟨b, t⟩ := m
    simp only [processTags]
    obtain ⟨h1, h2⟩ := ih (processTag lvl st b t) (fun m hm => h m (List.mem_cons_of_mem _ hm))
    obtain ⟨h3, h4⟩ := @processTag_inert lvl st b t
      (h (b, t) (List.mem_cons_self _ _))
    exact ⟨h1.trans h3, h2.trans h4⟩

theorem hasClosingTag_eq_false {temp : List TagInfo}
    (h : ∀ i ∈ temp, (i.isClosing && i.isBlock) = false) : hasClosingTag temp = false := by
  unfold hasClosingTag
  rw [List.any_eq_false]
  intro i hi
  rw [h i hi]; simp

theorem alignLevel_of_no_closing {temp : List TagInfo} (L : Int) (st : List StackItem)
    (h : hasClosingTag temp = false) : alignLevel temp L st = L := by
  unfold alignLevel
  simp [h]

/-- A line all of whose tags are inert leaves the stack and the running level alone and
is emitted at the running level. -/
theorem processLine_inert (line : Str) (L : Int) (tagStack : List StackItem)
    (h : ∀ m ∈ (execAll line).1, InertTag (analyzeTag m.2)) :
    (processLineWithAlignment line L tagStack).tagStack = tagStack ∧
    (processLineWithAlignment line L tagStack).indentLevel = L ∧
    (processLineWithAlignment line L tagStack).newIndentLevel = L := by
  have hal : alignLevel ((execAll line).1.map (fun m => analyzeTag m.2)) L tagStack = L := by
    apply alignLevel_of_no_closing
    apply hasClosingTag_eq_false
    intro i hi
    obtain ⟨m, hm, rfl⟩ := List.mem_map.1 hi
    exact (h m hm).1
  unfold processLineWithAlignment
  simp only [hal]
  obtain ⟨h1, h2⟩ := @processTags_inert L (execAll line).1
    { content := [], tagStack := tagStack, indentLevel := L } h
  refine ⟨h1, ?_, h2⟩
  first | rfl | trivial

theorem determineProperties_isBlock (info : TagInfo) (h : info.isBlock = false) :
    (determineProperties info).isBlock = true →
      info.tagName ∈ blockLevelCFTags ∨ info.tagName ∈ blockLevelHTMLTags := by
  unfold determineProperties
  split
  · simp only
    split
    · intro hb; exact Or.inl (List.mem_of_elem_eq_true hb)
    · intro hb; exact Or.inr (List.mem_of_elem_eq_true hb)
  · intro hb; rw [h] at hb; cases hb

/-- A tag classified block-level is a comment, a doctype declaration, or has its name in a
block-level set. -/
theorem analyzeTag_isBlock {tag : Str} (h : (analyzeTag tag).isBlock = true) :
    (analyzeTag tag).isComment = true ∨ (analyzeTag tag).isDoctype = true ∨
      (analyzeTag tag).tagName ∈ blockLevelCFTags ∨
      (analyzeTag tag).tagName ∈ blockLevelHTMLTags := by
  rcases analyzeTag_cases tag with ⟨_, e⟩ | ⟨_, _, e⟩ | ⟨_, _, _, e⟩ | ⟨_, _, _, e⟩
  · left; rw [e]
  · right; left; rw [e]
  · right; right
    rw [e] at h ⊢
    rw [determineProperties_tagName]
    exact determineProperties_isBlock _ rfl h
  · right; right
    rw [e] at h ⊢
    rw [determineProperties_tagName]
    exact determineProperties_isBlock _ rfl h

theorem analyzeTag_comment_flags {tag : Str} (h : (analyzeTag tag).isComment = true) :
    (analyzeTag tag).isBlock = true ∧ (analyzeTag tag).isClosing = false ∧
      (analyzeTag tag).isOpening = false := by
  rcases analyzeTag_cases tag with ⟨_, e⟩ | ⟨_, _, e⟩ | ⟨_, _, _, e⟩ | ⟨_, _, _, e⟩
  · rw [e]; exact ⟨rfl, rfl, rfl⟩
  · rw [e] at h; cases h
  · rw [e, determineProperties_isComment] at h; cases h
  · rw [e, determineProperties_isComment] at h; cases h

theorem analyzeTag_doctype_flags {tag : Str} (h : (analyzeTag tag).isDoctype = true) :
    (analyzeTag tag).isBlock = true ∧ (analyzeTag tag).isClosing = false ∧
      (analyzeTag tag).isOpening = false := by
  rcases analyzeTag_cases tag with ⟨_, e⟩ | ⟨_, _, e⟩ | ⟨_, _, _, e⟩ | ⟨_, _, _, e⟩
  · rw [e] at h; cases h
  · rw [e]; exact ⟨rfl, rfl, rfl⟩
  · rw [e, determineProperties_isDoctype] at h; cases h
  · rw [e, determineProperties_isDoctype] at h; cases h

theorem cr_not_mem_parseAndFormat {u : Str} (hr : '\r' ∉ u) (text : Str) :
    '\r' ∉ parseAndFormat text u := by
  intro h
  rcases mem_joinLines h with h | ⟨l, hl, hc⟩
  · exact absurd h (by decide)
  · refine not_mem_formatLines (u := u) (d := '\r') (by decide) hr _ 0 [] ?_ l hl hc
    intro l hl h
    exact not_mem_replaceCR _ ((mem_splitLines l hl).2 _ h)

theorem toLower_cases (c : Char) :
    c.toLower = c ∨ (c.isUpper = true ∧ c.toLower.isLower = true) := by
  cases hu : c.isUpper with
  | false => exact Or.inl (toLower_of_not_upper hu)
  | true =>
    right
    exact ⟨rfl, toLower_isLower_of_isAlpha (by simp [Char.isAlpha, hu])⟩

theorem isLower_not_upper {c : Char} (h : c.isLower = true) : c.isUpper = false := by
  rw [isLower_iff] at h
  rw [Bool.eq_false_iff, Ne, isUpper_iff]
  omega

theorem isLower_not_digit {c : Char} (h : c.isLower = true) : c.isDigit = false := by
  rw [isLower_iff] at h
  rw [Bool.eq_false_iff, Ne, isDigit_iff]
  omega

theorem isUpper_not_digit {c : Char} (h : c.isUpper = true) : c.isDigit = false := by
  rw [isUpper_iff] at h
  rw [Bool.eq_false_iff, Ne, isDigit_iff]
  omega

theorem isWhiteSpace_toLower (c : Char) : isWhiteSpace c.toLower = isWhiteSpace c := by
  rcases toLower_cases c with h | ⟨h1, h2⟩
  · rw [h]
  · have a1 : c.isAlpha = true := by simp [Char.isAlpha, h1]
    have a2 : c.toLower.isAlpha = true := by simp [Char.isAlpha, h2]
    rw [isAlpha_not_ws a1, isAlpha_not_ws a2]

theorem toLower_eq_iff (c : Char) {p : Char} (hp : p.isAlpha = false) :
    c.toLower = p ↔ c = p := by
  rcases toLower_cases c with h | ⟨h1, h2⟩
  · rw [h]
  · have e1 : c ≠ p := isAlpha_ne (by simp [Char.isAlpha, h1]) hp
    have e2 : c.toLower ≠ p := isAlpha_ne (by simp [Char.isAlpha, h2]) hp
    exact ⟨fun h => absurd h e2, fun h => absurd h e1⟩

theorem toLower_beq (c : Char) {p : Char} (hp : p.isAlpha = false) :
    (p == c.toLower) = (p == c) := by
  by_cases h : c = p
  · have := (toLower_eq_iff c hp).2 h
    rw [this, h]
  · have h2 : ¬ c.toLower = p := fun e => h ((toLower_eq_iff c hp).1 e)
    rw [beq_eq_false_iff_ne.2 (Ne.symm h), beq_eq_false_iff_ne.2 (Ne.symm h2)]

theorem toLower_toLower (c : Char) : c.toLower.toLower = c.toLower := by
  rcases toLower_cases c with h | ⟨_, h2⟩
  · rw [h, h]
  · exact toLower_of_not_upper (isLower_not_upper h2)

theorem isAlpha_toLower (c : Char) : c.toLower.isAlpha = c.isAlpha := by
  rcases toLower_cases c with h | ⟨h1, h2⟩
  · rw [h]
  · simp [Char.isAlpha, h1, h2]

theorem isAlphanum_toLower (c : Char) : c.toLower.isAlphanum = c.isAlphanum := by
  rcases toLower_cases c with h | ⟨h1, h2⟩
  · rw [h]
  · simp [Char.isAlphanum, Char.isAlpha, h1, h2]

theorem toLowerCase_toLowerCase (s : Str) : toLowerCase (toLowerCase s) = toLowerCase s := by
  unfold toLowerCase
  rw [List.map_map]
  apply List.map_congr_left
  intro c _
  exact toLower_toLower c

theorem dropWhile_ws_toLowerCase (s : Str) :
    (toLowerCase s).dropWhile isWhiteSpace = toLowerCase (s.dropWhile isWhiteSpace) := by
  unfold toLowerCase
  rw [List.dropWhile_map]
  congr 2
  funext c
  exact isWhiteSpace_toLower c

theorem trim_toLowerCase (s : Str) : trim (toLowerCase s) = toLowerCase (trim s) := by
  unfold trim List.rdropWhile
  rw [dropWhile_ws_toLowerCase]
  have e : ∀ x : Str, (toLowerCase x).reverse = toLowerCase x.reverse := by
    intro x; unfold toLowerCase; rw [List.map_reverse]
  rw [e, dropWhile_ws_toLowerCase, e]

theorem isPrefixOf_toLowerCase {lit : Str} (hl : ∀ p ∈ lit, p.isAlpha = false) :
    ∀ s : Str, lit.isPrefixOf (toLowerCase s) = lit.isPrefixOf s := by
  induction lit with
  | nil => intro s; simp
  | cons p lit ih =>
    intro s
    cases s with
    | nil => rfl
    | cons c s =>
      show List.isPrefixOf (p :: lit) (c.toLower :: toLowerCase s) = _
      simp only [List.isPrefixOf]
      rw [toLower_beq c (hl p (List.mem_cons_self _ _)),
        ih (fun q hq => hl q (List.mem_cons_of_mem _ hq))]

theorem startsWith_toLowerCase {lit : Str} (hl : ∀ p ∈ lit, p.isAlpha = false) (s : Str) :
    startsWith (toLowerCase s) lit = startsWith s lit :=
  isPrefixOf_toLowerCase hl s

theorem endsWith_toLowerCase {lit : Str} (hl : ∀ p ∈ lit, p.isAlpha = false) (s : Str) :
    endsWith (toLowerCase s) lit = endsWith s lit := by
  unfold endsWith List.isSuffixOf
  have e : (toLowerCase s).reverse = toLowerCase s.reverse := by
    unfold toLowerCase; rw [List.map_reverse]
  rw [e]
  exact isPrefixOf_toLowerCase (fun p hp => hl p (List.mem_reverse.1 hp)) _

theorem nameAt_toLowerCase (s : Str) :
    nameAt (toLowerCase s) = (nameAt s).map toLowerCase := by
  cases s with
  | nil => rfl
  | cons d ds =>
    show nameAt (d.toLower :: toLowerCase ds) = _
    simp only [nameAt, isAlpha_toLower]
    split
    · simp only [Option.map_some', Option.some.injEq, toLowerCase, List.map_cons,
        List.cons.injEq, true_and]
      rw [List.takeWhile_map]
      congr 2
      funext c
      exact isAlphanum_toLower c
    · rfl

theorem matchOpenName_toLowerCase (s : Str) :
    matchOpenName (toLowerCase s) = (matchOpenName s).map toLowerCase := by
  induction s with
  | nil => rfl
  | cons c cs ih =>
    show matchOpenName (c.toLower :: toLowerCase cs) = _
    by_cases hc : c = '<'
    · have hc2 : c.toLower = '<' := (toLower_eq_iff c (by decide)).2 hc
      simp only [matchOpenName, hc, hc2, if_true]
      rw [nameAt_toLowerCase, ih]
      cases nameAt cs <;> rfl
    · have hc2 : ¬ c.toLower = '<' := fun e => hc ((toLower_eq_iff c (by decide)).1 e)
      simp only [matchOpenName, hc, hc2, if_false]
      exact ih

theorem head?_toLowerCase_slash (cs : Str) :
    (toLowerCase cs).head? = some '/' ↔ cs.head? = some '/' := by
  cases cs with
  | nil => exact Iff.rfl
  | cons d ds =>
    show (d.toLower :: toLowerCase ds).head? = some '/' ↔ _
    simp only [List.head?_cons, Option.some.injEq]
    exact toLower_eq_iff d (by decide)

theorem matchCloseName_toLowerCase (s : Str) :
    matchCloseName (toLowerCase s) = (matchCloseName s).map toLowerCase := by
  induction s with
  | nil => rfl
  | cons c cs ih =>
    show matchCloseName (c.toLower :: toLowerCase cs) = _
    have ht : (toLowerCase cs).tail = toLowerCase cs.tail := by
      cases cs <;> rfl
    by_cases hc : c = '<' ∧ cs.head? = some '/'
    · have hc2 : c.toLower = '<' ∧ (toLowerCase cs).head? = some '/' :=
        ⟨(toLower_eq_iff c (by decide)).2 hc.1, (head?_toLowerCase_slash cs).2 hc.2⟩
      simp only [matchCloseName]
      rw [if_pos hc, if_pos hc2, ht, nameAt_toLowerCase, ih]
      cases nameAt cs.tail <;> rfl
    · have hc2 : ¬ (c.toLower = '<' ∧ (toLowerCase cs).head? = some '/') := fun e =>
        hc ⟨(toLower_eq_iff c (by decide)).1 e.1, (head?_toLowerCase_slash cs).1 e.2⟩
      simp only [matchCloseName]
      rw [if_neg hc, if_neg hc2]
      exact ih

theorem blank_determineProperties (info : TagInfo) :
    blankFullTag (determineProperties info) = determineProperties (blankFullTag info) := by
  unfold determineProperties blankFullTag
  simp only
  split <;> rfl

theorem openingName_toLowerCase (x : Str) : openingName (toLowerCase x) = openingName x := by
  unfold openingName
  rw [matchOpenName_toLowerCase]
  cases matchOpenName x with
  | none => rfl
  | some m => exact toLowerCase_toLowerCase m

theorem blank_closingInfo_toLowerCase (x : Str) :
    blankFullTag (closingInfo (toLowerCase x)) = blankFullTag (closingInfo x) := by
  unfold blankFullTag closingInfo initialInfo
  simp only [TagInfo.mk.injEq, true_and, and_true]
  rw [matchCloseName_toLowerCase]
  cases matchCloseName x with
  | none => rfl
  | some m => exact toLowerCase_toLowerCase m

theorem blank_openingInfo_toLowerCase (x : Str) :
    blankFullTag (openingInfo (toLowerCase x)) = blankFullTag (openingInfo x) := by
  unfold blankFullTag openingInfo initialInfo
  simp only [TagInfo.mk.injEq, true_and, and_true]
  rw [openingName_toLowerCase, endsWith_toLowerCase (by decide)]
  exact ⟨rfl, rfl⟩

theorem analyzeTag_eq_ite (tag : Str) :
    analyzeTag tag =
      if (startsWith (trim tag) "<!--".toList || startsWith (trim tag) "<!---".toList) = true
      then { initialInfo (trim tag) with isComment := true, isBlock := true }
      else if startsWith (toLowerCase (trim tag)) "<!doctype".toList = true
      then { initialInfo (trim tag) with isDoctype := true, isBlock := true }
      else if startsWith (trim tag) "</".toList = true
      then determineProperties (closingInfo (trim tag))
      else determineProperties (openingInfo (trim tag)) := rfl

/-- Lowercasing a text changes nothing of its classification but `fullTag`. -/
theorem blank_analyzeTag_toLowerCase (s : Str) :
    blankFullTag (analyzeTag (toLowerCase s)) = blankFullTag (analyzeTag s) := by
  rw [analyzeTag_eq_ite, analyzeTag_eq_ite, trim_toLowerCase, toLowerCase_toLowerCase,
    @startsWith_toLowerCase "<!--".toList (by decide),
    @startsWith_toLowerCase "<!---".toList (by decide),
    @startsWith_toLowerCase "</".toList (by decide)]
  split
  · rfl
  · split
    · rfl
    · split
      · rw [blank_determineProperties, blank_determineProperties,
          blank_closingInfo_toLowerCase]
      · rw [blank_determineProperties, blank_determineProperties,
          blank_openingInfo_toLowerCase]

theorem analyzeTag_tagName_lower (tag : Str) :
    toLowerCase (analyzeTag tag).tagName = (analyzeTag tag).tagName := by
  rcases analyzeTag_cases tag with ⟨_, e⟩ | ⟨_, _, e⟩ | ⟨_, _, _, e⟩ | ⟨_, _, _, e⟩
  · rw [e]; rfl
  · rw [e]; rfl
  · rw [e, determineProperties_tagName]
    show toLowerCase (closingInfo (trim tag)).tagName = _
    unfold closingInfo
    simp only
    cases matchCloseName (trim tag) with
    | none => rfl
    | some m => exact toLowerCase_toLowerCase m
  · rw [e, determineProperties_tagName]
    show toLowerCase (openingName (trim tag)) = openingName (trim tag)
    unfold openingName
    cases matchOpenName (trim tag) with
    | none => rfl
    | some m => exact toLowerCase_toLowerCase m

theorem tagsOf_ws_cons {c : Char} (hc : isWhiteSpace c = true) (s : Str) :
    tagsOf (c :: s) = tagsOf s := by
  have hne : c ≠ '<' := by rintro rfl; exact absurd hc (by decide)
  have hm := matchTagAt_of_ne s hne
  unfold tagsOf
  cases h : execTag s with
  | none =>
    have h' : execTag (c :: s) = none := by rw [execTag_cons_of_none hm, h]; rfl
    rw [execAll_none h, execAll_none h']
  | some q =>
    obtain ⟨b, t, r⟩ := q
    have h' : execTag (c :: s) = some (c :: b, t, r) := by
      rw [execTag_cons_of_none hm, h]; rfl
    rw [execAll_some h, execAll_some h']
    rfl

theorem tagsOf_ws_append {w : Str} (hw : ∀ c ∈ w, isWhiteSpace c = true) (s : Str) :
    tagsOf (w ++ s) = tagsOf s := by
  induction w with
  | nil => rfl
  | cons c w ih =>
    show tagsOf (c :: (w ++ s)) = _
    rw [tagsOf_ws_cons (hw c (List.mem_cons_self _ _)),
      ih (fun d hd => hw d (List.mem_cons_of_mem _ hd))]

theorem quiet_append_ws {X w : Str} (hw : ∀ c ∈ w, isWhiteSpace c = true) (h : Quiet X []) :
    Quiet X w := by
  induction X with
  | nil => trivial
  | cons c cs ih =>
    obtain ⟨hm, hq⟩ := h
    refine ⟨?_, ih hq⟩
    by_cases hc : c = '<'
    · subst hc
      rw [matchTagAt_eq_none_iff] at hm ⊢
      simp only [List.append_nil] at hm
      rcases hm with hm | hm
      · left
        cases cs with
        | nil => simp at hm
        | cons d ds => simpa using hm
      · right
        intro hin
        rcases List.mem_append.1 hin with h1 | h1
        · exact hm h1
        · have := hw _ h1
          rw [not_ws_gt] at this; cases this
    · exact matchTagAt_of_ne _ hc

theorem not_infix_ws {pat w : Str} (hw : ∀ c ∈ w, isWhiteSpace c = true)
    (hp : ∀ c ∈ pat, isWhiteSpace c = false) (hne : pat ≠ []) : ¬ pat <:+: w := by
  intro h
  cases pat with
  | nil => exact hne rfl
  | cons p ps =>
    have h1 : p ∈ w := h.subset (List.mem_cons_self _ _)
    have := hw p h1
    rw [hp p (List.mem_cons_self _ _)] at this; cases this

theorem infix_of_infix_append_ws {pat r w : Str} (hw : ∀ c ∈ w, isWhiteSpace c = true)
    (hp : ∀ c ∈ pat, isWhiteSpace c = false) (hne : pat ≠ []) (h : pat <:+: r ++ w) :
    pat <:+: r := by
  rcases infix_append_cases h with h | h | ⟨p1, p2, he, _, hp2, _, hpre⟩
  · exact h
  · exact absurd h (not_infix_ws hw hp hne)
  · exfalso
    cases p2 with
    | nil => exact hp2 rfl
    | cons c cs =>
      have h1 : c ∈ w := hpre.subset (List.mem_cons_self _ _)
      have h2 : c ∈ pat := by rw [he]; simp
      have := hw c h1
      rw [hp c h2] at this; cases this

theorem tagsOf_append_ws {w : Str} (hw : ∀ c ∈ w, isWhiteSpace c = true) :
    ∀ s : Str, tagsOf (s ++ w) = tagsOf s := by
  apply execAll_induction
  · intro s he
    have he' : execTag (s ++ w) = none := by
      rw [execTag_eq_none_iff] at he ⊢
      rw [quiet_append]
      exact ⟨quiet_append_ws (by simpa using hw) he, quiet_of_ws _ hw⟩
    unfold tagsOf
    rw [execAll_none he, execAll_none he']
  · intro s b t r he ih
    obtain ⟨hs, hm, hq⟩ := execTag_some he
    obtain ⟨x, rfl, _, hx⟩ := matchTagAt_shape hm
    have hxm : '>' ∈ x := List.mem_of_getLast?_eq_some hx
    have hm' : matchTagAt ('<' :: x ++ (r ++ w)) = some ('<' :: x, r ++ w) :=
      matchTagAt_stable hm (infix_of_infix_append_ws hw (by decide) (by decide))
        (infix_of_infix_append_ws hw (by decide) (by decide))
        (infix_of_infix_append_ws hw (by decide) (by decide))
    have hq' : Quiet b ('<' :: x ++ (r ++ w)) :=
      quiet_transfer _ hq (by simp [hxm]) (by simp)
    have he' : execTag (s ++ w) = some (b, '<' :: x, r ++ w) := by
      have := execTag_of_quiet hq' hm'
      rw [hs]
      simpa using this
    unfold tagsOf at ih ⊢
    rw [execAll_some he, execAll_some he']
    simp only [List.map_cons]
    rw [ih]

/-- Trimming a line does not change its tags. -/
theorem tagsOf_trim (l : Str) : tagsOf (trim l) = tagsOf l := by
  obtain ⟨w1, w2, h1, h2, hl⟩ := trim_decomp l
  conv_rhs => rw [hl]
  rw [tagsOf_append_ws h2, tagsOf_ws_append h1]

theorem tagsOf_eq_of_normToks {l1 l2 : Str} (h : normToks (execAll l1) = normToks (execAll l2)) :
    tagsOf l1 = tagsOf l2 := by
  have := congrArg (fun p => p.1.map (fun m => m.2)) h
  simpa [normToks, tagsOf, List.map_map, Function.comp_def] using this

theorem tagsOf_processLine_content (line : Str) (L : Int) (st : List StackItem) :
    tagsOf (processLineWithAlignment line L st).content = tagsOf line :=
  tagsOf_eq_of_normToks (normToks_execAll_content line L st)

theorem formatLines_ne_nil (u : Str) : ∀ (lines : List Str) (L : Int) (st : List StackItem),
    ∀ l ∈ formatLines u lines L st, l ≠ [] := by
  intro lines
  induction lines with
  | nil => intro L st l hl; simp [formatLines] at hl
  | cons line lines ih =>
    intro L st l hl
    rw [formatLines] at hl
    simp only at hl
    split at hl
    · exact ih _ _ l hl
    · split at hl
      · rename_i hne
        rcases List.mem_cons.1 hl with rfl | hl
        · intro h
          exact hne (List.append_eq_nil.1 h).2
        · exact ih _ _ l hl
      · exact ih _ _ l hl

theorem joinLines_eq_nil : ∀ {ls : List Str}, (∀ l ∈ ls, l ≠ []) → joinLines ls = [] → ls = [] := by
  intro ls hne h
  cases ls with
  | nil => rfl
  | cons l ls =>
    exfalso
    cases ls with
    | nil => exact hne l (List.mem_cons_self _ _) h
    | cons l2 ls =>
      have h' : l ++ '\n' :: joinLines (l2 :: ls) = [] := h
      simp at h'

theorem outputLines_joinLines {ls : List Str} (hne : ∀ l ∈ ls, l ≠ [])
    (hnl : ∀ l ∈ ls, '\n' ∉ l) : outputLines (joinLines ls) = ls := by
  unfold outputLines
  by_cases h : joinLines ls = []
  · rw [if_pos h, joinLines_eq_nil hne h]
  · rw [if_neg h]
    apply splitLines_joinLines _ hnl
    rintro rfl
    exact h rfl

theorem formatLines_tags {u : Str} (hu : ∀ c ∈ u, isWhiteSpace c = true) :
    ∀ (lines : List Str) (L : Int) (st : List StackItem),
      (formatLines u lines L st).length =
        (lines.filter (fun l => decide (trim l ≠ []))).length ∧
      ∀ (k : Nat) (o i : Str), (formatLines u lines L st)[k]? = some o →
        (lines.filter (fun l => decide (trim l ≠ [])))[k]? = some i →
        tagsOf (trim o) = tagsOf i := by
  intro lines
  induction lines with
  | nil => intro L st; exact ⟨rfl, fun k o i h => by simp [formatLines] at h⟩
  | cons line lines ih =>
    intro L st
    by_cases hb : trim line = []
    · have e : formatLines u (line :: lines) L st = formatLines u lines L st := by
        simp [formatLines, hb]
      have e2 : (line :: lines).filter (fun l => decide (trim l ≠ [])) =
          lines.filter (fun l => decide (trim l ≠ [])) := by
        simp [List.filter_cons, hb]
      rw [e, e2]; exact ih L st
    · have hne : (processLineWithAlignment (trim line) L st).content ≠ [] :=
        processLine_content_ne_nil (by rw [trim_trim]; exact hb) L st
      have e : formatLines u (line :: lines) L st =
          (indentOf u (processLineWithAlignment (trim line) L st).indentLevel ++
            (processLineWithAlignment (trim line) L st).content) ::
          formatLines u lines (processLineWithAlignment (trim line) L st).newIndentLevel
            (processLineWithAlignment (trim line) L st).tagStack := by
        simp [formatLines, hb, hne]
      have e2 : (line :: lines).filter (fun l => decide (trim l ≠ [])) =
          line :: lines.filter (fun l => decide (trim l ≠ [])) := by
        simp [List.filter_cons, hb]
      rw [e, e2]
      obtain ⟨h1, h2⟩ := ih (processLineWithAlignment (trim line) L st).newIndentLevel
        (processLineWithAlignment (trim line) L st).tagStack
      refine ⟨by simp [h1], ?_⟩
      intro k o i ho hi
      cases k with
      | zero =>
        simp only [List.getElem?_cons_zero, Option.some.injEq] at ho hi
        rw [← ho, ← hi, trim_indentOf_append hu, trim_processLine_content,
          tagsOf_processLine_content, tagsOf_trim]
      | succ k =>
        simp only [List.getElem?_cons_succ] at ho hi
        exact h2 k o i ho hi

theorem nl_not_mem_formatLines {u : Str} (hn : '\n' ∉ u) (s : Str) :
    ∀ l ∈ formatLines u (splitLines s) 0 [], '\n' ∉ l :=
  not_mem_formatLines (by decide) hn _ 0 [] (fun l hl => (mem_splitLines l hl).1)

/-- The lines of the output text are the lines the line loop emits. -/
theorem outputLines_formatDocument (text : Str) (options : Options) :
    outputLines (formatDocument text options) =
      formatLines (indentUnitOf options) (splitLines (replaceCR (replaceCRLF text))) 0 [] := by
  rw [formatDocument_eq]
  unfold parseAndFormat
  exact outputLines_joinLines (formatLines_ne_nil _ _ _ _)
    (nl_not_mem_formatLines (indentUnitOf_ws options).2.2 _)

theorem strip_append (a b : Str) :
    stripWhiteSpace (a ++ b) = stripWhiteSpace a ++ stripWhiteSpace b := by
  unfold stripWhiteSpace; rw [List.filter_append]

theorem strip_ws {w : Str} (hw : ∀ c ∈ w, isWhiteSpace c = true) : stripWhiteSpace w = [] := by
  unfold stripWhiteSpace
  rw [List.filter_eq_nil_iff]
  intro c hc
  simp [hw c hc]

theorem strip_ws_cons {c : Char} (hc : isWhiteSpace c = true) (s : Str) :
    stripWhiteSpace (c :: s) = stripWhiteSpace s := by
  unfold stripWhiteSpace
  simp [List.filter_cons, hc]

theorem strip_trim (s : Str) : stripWhiteSpace (trim s) = stripWhiteSpace s := by
  obtain ⟨w1, w2, h1, h2, hs⟩ := trim_decomp s
  conv_rhs => rw [hs]
  rw [strip_append, strip_append, strip_ws h1, strip_ws h2]
  simp

theorem strip_sp (x : Str) : stripWhiteSpace (sp x) = stripWhiteSpace x := by
  unfold sp; split
  · rename_i h; rw [h]
  · exact strip_ws_cons ws_space x

theorem strip_outToks : ∀ s : Str,
    stripWhiteSpace (outToks (execAll s).1 (execAll s).2) = stripWhiteSpace s := by
  apply execAll_induction
  · intro s he
    rw [execAll_none he]
    simp only [outToks]
    rw [strip_sp, strip_trim]
  · intro s b t r he ih
    rw [execAll_some he]
    obtain ⟨hs, _, _⟩ := execTag_some he
    simp only [outToks]
    conv_rhs => rw [hs]
    rw [strip_append, strip_sp, strip_trim, strip_ws_cons ws_space, strip_append, ih,
      strip_append, strip_append]

theorem strip_processLine_content (line : Str) (L : Int) (st : List StackItem) :
    stripWhiteSpace (processLineWithAlignment line L st).content = stripWhiteSpace line := by
  rw [processLine_content, ← strip_outToks line]
  rcases outToks_head (execAll line).1 (execAll line).2 with h | ⟨y, h⟩
  · rw [h]; rfl
  · rw [h, List.tail_cons, strip_ws_cons ws_space]

theorem strip_joinLines : ∀ ls : List Str,
    stripWhiteSpace (joinLines ls) = (ls.map stripWhiteSpace).flatten := by
  intro ls
  induction ls with
  | nil => rfl
  | cons l ls ih =>
    cases ls with
    | nil => simp [joinLines]
    | cons l2 ls =>
      show stripWhiteSpace (l ++ '\n' :: joinLines (l2 :: ls)) = _
      rw [strip_append, strip_ws_cons (by decide), ih]
      simp

theorem strip_splitLines : ∀ s : Str,
    ((splitLines s).map stripWhiteSpace).flatten = stripWhiteSpace s := by
  intro s
  induction s with
  | nil => rfl
  | cons c cs ih =>
    by_cases hc : c = '\n'
    · subst hc
      simp only [splitLines, if_true, List.map_cons, List.flatten_cons]
      rw [ih, strip_ws_cons (by decide)]
      rfl
    · rw [splitLines_cons_of_ne cs hc]
      cases h : splitLines cs with
      | nil => exact absurd h (splitLines_ne_nil cs)
      | cons l ls =>
        rw [h] at ih
        simp only [List.head!_cons, List.tail_cons, List.map_cons, List.flatten_cons] at ih ⊢
        have e : stripWhiteSpace (c :: l) = stripWhiteSpace [c] ++ stripWhiteSpace l :=
          strip_append [c] l
        have e2 : stripWhiteSpace (c :: cs) = stripWhiteSpace [c] ++ stripWhiteSpace cs :=
          strip_append [c] cs
        rw [e, e2, ← ih, List.append_assoc]

theorem strip_replaceCR (s : Str) : stripWhiteSpace (replaceCR s) = stripWhiteSpace s := by
  unfold replaceCR
  induction s with
  | nil => rfl
  | cons c cs ih =>
    simp only [List.map_cons]
    by_cases hc : c = '\r'
    · subst hc
      rw [if_pos rfl, strip_ws_cons (by decide), strip_ws_cons (by decide), ih]
    · rw [if_neg hc]
      have e1 := strip_append [c] (List.map (fun c => if c = '\r' then '\n' else c) cs)
      have e2 := strip_append [c] cs
      simp only [List.singleton_append] at e1 e2
      rw [e1, e2, ih]

theorem strip_replaceCRLF : ∀ s : Str, stripWhiteSpace (replaceCRLF s) = stripWhiteSpace s := by
  intro s
  induction s using replaceCRLF.induct with
  | case1 => rfl
  | case2 c => rfl
  | case3 c d cs h ih =>
    rw [replaceCRLF]
    simp only [h, and_self, if_true]
    rw [strip_ws_cons (by decide), strip_ws_cons (by decide), strip_ws_cons (by decide), ih]
  | case4 c d cs h ih =>
    rw [replaceCRLF]
    simp only [h, if_false]
    have e1 := strip_append [c] (replaceCRLF (d :: cs))
    have e2 := strip_append [c] (d :: cs)
    simp only [List.singleton_append] at e1 e2
    rw [e1, e2, ih]

theorem strip_formatLines {u : Str} (hu : ∀ c ∈ u, isWhiteSpace c = true) :
    ∀ (lines : List Str) (L : Int) (st : List StackItem),
      ((formatLines u lines L st).map stripWhiteSpace).flatten =
        (lines.map stripWhiteSpace).flatten := by
  intro lines
  induction lines with
  | nil => intro L st; rfl
  | cons line lines ih =>
    intro L st
    rw [formatLines]
    simp only [List.map_cons, List.flatten_cons]
    split
    · rename_i hb
      rw [ih, ← strip_trim line, hb]
      rfl
    · split
      · simp only [List.map_cons, List.flatten_cons]
        rw [ih, strip_append, strip_ws (fun c hc => hu c (mem_indentOf hc)),
          strip_processLine_content, strip_trim]
        rfl
      · rename_i hb hc
        exfalso
        exact hc (processLine_content_ne_nil (by rw [trim_trim]; exact hb) L st)

theorem lineSteps_cons_blank {line : Str} (h : trim line = []) (lines : List Str) (L : Int)
    (st : List StackItem) : lineSteps (line :: lines) L st = lineSteps lines L st := by
  rw [lineSteps]; simp [h]

theorem lineSteps_cons {line : Str} (h : trim line ≠ []) (lines : List Str) (L : Int)
    (st : List StackItem) :
    lineSteps (line :: lines) L st =
      LineStep.mk (trim line) L st
        (tagStates (alignLevel ((execAll (trim line)).1.map (fun m => analyzeTag m.2)) L st)
          (PassState.mk [] st
            (alignLevel ((execAll (trim line)).1.map (fun m => analyzeTag m.2)) L st))
          (execAll (trim line)).1)
        (processLineWithAlignment (trim line) L st) ::
      lineSteps lines (processLineWithAlignment (trim line) L st).newIndentLevel
        (processLineWithAlignment (trim line) L st).tagStack := by
  have hne : (processLineWithAlignment (trim line) L st).content ≠ [] :=
    processLine_content_ne_nil (by rw [trim_trim]; exact h) L st
  rw [lineSteps]; simp [h, hne]

theorem finalState_cons_blank {line : Str} (h : trim line = []) (lines : List Str) (L : Int)
    (st : List StackItem) : finalState (line :: lines) L st = finalState lines L st := by
  rw [finalState]; simp [h]

theorem finalState_cons {line : Str} (h : trim line ≠ []) (lines : List Str) (L : Int)
    (st : List StackItem) :
    finalState (line :: lines) L st =
      finalState lines (processLineWithAlignment (trim line) L st).newIndentLevel
        (processLineWithAlignment (trim line) L st).tagStack := by
  have hne : (processLineWithAlignment (trim line) L st).content ≠ [] :=
    processLine_content_ne_nil (by rw [trim_trim]; exact h) L st
  rw [finalState]; simp [h, hne]

/-- The emitted lines are the levels and contents that the iterations return. -/
theorem layoutLines_eq_lineSteps : ∀ (lines : List Str) (L : Int) (st : List StackItem),
    layoutLines lines L st =
      (lineSteps lines L st).map (fun s => (s.result.indentLevel, s.result.content)) := by
  intro lines
  induction lines with
  | nil => intro L st; rfl
  | cons line lines ih =>
    intro L st
    by_cases h : trim line = []
    · rw [lineSteps_cons_blank h, ← ih, layoutLines]; simp [h]
    · have hne : (processLineWithAlignment (trim line) L st).content ≠ [] :=
        processLine_content_ne_nil (by rw [trim_trim]; exact h) L st
      rw [lineSteps_cons h, List.map_cons, ← ih, layoutLines]; simp [h, hne]

theorem processTags_mem_tagStates (lvl : Int) : ∀ (ms : List (Str × Str)) (p : PassState),
    processTags lvl p ms ∈ tagStates lvl p ms := by
  intro ms
  induction ms with
  | nil => intro p; simp [processTags, tagStates]
  | cons m ms ih =>
    intro p
    obtain ⟨b, t⟩ := m
    simp only [processTags, tagStates]
    exact List.mem_cons_of_mem _ (ih _)

theorem processLine_indentLevel (line : Str) (L : Int) (st : List StackItem) :
    (processLineWithAlignment line L st).indentLevel =
      alignLevel ((execAll line).1.map (fun m => analyzeTag m.2)) L st := rfl

theorem processLine_newIndentLevel (line : Str) (L : Int) (st : List StackItem) :
    (processLineWithAlignment line L st).newIndentLevel =
      (processTags (alignLevel ((execAll line).1.map (fun m => analyzeTag m.2)) L st)
        (PassState.mk [] st (alignLevel ((execAll line).1.map (fun m => analyzeTag m.2)) L st))
        (execAll line).1).indentLevel := rfl

theorem processLine_tagStack (line : Str) (L : Int) (st : List StackItem) :
    (processLineWithAlignment line L st).tagStack =
      (processTags (alignLevel ((execAll line).1.map (fun m => analyzeTag m.2)) L st)
        (PassState.mk [] st (alignLevel ((execAll line).1.map (fun m => analyzeTag m.2)) L st))
        (execAll line).1).tagStack := rfl

theorem eraseFirst_sublist {α : Type} (p : α → Bool) : ∀ l : List α,
    (eraseFirst p l).Sublist l := by
  intro l
  induction l with
  | nil => exact List.Sublist.refl _
  | cons a l ih =>
    simp only [eraseFirst]
    split
    · exact List.sublist_cons_self a l
    · exact List.Sublist.cons₂ a ih

theorem removeFrom_sublist (tagStack : List StackItem) (name : Str) :
    (removeFromTagStack tagStack name).Sublist tagStack := by
  unfold removeFromTagStack
  have h := (eraseFirst_sublist (fun e : StackItem => e.tagName == name) tagStack.reverse).reverse
  rwa [List.reverse_reverse] at h

/-- The three effects of one iteration of the second loop on the stack and the level. -/
theorem processTag_effect (lvl : Int) (p : PassState) (b t : Str) :
    ((processTag lvl p b t).tagStack = p.tagStack ∧
      (processTag lvl p b t).indentLevel = p.indentLevel) ∨
    ((processTag lvl p b t).tagStack = removeFromTagStack p.tagStack (analyzeTag t).tagName ∧
      (((processTag lvl p b t).tagStack = [] ∧ (processTag lvl p b t).indentLevel = 0) ∨
        ∃ top, (processTag lvl p b t).tagStack.getLast? = some top ∧
          (processTag lvl p b t).indentLevel = top.indentLevel + 1)) ∨
    ((processTag lvl p b t).tagStack =
        p.tagStack ++ [StackItem.mk (analyzeTag t) lvl] ∧
      (processTag lvl p b t).indentLevel = lvl + 1) := by
  unfold processTag
  simp only
  split
  · split
    · right; left
      refine ⟨rfl, ?_⟩
      simp only
      cases h : (removeFromTagStack p.tagStack (analyzeTag t).tagName).getLast? with
      | none => left; exact ⟨List.getLast?_eq_none_iff.1 h, rfl⟩
      | some top => right; exact ⟨top, rfl, rfl⟩
    · left; exact ⟨rfl, rfl⟩
  · split
    · split
      · right; right; exact ⟨rfl, rfl⟩
      · left; exact ⟨rfl, rfl⟩
    · left; exact ⟨rfl, rfl⟩

/-- The level of a line is the running level or the level of a stack entry. -/
theorem alignLevel_cases (temp : List TagInfo) (L : Int) (st : List StackItem) :
    alignLevel temp L st = L ∨ ∃ e ∈ st, alignLevel temp L st = e.indentLevel := by
  unfold alignLevel
  split
  · split
    · split
      · split
        · rename_i e he
          right
          obtain ⟨pre, post, hs, _, _⟩ := (findMatching_eq_some_iff _ _ _).1 he
          exact ⟨e, by rw [hs]; simp, rfl⟩
        · left; rfl
      · left; rfl
    · left; rfl
  · left; rfl

theorem processTag_nonneg {lvl : Int} (hl : 0 ≤ lvl) {p : PassState} (b t : Str)
    (hp : 0 ≤ p.indentLevel ∧ ∀ e ∈ p.tagStack, 0 ≤ e.indentLevel) :
    0 ≤ (processTag lvl p b t).indentLevel ∧
      ∀ e ∈ (processTag lvl p b t).tagStack, 0 ≤ e.indentLevel := by
  rcases processTag_effect lvl p b t with ⟨h1, h2⟩ | ⟨h1, h2⟩ | ⟨h1, h2⟩
  · rw [h1, h2]; exact hp
  · have hs : ∀ e ∈ (processTag lvl p b t).tagStack, 0 ≤ e.indentLevel := by
      intro e he
      rw [h1] at he
      exact hp.2 e ((removeFrom_sublist _ _).subset he)
    refine ⟨?_, hs⟩
    rcases h2 with ⟨_, h0⟩ | ⟨top, ht, h0⟩
    · rw [h0]
    · rw [h0]
      have := hs top (List.mem_of_getLast?_eq_some ht)
      omega
  · rw [h1, h2]
    refine ⟨by omega, ?_⟩
    intro e he
    rcases List.mem_append.1 he with he | he
    · exact hp.2 e he
    · rw [List.mem_singleton.1 he]; exact hl

theorem tagStates_nonneg {lvl : Int} (hl : 0 ≤ lvl) : ∀ (ms : List (Str × Str))
    (p : PassState), (0 ≤ p.indentLevel ∧ ∀ e ∈ p.tagStack, 0 ≤ e.indentLevel) →
    ∀ q ∈ tagStates lvl p ms, 0 ≤ q.indentLevel ∧ ∀ e ∈ q.tagStack, 0 ≤ e.indentLevel := by
  intro ms
  induction ms with
  | nil =>
    intro p hp q hq
    rw [tagStates, List.mem_singleton] at hq
    rw [hq]; exact hp
  | cons m ms ih =>
    intro p hp q hq
    obtain ⟨b, t⟩ := m
    rw [tagStates] at hq
    rcases List.mem_cons.1 hq with rfl | hq
    · exact hp
    · exact ih _ (processTag_nonneg hl b t hp) q hq

theorem tagStates_nonneg_mk {lvl : Int} (hl : 0 ≤ lvl) (ms : List (Str × Str)) (c : Str)
    (st : List StackItem) (l : Int) (h1 : 0 ≤ l) (h2 : ∀ e ∈ st, 0 ≤ e.indentLevel) :
    ∀ q ∈ tagStates lvl (PassState.mk c st l) ms,
      0 ≤ q.indentLevel ∧ ∀ e ∈ q.tagStack, 0 ≤ e.indentLevel :=
  tagStates_nonneg hl ms (PassState.mk c st l) ⟨h1, h2⟩

theorem alignLevel_nonneg {temp : List TagInfo} {L : Int} {st : List StackItem}
    (hL : 0 ≤ L) (hst : ∀ e ∈ st, 0 ≤ e.indentLevel) : 0 ≤ alignLevel temp L st := by
  rcases alignLevel_cases temp L st with h | ⟨e, he, h⟩
  · rw [h]; exact hL
  · rw [h]; exact hst e he

theorem lineSteps_nonneg : ∀ (lines : List Str) (L : Int) (st : List StackItem),
    0 ≤ L → (∀ e ∈ st, 0 ≤ e.indentLevel) →
    ∀ s ∈ lineSteps lines L st,
      0 ≤ s.indentLevel ∧ (∀ e ∈ s.tagStack, 0 ≤ e.indentLevel) ∧
      (∀ p ∈ s.states, 0 ≤ p.indentLevel ∧ ∀ e ∈ p.tagStack, 0 ≤ e.indentLevel) ∧
      0 ≤ s.result.indentLevel ∧ 0 ≤ s.result.newIndentLevel ∧
      (∀ e ∈ s.result.tagStack, 0 ≤ e.indentLevel) := by
  intro lines
  induction lines with
  | nil => intro L st _ _ s hs; simp [lineSteps] at hs
  | cons line lines ih =>
    intro L st hL hst s hs
    by_cases h : trim line = []
    · rw [lineSteps_cons_blank h] at hs
      exact ih L st hL hst s hs
    · rw [lineSteps_cons h] at hs
      have hal : 0 ≤ alignLevel ((execAll (trim line)).1.map (fun m => analyzeTag m.2)) L st :=
        alignLevel_nonneg hL hst
      have hall := tagStates_nonneg_mk hal (execAll (trim line)).1 [] st _ hal hst
      have hlast := hall _ (processTags_mem_tagStates _ _ _)
      have r1 : 0 ≤ (processLineWithAlignment (trim line) L st).indentLevel := by
        rw [processLine_indentLevel]; exact hal
      have r2 : 0 ≤ (processLineWithAlignment (trim line) L st).newIndentLevel := by
        rw [processLine_newIndentLevel]; exact hlast.1
      have r3 : ∀ e ∈ (processLineWithAlignment (trim line) L st).tagStack,
          0 ≤ e.indentLevel := by
        rw [processLine_tagStack]; exact hlast.2
      rcases List.mem_cons.1 hs with hs | hs
      · rw [hs]
        exact ⟨hL, hst, hall, r1, r2, r3⟩
      · exact ih _ _ r2 r3 s hs

theorem finalState_nonneg : ∀ (lines : List Str) (L : Int) (st : List StackItem),
    0 ≤ L → (∀ e ∈ st, 0 ≤ e.indentLevel) →
    0 ≤ (finalState lines L st).1 ∧ ∀ e ∈ (finalState lines L st).2, 0 ≤ e.indentLevel := by
  intro lines
  induction lines with
  | nil => intro L st hL hst; exact ⟨hL, hst⟩
  | cons line lines ih =>
    intro L st hL hst
    by_cases h : trim line = []
    · rw [finalState_cons_blank h]
      exact ih L st hL hst
    · rw [finalState_cons h]
      have hal : 0 ≤ alignLevel ((execAll (trim line)).1.map (fun m => analyzeTag m.2)) L st :=
        alignLevel_nonneg hL hst
      have hlast := tagStates_nonneg_mk hal (execAll (trim line)).1 [] st _ hal hst _
        (processTags_mem_tagStates _ _ _)
      have r2 : 0 ≤ (processLineWithAlignment (trim line) L st).newIndentLevel := by
        rw [processLine_newIndentLevel]; exact hlast.1
      have r3 : ∀ e ∈ (processLineWithAlignment (trim line) L st).tagStack,
          0 ≤ e.indentLevel := by
        rw [processLine_tagStack]; exact hlast.2
      exact ih _ _ r2 r3

theorem nonDecreasing_push {st : List StackItem} {lvl : Int} (info : TagInfo)
    (h : NonDecreasing st) (hle : ∀ e ∈ st, e.indentLevel ≤ lvl) :
    NonDecreasing (st ++ [StackItem.mk info lvl]) := by
  unfold NonDecreasing at *
  rw [List.pairwise_append]
  refine ⟨h, List.pairwise_singleton _ _, ?_⟩
  intro a ha b hb
  rw [List.mem_singleton.1 hb]
  exact hle a ha

theorem processTag_ordered {lvl : Int} {p : PassState} (b t : Str)
    (hp : NonDecreasing p.tagStack ∧ ∀ e ∈ p.tagStack, e.indentLevel ≤ lvl) :
    NonDecreasing (processTag lvl p b t).tagStack ∧
      ∀ e ∈ (processTag lvl p b t).tagStack, e.indentLevel ≤ lvl := by
  rcases processTag_effect lvl p b t with ⟨h1, _⟩ | ⟨h1, _⟩ | ⟨h1, _⟩
  · rw [h1]; exact hp
  · rw [h1]
    exact ⟨List.Pairwise.sublist (removeFrom_sublist _ _) hp.1,
      fun e he => hp.2 e ((removeFrom_sublist _ _).subset he)⟩
  · rw [h1]
    refine ⟨nonDecreasing_push _ hp.1 hp.2, ?_⟩
    intro e he
    rcases List.mem_append.1 he with he | he
    · exact hp.2 e he
    · rw [List.mem_singleton.1 he]

theorem tagStates_ordered {lvl : Int} : ∀ (ms : List (Str × Str)) (p : PassState),
    (NonDecreasing p.tagStack ∧ ∀ e ∈ p.tagStack, e.indentLevel ≤ lvl) →
    ∀ q ∈ tagStates lvl p ms,
      NonDecreasing q.tagStack ∧ ∀ e ∈ q.tagStack, e.indentLevel ≤ lvl := by
  intro ms
  induction ms with
  | nil =>
    intro p hp q hq
    rw [tagStates, List.mem_singleton] at hq
    rw [hq]; exact hp
  | cons m ms ih =>
    intro p hp q hq
    obtain ⟨b, t⟩ := m
    rw [tagStates] at hq
    rcases List.mem_cons.1 hq with rfl | hq
    · exact hp
    · exact ih _ (processTag_ordered b t hp) q hq

theorem tagStates_ordered_mk {lvl : Int} (ms : List (Str × Str)) (c : Str)
    (st : List StackItem) (l : Int) (h1 : NonDecreasing st)
    (h2 : ∀ e ∈ st, e.indentLevel ≤ lvl) :
    ∀ q ∈ tagStates lvl (PassState.mk c st l) ms,
      NonDecreasing q.tagStack ∧ ∀ e ∈ q.tagStack, e.indentLevel ≤ lvl :=
  tagStates_ordered ms (PassState.mk c st l) ⟨h1, h2⟩

theorem lineSteps_ordered : ∀ (lines : List Str) (L : Int) (st : List StackItem),
    NonDecreasing st →
    (∀ s ∈ lineSteps lines L st, ∀ e ∈ s.tagStack, e.indentLevel ≤ s.result.indentLevel) →
    ∀ s ∈ lineSteps lines L st, ∀ p ∈ s.states, NonDecreasing p.tagStack := by
  intro lines
  induction lines with
  | nil => intro L st _ _ s hs; simp [lineSteps] at hs
  | cons line lines ih =>
    intro L st hst H s hs
    by_cases h : trim line = []
    · rw [lineSteps_cons_blank h] at hs H
      exact ih L st hst H s hs
    · rw [lineSteps_cons h] at hs H
      have hle : ∀ e ∈ st, e.indentLevel ≤
          alignLevel ((execAll (trim line)).1.map (fun m => analyzeTag m.2)) L st := by
        have := H _ (List.mem_cons_self _ _)
        rw [processLine_indentLevel] at this
        exact this
      have hall := tagStates_ordered_mk (execAll (trim line)).1 [] st
        (alignLevel ((execAll (trim line)).1.map (fun m => analyzeTag m.2)) L st) hst hle
      have r3 : NonDecreasing (processLineWithAlignment (trim line) L st).tagStack := by
        rw [processLine_tagStack]
        exact (hall _ (processTags_mem_tagStates _ _ _)).1
      rcases List.mem_cons.1 hs with hs | hs
      · rw [hs]
        intro p hp; exact (hall p hp).1
      · exact ih _ _ r3 (fun s' hs' => H s' (List.mem_cons_of_mem _ hs')) s hs

theorem singleTag_eq_some {line : Str} {info : TagInfo} (h : singleTag line = some info) :
    ∃ b t, (execAll line).1 = [(b, t)] ∧ info = analyzeTag t := by
  unfold singleTag at h
  split at h
  · rename_i m hm
    exact ⟨m.1, m.2, hm, (Option.some.inj h).symm⟩
  · cases h

theorem openAfter_eq_some {k : Nat} {opened o2 : List (Nat × Str)} {line : Str}
    (h : openAfter k opened line = some o2) :
    ∃ info, singleTag line = some info ∧
      ((isOpener info = true ∧ o2 = opened ++ [(k, info.tagName)]) ∨
       (isOpener info = false ∧ info.isClosing = true ∧
         ∃ j, opened.getLast? = some (j, info.tagName) ∧ o2 = opened.dropLast)) := by
  unfold openAfter at h
  split at h
  · rename_i info hinfo
    refine ⟨info, hinfo, ?_⟩
    split at h
    · rename_i ho
      left; exact ⟨ho, (Option.some.inj h).symm⟩
    · rename_i ho
      split at h
      · rename_i hc
        right
        simp only [Bool.and_eq_true, beq_iff_eq] at hc
        refine ⟨by simpa using ho, hc.1, ?_⟩
        cases hl : opened.getLast? with
        | none => rw [hl] at hc; simp at hc
        | some o =>
          rw [hl] at hc
          simp only [Option.map_some', Option.some.injEq] at hc
          refine ⟨o.1, ?_, (Option.some.inj h).symm⟩
          rw [← hc.2]
      · cases h
  · cases h

theorem determineProperties_isBlock_eq (info : TagInfo) (h : info.isBlock = false) :
    (determineProperties info).isBlock = blockName info.tagName := by
  unfold determineProperties blockName
  by_cases hn : info.tagName = []
  · simp [hn, h]
  · simp [hn]

theorem analyzeTag_isBlock_eq {tag : Str}
    (h : (analyzeTag tag).isClosing = true ∨ (analyzeTag tag).isOpening = true) :
    (analyzeTag tag).isBlock = blockName (analyzeTag tag).tagName := by
  rcases analyzeTag_cases tag with ⟨_, e⟩ | ⟨_, _, e⟩ | ⟨_, _, _, e⟩ | ⟨_, _, _, e⟩
  · rw [e] at h; simp [initialInfo] at h
  · rw [e] at h; simp [initialInfo] at h
  · rw [e, determineProperties_tagName]
    exact determineProperties_isBlock_eq _ rfl
  · rw [e, determineProperties_tagName]
    exact determineProperties_isBlock_eq _ rfl

theorem analyzeTag_opening_not_closing {tag : Str} (h : (analyzeTag tag).isOpening = true) :
    (analyzeTag tag).isClosing = false := by
  rcases analyzeTag_cases tag with ⟨_, e⟩ | ⟨_, _, e⟩ | ⟨_, _, _, e⟩ | ⟨_, _, _, e⟩
  · rw [e]; rfl
  · rw [e]; rfl
  · rw [e, determineProperties_isOpening] at h; simp [closingInfo, initialInfo] at h
  · rw [e, determineProperties_isClosing]; rfl

theorem isOpener_iff (info : TagInfo) :
    isOpener info = true ↔
      info.isOpening = true ∧ info.isSelfClosing = false ∧ info.isBlock = true := by
  unfold isOpener
  simp [and_assoc]

/-- A line whose one tag is an opening non-self-closing block tag is emitted at the
running level and pushes one entry with that level. -/
theorem processLine_opener {line b t : Str} (L : Int) (st : List StackItem)
    (hm : (execAll line).1 = [(b, t)]) (ho : isOpener (analyzeTag t) = true) :
    (processLineWithAlignment line L st).indentLevel = L ∧
    (processLineWithAlignment line L st).newIndentLevel = L + 1 ∧
    (processLineWithAlignment line L st).tagStack = st ++ [StackItem.mk (analyzeTag t) L] := by
  obtain ⟨h1, h2, h3⟩ := (isOpener_iff _).1 ho
  have h0 := analyzeTag_opening_not_closing h1
  have hal : alignLevel ((execAll line).1.map (fun m => analyzeTag m.2)) L st = L := by
    apply alignLevel_of_no_closing
    apply hasClosingTag_eq_false
    intro i hi
    rw [hm] at hi
    simp only [List.map_cons, List.map_nil, List.mem_singleton] at hi
    rw [hi, h0]; rfl
  rw [processLine_indentLevel, processLine_newIndentLevel, processLine_tagStack, hal, hm]
  simp only [processTags, processTag, h0, h1, h2, h3]
  simp

/-- A line whose one tag is a closing block tag with the name of the top entry is emitted
at the level of that entry and pops it. -/
theorem processLine_closer {line b t : Str} (L : Int) (ps : List StackItem) (top : StackItem)
    (hm : (execAll line).1 = [(b, t)]) (hc : (analyzeTag t).isClosing = true)
    (hb : (analyzeTag t).isBlock = true) (hn : top.tagName = (analyzeTag t).tagName) :
    (processLineWithAlignment line L (ps ++ [top])).indentLevel = top.indentLevel ∧
    (processLineWithAlignment line L (ps ++ [top])).tagStack = ps ∧
    ((ps = [] ∧ (processLineWithAlignment line L (ps ++ [top])).newIndentLevel = 0) ∨
      ∃ top2, ps.getLast? = some top2 ∧
        (processLineWithAlignment line L (ps ++ [top])).newIndentLevel =
          top2.indentLevel + 1) := by
  have hf : findMatchingTagInStack (ps ++ [top]) (analyzeTag t).tagName = some top :=
    (findMatching_eq_some_iff _ _ _).2 ⟨ps, [], rfl, hn, fun x hx => by cases hx⟩
  have hr : removeFromTagStack (ps ++ [top]) (analyzeTag t).tagName = ps := by
    have := @removeFrom_of_split ps [] top (analyzeTag t).tagName hn (fun x hx => by cases hx)
    simpa using this
  have hal : alignLevel ((execAll line).1.map (fun m => analyzeTag m.2)) L (ps ++ [top]) =
      top.indentLevel := by
    rw [hm]
    simp [alignLevel, hasClosingTag, hc, hb, hf]
  rw [processLine_indentLevel, processLine_newIndentLevel, processLine_tagStack, hal, hm]
  simp only [processTags, processTag, hc, hb, hf, hr]
  refine ⟨trivial, by simp, ?_⟩
  cases hl : ps.getLast? with
  | none => left; exact ⟨List.getLast?_eq_none_iff.1 hl, by simp [hl]⟩
  | some top2 => right; exact ⟨top2, rfl, by simp [hl]⟩

theorem getElem?_snoc_cases {α : Type} {l : List α} {x e : α} {i : Nat}
    (h : (l ++ [x])[i]? = some e) :
    (i < l.length ∧ l[i]? = some e) ∨ (i = l.length ∧ e = x) := by
  by_cases hi : i < l.length
  · left
    rw [List.getElem?_append_left hi] at h
    exact ⟨hi, h⟩
  · right
    obtain ⟨hlt, _⟩ := List.getElem?_eq_some.1 h
    have hlt2 : i < l.length + 1 := by simpa using hlt
    have hi2 : i = l.length := by omega
    subst hi2
    rw [List.getElem?_append_right (le_refl _)] at h
    simp at h
    exact ⟨rfl, h.symm⟩

theorem getElem?_append_of_some {α : Type} {l : List α} {e : α} {i : Nat} (m : List α)
    (h : l[i]? = some e) : (l ++ m)[i]? = some e := by
  obtain ⟨hlt, _⟩ := List.getElem?_eq_some.1 h
  rw [List.getElem?_append_left hlt]
  exact h

theorem nestInv_push {pre : List LineStep} {opened : List (Nat × Str)} {L : Int}
    {st : List StackItem} (h : NestInv pre opened L st) (s : LineStep) (info : TagInfo)
    (hs : s.result.indentLevel = L) (hi : singleTag s.line = some info)
    (ho : isOpener info = true) :
    NestInv (pre ++ [s]) (opened ++ [(pre.length, info.tagName)]) (L + 1)
      (st ++ [StackItem.mk info L]) := by
  obtain ⟨hL, hlen, hall⟩ := h
  refine ⟨by rw [hL]; simp, by simp [hlen], ?_⟩
  intro i e o he hoi
  rcases getElem?_snoc_cases he with ⟨hlt, he⟩ | ⟨hi0, he⟩
  · rw [List.getElem?_append_left (by rw [← hlen]; exact hlt)] at hoi
    obtain ⟨h1, h2, h3, s0, info0, h4, h5⟩ := hall i e o he hoi
    exact ⟨h1, h2, h3, s0, info0, getElem?_append_of_some _ h4, h5⟩
  · rename_i he0
    clear he0
    subst hi0
    rw [hlen, List.getElem?_append_right (le_refl _)] at hoi
    simp only [Nat.sub_self, List.getElem?_cons_zero, Option.some.injEq] at hoi
    subst hoi he
    refine ⟨rfl, ?_, ?_, s, info, ?_, ?_, hi, ho, rfl⟩
    · show L = _
      rw [hL, hlen]
    · obtain ⟨h1, _, h3⟩ := (isOpener_iff _).1 ho
      obtain ⟨b, t, _, rfl⟩ := singleTag_eq_some hi
      rw [← analyzeTag_isBlock_eq (Or.inr h1)]
      exact h3
    · rw [List.getElem?_append_right (le_refl _)]; simp
    · rw [hs, hL, hlen]

theorem nestInv_top {pre : List LineStep} {po : List (Nat × Str)} {o : Nat × Str} {L : Int}
    {ps : List StackItem} {top : StackItem} (h : NestInv pre (po ++ [o]) L (ps ++ [top])) :
    L = po.length + 1 ∧ ps.length = po.length ∧
    top.tagName = o.2 ∧ top.indentLevel = po.length ∧ blockName o.2 = true ∧
    ∃ s0 info0, pre[o.1]? = some s0 ∧ s0.result.indentLevel = po.length ∧
      singleTag s0.line = some info0 ∧ isOpener info0 = true ∧ info0.tagName = o.2 := by
  obtain ⟨hL, hlen, hall⟩ := h
  have hlen2 : ps.length = po.length := by simpa using hlen
  have h1 : (ps ++ [top])[po.length]? = some top := by
    rw [← hlen2, List.getElem?_append_right (le_refl _)]; simp
  have h2 : (po ++ [o])[po.length]? = some o := by
    rw [List.getElem?_append_right (le_refl _)]; simp
  obtain ⟨a1, a2, a3, a4⟩ := hall _ _ _ h1 h2
  exact ⟨by rw [hL]; simp, hlen2, a1, a2, a3, a4⟩

theorem nestInv_pop {pre : List LineStep} {po : List (Nat × Str)} {o : Nat × Str} {L : Int}
    {ps : List StackItem} {top : StackItem} (h : NestInv pre (po ++ [o]) L (ps ++ [top]))
    (s : LineStep) : NestInv (pre ++ [s]) po (L - 1) ps := by
  obtain ⟨hL1, hlen2, _⟩ := nestInv_top h
  obtain ⟨hL, hlen, hall⟩ := h
  refine ⟨by rw [hL1]; simp, hlen2, ?_⟩
  intro i e o1 he hoi
  obtain ⟨h1, h2, h3, s0, info0, h4, h5⟩ := hall i e o1 (getElem?_append_of_some _ he)
    (getElem?_append_of_some _ hoi)
  exact ⟨h1, h2, h3, s0, info0, getElem?_append_of_some _ h4, h5⟩

theorem nesting_ne_nil : ∀ (lines : List Str) (k : Nat) (opened : List (Nat × Str))
    (opens : List (List (Nat × Str))), nesting k opened lines = some opens → opens ≠ [] := by
  intro lines
  induction lines with
  | nil =>
    intro k opened opens h
    rw [nesting] at h
    rw [← Option.some.inj h]; simp
  | cons line lines ih =>
    intro k opened opens h
    rw [nesting] at h
    split at h
    · exact ih _ _ _ h
    · split at h
      · obtain ⟨r, _, hr⟩ := Option.map_eq_some'.1 h
        rw [← hr]; simp
      · cases h

theorem nesting_cons {line : Str} (hb : trim line ≠ []) {lines : List Str} {k : Nat}
    {opened : List (Nat × Str)} {opens : List (List (Nat × Str))}
    (h : nesting k opened (line :: lines) = some opens) :
    ∃ o2 r, openAfter k opened (trim line) = some o2 ∧ nesting (k + 1) o2 lines = some r ∧
      opens = opened :: r := by
  rw [nesting] at h
  rw [if_neg hb] at h
  split at h
  · rename_i o2 ho2
    obtain ⟨r, h1, hr⟩ := Option.map_eq_some'.1 h
    exact ⟨o2, r, ho2, h1, hr.symm⟩
  · cases h

theorem lineSteps_cons_step {line : Str} (h : trim line ≠ []) (lines : List Str) (L : Int)
    (st : List StackItem) :
    ∃ s, lineSteps (line :: lines) L st =
        s :: lineSteps lines (processLineWithAlignment (trim line) L st).newIndentLevel
          (processLineWithAlignment (trim line) L st).tagStack ∧
      s.line = trim line ∧ s.indentLevel = L ∧ s.tagStack = st ∧
      s.result = processLineWithAlignment (trim line) L st :=
  ⟨_, lineSteps_cons h lines L st, rfl, rfl, rfl, rfl⟩

theorem eq_nil_or_snoc {α : Type} (l : List α) : l = [] ∨ ∃ m b, l = m ++ [b] := by
  rcases List.eq_nil_or_concat l with h | ⟨m, b, h⟩
  · exact Or.inl h
  · exact Or.inr ⟨m, b, by rw [h, List.concat_eq_append]⟩

theorem nestInv_below {pre : List LineStep} {po : List (Nat × Str)} {L : Int}
    {ps : List StackItem} (h : NestInv pre po L ps) :
    (ps = [] ∧ po = []) ∨ ∃ top2, ps.getLast? = some top2 ∧ top2.indentLevel + 1 = po.length := by
  obtain ⟨hL, hlen, hall⟩ := h
  rcases eq_nil_or_snoc ps with hp | ⟨ps2, top2, hp⟩
  · left
    refine ⟨hp, ?_⟩
    rw [hp] at hlen
    exact List.length_eq_zero.1 hlen.symm
  · right
    refine ⟨top2, by rw [hp]; simp, ?_⟩
    have hlen2 : ps2.length + 1 = po.length := by rw [← hlen, hp]; simp
    have h1 : ps[ps2.length]? = some top2 := by
      rw [hp, List.getElem?_append_right (le_refl _)]; simp
    have hlt : ps2.length < po.length := by omega
    have h2 : po[ps2.length]? = some (po.get ⟨ps2.length, hlt⟩) := by
      rw [List.getElem?_eq_getElem hlt]; rfl
    obtain ⟨_, a2, _⟩ := hall _ _ _ h1 h2
    rw [a2, ← hlen2]; simp

/-- The lines of a well-nested document, from a stack that holds the open block tags. -/
theorem nesting_steps : ∀ (lines : List Str) (pre : List LineStep)
    (opened : List (Nat × Str)) (L : Int) (st : List StackItem)
    (opens : List (List (Nat × Str))),
    NestInv pre opened L st → nesting pre.length opened lines = some opens →
    (∀ (k : Nat) (s : LineStep), (lineSteps lines L st)[k]? = some s →
      ∃ o info, opens[k]? = some o ∧ singleTag s.line = some info ∧
        (isOpener info = true →
          s.result.indentLevel = o.length ∧
          s.result.tagStack = s.tagStack ++ [StackItem.mk info o.length]) ∧
        (isOpener info = false →
          ∃ j s0 info0, o.getLast? = some (j, info.tagName) ∧
            (pre ++ lineSteps lines L st)[j]? = some s0 ∧
            singleTag s0.line = some info0 ∧ isOpener info0 = true ∧
            info0.tagName = info.tagName ∧
            s.result.indentLevel = s0.result.indentLevel ∧
            s.result.indentLevel + 1 = o.length ∧
            s.result.tagStack = s.tagStack.dropLast)) ∧
    (opens.getLast? = some [] → finalState lines L st = (0, [])) := by
  intro lines
  induction lines with
  | nil =>
    intro pre opened L st opens hinv hn
    refine ⟨fun k s hs => by simp [lineSteps] at hs, ?_⟩
    intro hlast
    rw [nesting] at hn
    rw [← Option.some.inj hn] at hlast
    simp only [List.getLast?_singleton, Option.some.injEq] at hlast
    obtain ⟨hL, hlen, _⟩ := hinv
    rw [hlast] at hL hlen
    rw [finalState, hL, List.length_eq_zero.1 hlen]
    rfl
  | cons line lines ih =>
    intro pre opened L st opens hinv hn
    by_cases hb : trim line = []
    · rw [lineSteps_cons_blank hb, finalState_cons_blank hb]
      rw [nesting, if_pos hb] at hn
      exact ih pre opened L st opens hinv hn
    · obtain ⟨o2, r, ho2, hr, hopens⟩ := nesting_cons hb hn
      obtain ⟨s, hsteps, hline, _, hstk, hres⟩ := lineSteps_cons_step hb lines L st
      obtain ⟨info, hinfo, hcase⟩ := openAfter_eq_some ho2
      obtain ⟨b, t, hm, hinfo2⟩ := singleTag_eq_some hinfo
      have hrne := nesting_ne_nil _ _ _ _ hr
      rw [hsteps, finalState_cons hb, hopens]
      have hassoc : ∀ rest : List LineStep, (pre ++ [s]) ++ rest = pre ++ s :: rest := by
        intro rest; simp
      have hlast : (opened :: r).getLast? = r.getLast? := by
        cases r with
        | nil => exact absurd rfl hrne
        | cons x xs => rfl
      rw [hlast]
      rcases hcase with ⟨hop, ho2e⟩ | ⟨hop, hc, j, hj, ho2e⟩
      · -- the line opens a block tag
        have hop2 : isOpener (analyzeTag t) = true := by rw [← hinfo2]; exact hop
        obtain ⟨e1, e2, e3⟩ := processLine_opener L st hm hop2
        have hinv2 : NestInv (pre ++ [s]) o2
            (processLineWithAlignment (trim line) L st).newIndentLevel
            (processLineWithAlignment (trim line) L st).tagStack := by
          rw [e2, e3, ho2e, ← hinfo2]
          exact nestInv_push hinv s info (by rw [hres, e1]) (by rw [hline]; exact hinfo) hop
        have hr2 : nesting (pre ++ [s]).length o2 lines = some r := by
          rw [List.length_append, List.length_singleton]; exact hr
        obtain ⟨ih1, ih2⟩ := ih (pre ++ [s]) o2 _ _ r hinv2 hr2
        rw [hassoc] at ih1
        refine ⟨?_, ih2⟩
        intro k s1 hs1
        cases k with
        | zero =>
          simp only [List.getElem?_cons_zero, Option.some.injEq] at hs1
          subst hs1
          refine ⟨opened, info, by simp, by rw [hline]; exact hinfo, ?_, ?_⟩
          · intro _
            rw [hres, e1, e3, hstk, hinv.1, ← hinfo2]
            exact ⟨rfl, rfl⟩
          · intro hno; rw [hop] at hno; cases hno
        | succ k =>
          simp only [List.getElem?_cons_succ] at hs1 ⊢
          exact ih1 k s1 hs1
      · -- the line closes the innermost open block tag
        obtain ⟨po, hpo⟩ := List.getLast?_eq_some_iff.1 hj
        have hst : ∃ ps top, st = ps ++ [top] := by
          rcases eq_nil_or_snoc st with h0 | h0
          · exfalso
            have := hinv.2.1
            rw [h0, hpo] at this
            simp at this
          · exact h0
        obtain ⟨ps, top, hps⟩ := hst
        rw [hpo, hps] at hinv
        obtain ⟨hL1, hlen1, a1, a2, a3, s0, info0, a4, a5, a6, a7, a8⟩ := nestInv_top hinv
        have hc2 : (analyzeTag t).isClosing = true := by rw [← hinfo2]; exact hc
        have hb2 : (analyzeTag t).isBlock = true := by
          rw [analyzeTag_isBlock_eq (Or.inl hc2), ← hinfo2]; exact a3
        have hn2 : top.tagName = (analyzeTag t).tagName := by rw [← hinfo2]; exact a1
        have hinv3 := nestInv_pop hinv s
        obtain ⟨e1, e3, e2⟩ := processLine_closer L ps top hm hc2 hb2 hn2
        rw [← hps] at e1 e2 e3
        have e2' : (processLineWithAlignment (trim line) L st).newIndentLevel = L - 1 := by
          rcases nestInv_below hinv3 with ⟨hp0, hpo0⟩ | ⟨top2, ht2, hlv⟩
          · rcases e2 with ⟨_, e2⟩ | ⟨top3, ht3, _⟩
            · rw [e2, hL1, hpo0]; rfl
            · rw [hp0] at ht3; cases ht3
          · rcases e2 with ⟨hp0, _⟩ | ⟨top3, ht3, e2⟩
            · rw [hp0] at ht2; cases ht2
            · rw [ht2] at ht3
              rw [e2, ← Option.some.inj ht3, hlv, hL1]; simp
        have ho2p : o2 = po := by rw [ho2e, hpo]; simp
        have hinv2 : NestInv (pre ++ [s]) o2
            (processLineWithAlignment (trim line) L st).newIndentLevel
            (processLineWithAlignment (trim line) L st).tagStack := by
          rw [e2', e3, ho2p]
          exact hinv3
        have hr2 : nesting (pre ++ [s]).length o2 lines = some r := by
          rw [List.length_append, List.length_singleton]; exact hr
        obtain ⟨ih1, ih2⟩ := ih (pre ++ [s]) o2 _ _ r hinv2 hr2
        rw [hassoc] at ih1
        refine ⟨?_, ih2⟩
        intro k s1 hs1
        cases k with
        | zero =>
          simp only [List.getElem?_cons_zero, Option.some.injEq] at hs1
          subst hs1
          refine ⟨opened, info, by simp, by rw [hline]; exact hinfo, ?_, ?_⟩
          · intro hyes; rw [hop] at hyes; cases hyes
          · intro _
            refine ⟨j, s0, info0, hj, getElem?_append_of_some _ a4, a6, a7, a8, ?_, ?_, ?_⟩
            · rw [hres, e1, a2, a5]
            · rw [hres, e1, a2, hpo]; simp
            · rw [hres, e3, hstk, hps]; simp
        | succ k =>
          simp only [List.getElem?_cons_succ] at hs1 ⊢
          exact ih1 k s1 hs1

/-! ## The claims -/

/-- C1. Idempotence: for every text `t` and every configuration `c` (so in particular for
every configuration with a positive integer `indentSize`), formatting the formatted text
again gives the formatted text: `formatDocument (formatDocument t c) c = formatDocument t c`. -/
theorem formatDocument_idempotent (t : Str) (c : Options) :
    formatDocument (formatDocument t c) c = formatDocument t c := by
  obtain ⟨h1, h2, h3⟩ := indentUnitOf_ws c
  rw [formatDocument_eq, formatDocument_eq]
  exact parseAndFormat_idem h1 h2 h3 t

/-- C2, as stated, fails: with `indentSize = 4` and `insertSpaces = true` the one-line
input `<cfif x GT 1><cfset y = 2><cfelse><cfset y = 3></cfif>` is not formatted to the
five-line text of the specification. -/
theorem example_cfif_one_line_counterexample :
    formatDocument "<cfif x GT 1><cfset y = 2><cfelse><cfset y = 3></cfif>".toList
      { indentSize := some 4, insertSpaces := some true } ≠
    "<cfif x GT 1>\n    <cfset y = 2>\n<cfelse>\n    <cfset y = 3>\n</cfif>".toList := by
  decide

/-- C2, amended: with `indentSize = 4` and `insertSpaces = true` the one-line input
`<cfif x GT 1><cfset y = 2><cfelse><cfset y = 3></cfif>` is formatted to one line, its
five tags joined by single spaces, with no leading indent. -/
theorem example_cfif_one_line :
    formatDocument "<cfif x GT 1><cfset y = 2><cfelse><cfset y = 3></cfif>".toList
      { indentSize := some 4, insertSpaces := some true } =
    "<cfif x GT 1> <cfset y = 2> <cfelse> <cfset y = 3> </cfif>".toList := by
  decide

/-- C3, as stated, fails: the one-line input `<div><p>Hi</p></div>` is not formatted to
itself. -/
theorem example_nested_markup_counterexample :
    formatDocument "<div><p>Hi</p></div>".toList ≠ "<div><p>Hi</p></div>".toList := by
  decide

/-- C3, amended: under every configuration the one-line input `<div><p>Hi</p></div>` is
formatted to the one line `<div> <p> Hi </p> </div>`, its tags and text joined by single
spaces, with no leading indent. -/
theorem example_nested_markup (options : Options) :
    formatDocument "<div><p>Hi</p></div>".toList options =
      "<div> <p> Hi </p> </div>".toList := by
  rfl

/-- C4 on the code: with `indentSize = 4` and `insertSpaces = true` the five-line layout
of the cfif/cfelse example is not a fixed point; `<cfelse>` is emitted one level deeper
than `<cfif x GT 1>` and the second `<cfset>` two levels deeper. -/
theorem cfelse_layout_not_fixed_point :
    formatDocument
      "<cfif x GT 1>\n    <cfset y = 2>\n<cfelse>\n    <cfset y = 3>\n</cfif>".toList
      { indentSize := some 4, insertSpaces := some true } =
    "<cfif x GT 1>\n    <cfset y = 2>\n    <cfelse>\n        <cfset y = 3>\n</cfif>".toList := by
  decide

/-- C5. Stack-based alignment: in the annotated trace of every text, whose lines are the
lines the formatter emits, a line whose leading closing block tag matched an entry of
the stack is emitted at the indent level of the earlier line that pushed the innermost
entry of that name. -/
theorem closing_tag_alignment (text : Str) :
    (traceDocument text).map (fun t => (t.level, t.content)) = layout text ∧
    ∀ (j o : Nat) (t : TracedLine), (traceDocument text)[j]? = some t →
      t.alignedWith = some o →
      o < j ∧ ∃ t0, (traceDocument text)[o]? = some t0 ∧ t.level = t0.level := by
  refine ⟨traceLines_erase _ 0 0 [], ?_⟩
  intro j o t hj ho
  have := traceLines_aligned (splitLines (replaceCR (replaceCRLF text))) 0 0 [] [] rfl
    (fun e he => by cases he) j o t (by simpa [traceDocument] using hj) (Nat.zero_le _) ho
  simpa [traceDocument] using this

/-- C5 on the example of the claim: in `<cfif x>` / `<p>a</p>` / `</cfif>` the third line
is aligned with the first. -/
theorem closing_tag_alignment_witness :
    (traceDocument "<cfif x>\n<p>a</p>\n</cfif>".toList)[2]? =
        some { level := 0, content := "</cfif>".toList, alignedWith := some 0 } ∧
      (0 < 2 ∧ ∃ t0, (traceDocument "<cfif x>\n<p>a</p>\n</cfif>".toList)[0]? = some t0 ∧
        (0 : Int) = t0.level) :=
  ⟨by decide,
    (closing_tag_alignment "<cfif x>\n<p>a</p>\n</cfif>".toList).2 2 0
      { level := 0, content := "</cfif>".toList, alignedWith := some 0 } (by decide) rfl⟩

/-- C6 on the code: the name `embed` is both in `blockLevelHTMLTags` and in
`selfClosingHTMLTags`, and `analyzeTag` reports `<embed>` as block-level and
self-closing at once. -/
theorem embed_block_and_selfClosing :
    "embed".toList ∈ blockLevelHTMLTags ∧ "embed".toList ∈ selfClosingHTMLTags ∧
    (analyzeTag "<embed>".toList).isBlock = true ∧
    (analyzeTag "<embed>".toList).isSelfClosing = true := by
  decide

/-- Apart from `embed`, every block-level name is classified block-level and not
self-closing, and every self-closing name self-closing and not block-level. -/
theorem vocabulary_partition_except_embed :
    (∀ n ∈ blockLevelCFTags ++ blockLevelHTMLTags, n ≠ "embed".toList →
      (analyzeTag ('<' :: n ++ ['>'])).isBlock = true ∧
      (analyzeTag ('<' :: n ++ ['>'])).isSelfClosing = false) ∧
    (∀ n ∈ selfClosingCFTags ++ selfClosingHTMLTags, n ≠ "embed".toList →
      (analyzeTag ('<' :: n ++ ['>'])).isSelfClosing = true ∧
      (analyzeTag ('<' :: n ++ ['>'])).isBlock = false) := by
  decide

/-- C7. Blank-line elision: a text made only of characters that `trim` removes (white
space and line breaks; the empty text included) is formatted to the empty string, under
every configuration. -/
theorem formatDocument_blank (text : Str) (options : Options)
    (h : ∀ c ∈ text, isWhiteSpace c = true) : formatDocument text options = [] := by
  rw [formatDocument_eq]
  unfold parseAndFormat
  rw [formatLines_blank]
  · rfl
  · intro l hl
    apply trim_of_forall_ws
    intro c hc
    have h1 := (mem_splitLines l hl).2 c hc
    rcases mem_replaceCR h1 with h2 | h2
    · rw [h2]; rfl
    · exact h c (mem_replaceCRLF h2)

/-- C7 on a text of spaces, a tab and line breaks. -/
theorem formatDocument_blank_witness :
    (∀ c ∈ "  \n\r\n \t ".toList, isWhiteSpace c = true) ∧
      formatDocument "  \n\r\n \t ".toList {} = [] :=
  ⟨by decide, formatDocument_blank _ _ (by decide)⟩

/-- C8. Fail-safe: whatever the scanner, if it fails on the text then the body of
`formatDocument` returns the text it was given, unchanged. -/
theorem formatDocument_failsafe {ε : Type} (scan : Str → Str → Except ε Str) (text : Str)
    (options : Options) (e : ε) (h : scan text (indentUnitOf options) = .error e) :
    formatDocumentWith scan text options = text := by
  unfold formatDocumentWith
  rw [h]

/-- C8 on a scanner that always throws and a text with a CRLF line ending. -/
theorem formatDocument_failsafe_witness :
    (fun (_ _ : Str) => (Except.error "TypeError" : Except String Str)) "<a>\r\n<b>".toList
        (indentUnitOf {}) = .error "TypeError" ∧
      formatDocumentWith (fun (_ _ : Str) => (Except.error "TypeError" : Except String Str))
        "<a>\r\n<b>".toList {} = "<a>\r\n<b>".toList :=
  ⟨rfl, formatDocument_failsafe _ _ _ "TypeError" rfl⟩

/-- C9, as stated, fails: the line `</div/>` is a single tag written with a trailing
`/>`, yet on the stack holding one `div` entry and at running level 1 it pops the entry
and returns another level. -/
theorem selfClosing_line_counterexample :
    execAll "</div/>".toList = ([([], "</div/>".toList)], []) ∧
    endsWith "</div/>".toList "/>".toList = true ∧
    (processLineWithAlignment "</div/>".toList 1
        [{ toTagInfo := analyzeTag "<div>".toList, indentLevel := 0 }]).tagStack ≠
      [{ toTagInfo := analyzeTag "<div>".toList, indentLevel := 0 }] ∧
    (processLineWithAlignment "</div/>".toList 1
        [{ toTagInfo := analyzeTag "<div>".toList, indentLevel := 0 }]).newIndentLevel ≠ 1 := by
  decide

/-- C9, amended: for every stack, every running indent level and every line that consists
of a single tag, is not a closing tag of a block-level name, and either is named in
`selfClosingCFTags` or `selfClosingHTMLTags` or is written with a trailing `/>`,
`processLineWithAlignment` leaves the stack unchanged and returns the running indent
level as `newIndentLevel`. -/
theorem selfClosing_line_inert (tagStack : List StackItem) (L : Int) (line : Str)
    (hline : execAll line = ([([], line)], []))
    (hclose : ((analyzeTag line).isClosing && (analyzeTag line).isBlock) = false)
    (hself : (analyzeTag line).tagName ∈ selfClosingCFTags ∨
      (analyzeTag line).tagName ∈ selfClosingHTMLTags ∨ endsWith line "/>".toList = true) :
    (processLineWithAlignment line L tagStack).tagStack = tagStack ∧
    (processLineWithAlignment line L tagStack).newIndentLevel = L := by
  obtain ⟨x, rfl, hx⟩ := execAll_single_shape hline
  have hopen : ((analyzeTag ('<' :: x)).isOpening && !(analyzeTag ('<' :: x)).isSelfClosing)
      = false := by
    cases ho : (analyzeTag ('<' :: x)).isOpening with
    | false => rfl
    | true =>
      rw [analyzeTag_isSelfClosing ho, trim_tag hx]
      rcases hself with h | h | h
      · have : selfClosingCFTags.contains (analyzeTag ('<' :: x)).tagName = true :=
          List.elem_eq_true_of_mem h
        rw [this, Bool.or_true, Bool.true_or]; rfl
      · have : selfClosingHTMLTags.contains (analyzeTag ('<' :: x)).tagName = true :=
          List.elem_eq_true_of_mem h
        rw [this, Bool.or_true]; rfl
      · rw [h, Bool.true_or, Bool.true_or]; rfl
  have halign : alignLevel [analyzeTag ('<' :: x)] L tagStack = L := by
    unfold alignLevel hasClosingTag
    simp [hclose]
  unfold processLineWithAlignment
  simp only [hline, List.map_cons, List.map_nil, halign, processTags]
  unfold processTag
  simp only [hopen]
  cases hc : (analyzeTag ('<' :: x)).isClosing with
  | false => simp
  | true =>
    rw [hc] at hclose
    simp only [Bool.true_and] at hclose
    simp [hclose]

/-- C9, amended, on the line `<br>` with one `div` entry on the stack at running
level 1. -/
theorem selfClosing_line_inert_witness :
    (execAll "<br>".toList = ([([], "<br>".toList)], []) ∧
      ((analyzeTag "<br>".toList).isClosing && (analyzeTag "<br>".toList).isBlock) = false ∧
      ((analyzeTag "<br>".toList).tagName ∈ selfClosingCFTags ∨
        (analyzeTag "<br>".toList).tagName ∈ selfClosingHTMLTags ∨
        endsWith "<br>".toList "/>".toList = true)) ∧
    (processLineWithAlignment "<br>".toList 1
        [{ toTagInfo := analyzeTag "<div>".toList, indentLevel := 0 }]).tagStack =
      [{ toTagInfo := analyzeTag "<div>".toList, indentLevel := 0 }] ∧
    (processLineWithAlignment "<br>".toList 1
        [{ toTagInfo := analyzeTag "<div>".toList, indentLevel := 0 }]).newIndentLevel = 1 :=
  ⟨⟨by decide, by decide, by decide⟩,
    selfClosing_line_inert _ 1 "<br>".toList (by decide) (by decide) (by decide)⟩

/-- C10. Indent unit: with `insertSpaces = false` the output does not depend on
`indentSize` and every emitted line is its content preceded by one tab per indent level;
with `insertSpaces` true or absent every emitted line is its content preceded by
`level * indentSize` spaces, and an absent `indentSize` counts as 4. -/
theorem formatDocument_indent_unit (text : Str) (n m : Option Nat) :
    formatDocument text { indentSize := n, insertSpaces := some false } =
      formatDocument text { indentSize := m, insertSpaces := some false } ∧
    formatDocument text { indentSize := n, insertSpaces := some false } =
      joinLines ((layout text).map
        (fun p => List.replicate (max 0 p.1).toNat '\t' ++ p.2)) ∧
    formatDocument text { indentSize := n, insertSpaces := some true } =
      joinLines ((layout text).map (fun p => List.replicate
        ((max 0 p.1).toNat * indentSizeOf { indentSize := n, insertSpaces := some true }) ' '
          ++ p.2)) ∧
    formatDocument text { indentSize := n, insertSpaces := none } =
      joinLines ((layout text).map (fun p => List.replicate
        ((max 0 p.1).toNat * indentSizeOf { indentSize := n, insertSpaces := none }) ' '
          ++ p.2)) ∧
    indentSizeOf { indentSize := none, insertSpaces := some true } = 4 ∧
    indentSizeOf { indentSize := none, insertSpaces := none } = 4 := by
  refine ⟨rfl, ?_, ?_, ?_, rfl, rfl⟩
  · rw [formatDocument_eq_layout]
    congr 2
    funext p
    show strRepeat ['\t'] _ ++ _ = _
    rw [strRepeat_singleton]
  · rw [formatDocument_eq_layout]
    congr 2
    funext p
    show strRepeat (strRepeat [' '] _) _ ++ _ = _
    rw [strRepeat_singleton, strRepeat_replicate]
  · rw [formatDocument_eq_layout]
    congr 2
    funext p
    show strRepeat (strRepeat [' '] _) _ ++ _ = _
    rw [strRepeat_singleton, strRepeat_replicate]

/-- C11. Lexical category is exclusive: for every text, exactly one of `isComment`, `isDoctype`,
`isClosing`, `isOpening` is true in the result of `analyzeTag`. -/
theorem analyzeTag_category_exclusive (tag : Str) :
    [(analyzeTag tag).isComment, (analyzeTag tag).isDoctype, (analyzeTag tag).isClosing,
      (analyzeTag tag).isOpening].count true = 1 := by
  rcases analyzeTag_cases tag with ⟨_, h⟩ | ⟨_, _, h⟩ | ⟨_, _, _, h⟩ | ⟨_, _, _, h⟩
  · rw [h]; rfl
  · rw [h]; rfl
  · rw [h, determineProperties_isComment, determineProperties_isDoctype,
      determineProperties_isClosing, determineProperties_isOpening]; rfl
  · rw [h, determineProperties_isComment, determineProperties_isDoctype,
      determineProperties_isClosing, determineProperties_isOpening]; rfl

/-- C12, as stated, fails: the text `plain` opens no comment, no doctype declaration and has
no tag name, yet `analyzeTag` reports it with `isOpening = true`. -/
theorem no_tag_shape_counterexample :
    (startsWith (trim "plain".toList) "<!--".toList ||
        startsWith (trim "plain".toList) "<!---".toList) = false ∧
    startsWith (toLowerCase (trim "plain".toList)) "<!doctype".toList = false ∧
    matchOpenName (trim "plain".toList) = none ∧
    matchCloseName (trim "plain".toList) = none ∧
    (analyzeTag "plain".toList).isOpening = true := by
  decide

/-- C12, amended: for every text that opens no comment and no doctype declaration and in which
neither name pattern matches, `analyzeTag` returns a classification with `isComment`,
`isDoctype` and `isBlock` false and `tagName` empty, in which `isClosing` is true exactly
when the trimmed text starts with `</`, `isOpening` exactly when it does not, and
`isSelfClosing` exactly when it does not and the trimmed text ends with `/>`. -/
theorem no_tag_shape_info (text : Str)
    (hc : (startsWith (trim text) "<!--".toList || startsWith (trim text) "<!---".toList)
      = false)
    (hd : startsWith (toLowerCase (trim text)) "<!doctype".toList = false)
    (ho : matchOpenName (trim text) = none) (hcl : matchCloseName (trim text) = none) :
    (analyzeTag text).isComment = false ∧ (analyzeTag text).isDoctype = false ∧
    (analyzeTag text).isBlock = false ∧ (analyzeTag text).tagName = [] ∧
    (analyzeTag text).isClosing = startsWith (trim text) "</".toList ∧
    (analyzeTag text).isOpening = !startsWith (trim text) "</".toList ∧
    (analyzeTag text).isSelfClosing =
      (!startsWith (trim text) "</".toList && endsWith (trim text) "/>".toList) := by
  rcases analyzeTag_cases text with ⟨h, _⟩ | ⟨_, h, _⟩ | ⟨_, _, h3, h⟩ | ⟨_, _, h3, h⟩
  · rw [hc] at h; cases h
  · rw [hd] at h; cases h
  · have hn : (closingInfo (trim text)).tagName = [] := by
      simp only [closingInfo, hcl]
    rw [h, determineProperties_nil hn, h3]
    simp only [closingInfo, initialInfo, hcl]
    simp
  · have hn : (openingInfo (trim text)).tagName = [] := by
      simp only [openingInfo, openingName, ho]
    rw [h, determineProperties_nil hn, h3]
    simp only [openingInfo, openingName, initialInfo, ho]
    have e1 : ([] : Str) ∉ selfClosingCFTags := by decide
    have e2 : ([] : Str) ∉ selfClosingHTMLTags := by decide
    simp [e1, e2]

/-- C13, as stated, fails: `<1a>` has the run `1a` after its leading `<` and gets the empty
name; `</ </div>` and `<![CDATA[<div>]]>` have no run after their leading delimiter and
get the name `div` from text later in the tag. -/
theorem tagName_extraction_counterexample :
    ((analyzeTag "<1a>".toList).isComment = false ∧
      (analyzeTag "<1a>".toList).isDoctype = false ∧
      (analyzeTag "<1a>".toList).tagName = [] ∧
      leadingName (trim "<1a>".toList) = "1a".toList) ∧
    ((analyzeTag "</ </div>".toList).isComment = false ∧
      (analyzeTag "</ </div>".toList).isDoctype = false ∧
      (analyzeTag "</ </div>".toList).tagName = "div".toList ∧
      leadingName (trim "</ </div>".toList) = []) ∧
    ((analyzeTag "<![CDATA[<div>]]>".toList).isComment = false ∧
      (analyzeTag "<![CDATA[<div>]]>".toList).isDoctype = false ∧
      (analyzeTag "<![CDATA[<div>]]>".toList).tagName = "div".toList ∧
      leadingName (trim "<![CDATA[<div>]]>".toList) = []) := by
  decide

/-- C13, amended: for every text whose trimmed form has an ASCII letter right after its
leading `<` (opening) or its leading `</` (closing), the text is neither comment nor
doctype and `tagName` is the lowercased run of letters and digits that starts at that
letter, the name the specification words; text later in the tag does not contribute. -/
theorem tagName_of_leading_letter (tag : Str) (d : Char) (rest : Str)
    (hd : d.isAlpha = true)
    (h : trim tag = '<' :: d :: rest ∨ trim tag = '<' :: '/' :: d :: rest) :
    (analyzeTag tag).isComment = false ∧ (analyzeTag tag).isDoctype = false ∧
    (analyzeTag tag).tagName = toLowerCase (d :: rest.takeWhile Char.isAlphanum) ∧
    (analyzeTag tag).tagName = leadingName (trim tag) := by
  have hb : d ≠ '!' := isAlpha_ne hd (by decide)
  have hs : d ≠ '/' := isAlpha_ne hd (by decide)
  have han := isAlphanum_of_isAlpha hd
  rcases h with h | h
  · have hc : (startsWith (trim tag) "<!--".toList || startsWith (trim tag) "<!---".toList)
        = false := by
      rw [h]; simp [startsWith, List.isPrefixOf, Ne.symm hb]
    have hdt : startsWith (toLowerCase (trim tag)) "<!doctype".toList = false := by
      rw [h]
      have : d.toLower ≠ '!' := toLower_ne_of_isAlpha hd (by decide)
      simp [startsWith, toLowerCase, List.isPrefixOf, Ne.symm this]
    have hcl : startsWith (trim tag) "</".toList = false := by
      rw [h]; simp [startsWith, List.isPrefixOf, Ne.symm hs]
    rcases analyzeTag_cases tag with ⟨h1, _⟩ | ⟨_, h1, _⟩ | ⟨_, _, h1, _⟩ | ⟨_, _, _, h1⟩
    · rw [hc] at h1; cases h1
    · rw [hdt] at h1; cases h1
    · rw [hcl] at h1; cases h1
    · rw [h1, determineProperties_isComment, determineProperties_isDoctype,
        determineProperties_tagName]
      refine ⟨rfl, rfl, ?_, ?_⟩
      · show openingName (trim tag) = _
        rw [h]
        simp [openingName, matchOpenName, nameAt_cons rest hd]
      · show openingName (trim tag) = _
        unfold leadingName
        rw [hcl, h]
        simp [openingName, matchOpenName, nameAt_cons rest hd, List.takeWhile_cons, han]
  · have hc : (startsWith (trim tag) "<!--".toList || startsWith (trim tag) "<!---".toList)
        = false := by
      rw [h]; simp [startsWith, List.isPrefixOf]
    have hdt : startsWith (toLowerCase (trim tag)) "<!doctype".toList = false := by
      rw [h]
      simp [startsWith, toLowerCase, List.isPrefixOf]
    have hcl : startsWith (trim tag) "</".toList = true := by
      rw [h]; simp [startsWith, List.isPrefixOf]
    rcases analyzeTag_cases tag with ⟨h1, _⟩ | ⟨_, h1, _⟩ | ⟨_, _, _, h1⟩ | ⟨_, _, h1, _⟩
    · rw [hc] at h1; cases h1
    · rw [hdt] at h1; cases h1
    · rw [h1, determineProperties_isComment, determineProperties_isDoctype,
        determineProperties_tagName]
      refine ⟨rfl, rfl, ?_, ?_⟩
      · show (closingInfo (trim tag)).tagName = _
        rw [h]
        simp [closingInfo, matchCloseName, nameAt_cons rest hd]
      · show (closingInfo (trim tag)).tagName = _
        unfold leadingName
        rw [hcl, h]
        simp [closingInfo, matchCloseName, nameAt_cons rest hd, List.takeWhile_cons, han]
    · rw [hcl] at h1; cases h1

/-- C18. Innermost-match lookup: `findMatchingTagInStack` returns an entry exactly when it is
the entry at the greatest index whose `tagName` is the name, and returns `null` exactly
when no entry has that name. -/
theorem findMatching_innermost (tagStack : List StackItem) (name : Str) :
    (∀ e, findMatchingTagInStack tagStack name = some e ↔
      ∃ i, tagStack[i]? = some e ∧ e.tagName = name ∧
        ∀ (j : Nat) (e' : StackItem), i < j → tagStack[j]? = some e' → e'.tagName ≠ name) ∧
    (findMatchingTagInStack tagStack name = none ↔ ∀ e ∈ tagStack, e.tagName ≠ name) := by
  refine ⟨?_, findMatching_eq_none_iff tagStack name⟩
  intro e
  rw [findMatching_eq_some_iff]
  constructor
  · rintro ⟨pre, post, rfl, hn, hpost⟩
    refine ⟨pre.length, by rw [List.getElem?_append_right (le_refl _)]; simp, hn, ?_⟩
    intro j e' hj he'
    rw [List.getElem?_append_right (by omega)] at he'
    obtain ⟨k, hk⟩ : ∃ k, j - pre.length = k + 1 := ⟨j - pre.length - 1, by omega⟩
    rw [hk, List.getElem?_cons_succ] at he'
    exact hpost e' (List.getElem?_mem he')
  · rintro ⟨i, hi, hn, hlater⟩
    obtain ⟨hlt, hget⟩ := List.getElem?_eq_some.1 hi
    refine ⟨tagStack.take i, tagStack.drop (i + 1), ?_, hn, ?_⟩
    · have h1 : tagStack.drop i = e :: tagStack.drop (i + 1) := by
        rw [List.drop_eq_getElem_cons hlt, hget]
      rw [← h1, List.take_append_drop]
    · intro x hx
      obtain ⟨k, hk⟩ := List.mem_iff_getElem?.1 hx
      rw [List.getElem?_drop] at hk
      exact hlater (i + 1 + k) x (by omega) hk

/-- C19. Innermost removal: `removeFromTagStack` removes the entry with the given name that has
no entry of that name above it, and only that one, keeping the other entries in order; a
stack without an entry of that name is unchanged. -/
theorem removeFrom_innermost (tagStack : List StackItem) (name : Str) :
    (∀ pre e post, tagStack = pre ++ e :: post → e.tagName = name →
      (∀ x ∈ post, x.tagName ≠ name) → removeFromTagStack tagStack name = pre ++ post) ∧
    ((∀ x ∈ tagStack, x.tagName ≠ name) → removeFromTagStack tagStack name = tagStack) := by
  refine ⟨?_, removeFrom_of_forall_ne⟩
  rintro pre e post rfl he hpost
  exact removeFrom_of_split he hpost

/-- C22. Comments, doctype and non-block tags are inert: for every stack, every running indent
level `L` and every line all of whose tags are comments, doctype declarations, or opening
or closing tags whose name is in neither block-level set, `processLineWithAlignment`
leaves the stack unchanged, emits the line at level `L` and returns `newIndentLevel = L`;
and comments and doctype declarations are classified `isBlock = true`. -/
theorem nonblock_line_inert (tagStack : List StackItem) (L : Int) (line : Str)
    (h : ∀ m ∈ (execAll line).1,
      (analyzeTag m.2).isComment = true ∨ (analyzeTag m.2).isDoctype = true ∨
      (((analyzeTag m.2).isOpening = true ∨ (analyzeTag m.2).isClosing = true) ∧
        (analyzeTag m.2).tagName ∉ blockLevelCFTags ∧
        (analyzeTag m.2).tagName ∉ blockLevelHTMLTags)) :
    ((processLineWithAlignment line L tagStack).tagStack = tagStack ∧
      (processLineWithAlignment line L tagStack).indentLevel = L ∧
      (processLineWithAlignment line L tagStack).newIndentLevel = L) ∧
    (∀ tag : Str, (analyzeTag tag).isComment = true → (analyzeTag tag).isBlock = true) ∧
    (∀ tag : Str, (analyzeTag tag).isDoctype = true → (analyzeTag tag).isBlock = true) := by
  refine ⟨?_, fun tag ht => (analyzeTag_comment_flags ht).1,
    fun tag ht => (analyzeTag_doctype_flags ht).1⟩
  apply processLine_inert
  intro m hm
  rcases h m hm with hc | hd | ⟨_, h1, h2⟩
  · obtain ⟨_, h3, h4⟩ := analyzeTag_comment_flags hc
    exact ⟨by rw [h3]; rfl, by rw [h4]; rfl⟩
  · obtain ⟨_, h3, h4⟩ := analyzeTag_doctype_flags hd
    exact ⟨by rw [h3]; rfl, by rw [h4]; rfl⟩
  · cases hb : (analyzeTag m.2).isBlock with
    | false => exact ⟨by rw [hb]; simp, by rw [hb]; simp⟩
    | true =>
      rcases analyzeTag_isBlock hb with hc | hd | h3 | h3
      · obtain ⟨_, h3, h4⟩ := analyzeTag_comment_flags hc
        exact ⟨by rw [h3]; rfl, by rw [h4]; rfl⟩
      · obtain ⟨_, h3, h4⟩ := analyzeTag_doctype_flags hd
        exact ⟨by rw [h3]; rfl, by rw [h4]; rfl⟩
      · exact absurd h3 h1
      · exact absurd h3 h2

/-- C22 on the line `<!-- a --><span>x</span><!DOCTYPE html>` with one `div` entry on the
stack at running level 1. -/
theorem nonblock_line_inert_witness :
    (∀ m ∈ (execAll "<!-- a --><span>x</span><!DOCTYPE html>".toList).1,
      (analyzeTag m.2).isComment = true ∨ (analyzeTag m.2).isDoctype = true ∨
      (((analyzeTag m.2).isOpening = true ∨ (analyzeTag m.2).isClosing = true) ∧
        (analyzeTag m.2).tagName ∉ blockLevelCFTags ∧
        (analyzeTag m.2).tagName ∉ blockLevelHTMLTags)) ∧
    (processLineWithAlignment "<!-- a --><span>x</span><!DOCTYPE html>".toList 1
        [{ toTagInfo := analyzeTag "<div>".toList, indentLevel := 0 }]).tagStack =
      [{ toTagInfo := analyzeTag "<div>".toList, indentLevel := 0 }] ∧
    (processLineWithAlignment "<!-- a --><span>x</span><!DOCTYPE html>".toList 1
        [{ toTagInfo := analyzeTag "<div>".toList, indentLevel := 0 }]).indentLevel = 1 ∧
    (processLineWithAlignment "<!-- a --><span>x</span><!DOCTYPE html>".toList 1
        [{ toTagInfo := analyzeTag "<div>".toList, indentLevel := 0 }]).newIndentLevel = 1 :=
  ⟨by decide, (nonblock_line_inert _ 1 _ (by decide)).1⟩

/-- C15. Unmatched closing tags are inert: for every stack, every running indent level `L` and
every line that consists of a single closing tag whose name no entry of the stack has,
`processLineWithAlignment` leaves the stack unchanged, emits the line at level `L` and
returns `newIndentLevel = L`. -/
theorem unmatched_closing_inert (tagStack : List StackItem) (L : Int) (line : Str)
    (hline : execAll line = ([([], line)], []))
    (hcl : (analyzeTag line).isClosing = true)
    (hno : ∀ e ∈ tagStack, e.tagName ≠ (analyzeTag line).tagName) :
    (processLineWithAlignment line L tagStack).tagStack = tagStack ∧
    (processLineWithAlignment line L tagStack).indentLevel = L ∧
    (processLineWithAlignment line L tagStack).newIndentLevel = L := by
  have hfind := (findMatching_eq_none_iff tagStack (analyzeTag line).tagName).2 hno
  have hal : alignLevel [analyzeTag line] L tagStack = L := by
    unfold alignLevel
    simp only [List.head?_cons, hfind]
    split
    · split <;> rfl
    · rfl
  unfold processLineWithAlignment
  simp only [hline, List.map_cons, List.map_nil, hal, processTags]
  unfold processTag
  simp [hcl, hfind]

/-- C15 on the line `</p>` with one `div` entry on the stack at running level 1. -/
theorem unmatched_closing_inert_witness :
    (execAll "</p>".toList = ([([], "</p>".toList)], []) ∧
      (analyzeTag "</p>".toList).isClosing = true ∧
      (∀ e ∈ [({ toTagInfo := analyzeTag "<div>".toList, indentLevel := 0 } : StackItem)],
        e.tagName ≠ (analyzeTag "</p>".toList).tagName)) ∧
    (processLineWithAlignment "</p>".toList 1
        [{ toTagInfo := analyzeTag "<div>".toList, indentLevel := 0 }]).tagStack =
      [{ toTagInfo := analyzeTag "<div>".toList, indentLevel := 0 }] ∧
    (processLineWithAlignment "</p>".toList 1
        [{ toTagInfo := analyzeTag "<div>".toList, indentLevel := 0 }]).indentLevel = 1 ∧
    (processLineWithAlignment "</p>".toList 1
        [{ toTagInfo := analyzeTag "<div>".toList, indentLevel := 0 }]).newIndentLevel = 1 :=
  ⟨⟨by decide, by decide, by decide⟩,
    unmatched_closing_inert _ 1 "</p>".toList (by decide) (by decide) (by decide)⟩

/-- C17. Line-ending normalisation: replacing every CRLF and every remaining CR of the input
by LF does not change the output of `formatDocument`, and the output contains no
carriage return. -/
theorem formatDocument_line_endings (text : Str) (options : Options) :
    formatDocument (replaceCR (replaceCRLF text)) options = formatDocument text options ∧
    '\r' ∉ formatDocument text options := by
  refine ⟨?_, cr_not_mem_parseAndFormat (indentUnitOf_ws options).2.1 text⟩
  rw [formatDocument_eq, formatDocument_eq]
  unfold parseAndFormat
  have h := not_mem_replaceCR (replaceCRLF text)
  rw [replaceCRLF_of_not_mem h, replaceCR_of_not_mem h]

/-- C12, amended, on the text `plain`. -/
theorem no_tag_shape_info_witness :
    ((startsWith (trim "plain".toList) "<!--".toList ||
        startsWith (trim "plain".toList) "<!---".toList) = false ∧
      startsWith (toLowerCase (trim "plain".toList)) "<!doctype".toList = false ∧
      matchOpenName (trim "plain".toList) = none ∧
      matchCloseName (trim "plain".toList) = none) ∧
    ((analyzeTag "plain".toList).isComment = false ∧
      (analyzeTag "plain".toList).isDoctype = false ∧
      (analyzeTag "plain".toList).isBlock = false ∧
      (analyzeTag "plain".toList).tagName = [] ∧
      (analyzeTag "plain".toList).isClosing = startsWith (trim "plain".toList) "</".toList ∧
      (analyzeTag "plain".toList).isOpening = !startsWith (trim "plain".toList) "</".toList ∧
      (analyzeTag "plain".toList).isSelfClosing =
        (!startsWith (trim "plain".toList) "</".toList &&
          endsWith (trim "plain".toList) "/>".toList)) :=
  ⟨by decide, no_tag_shape_info "plain".toList (by decide) (by decide) (by decide) (by decide)⟩

/-- C13, amended, on the text ` <DIV class=a>`. -/
theorem tagName_of_leading_letter_witness :
    ('D'.isAlpha = true ∧
      (trim " <DIV class=a>".toList = '<' :: 'D' :: "IV class=a>".toList ∨
        trim " <DIV class=a>".toList = '<' :: '/' :: 'D' :: "IV class=a>".toList)) ∧
    ((analyzeTag " <DIV class=a>".toList).isComment = false ∧
      (analyzeTag " <DIV class=a>".toList).isDoctype = false ∧
      (analyzeTag " <DIV class=a>".toList).tagName =
        toLowerCase ('D' :: "IV class=a>".toList.takeWhile Char.isAlphanum) ∧
      (analyzeTag " <DIV class=a>".toList).tagName =
        leadingName (trim " <DIV class=a>".toList)) :=
  ⟨⟨by decide, Or.inl (by decide)⟩,
    tagName_of_leading_letter " <DIV class=a>".toList 'D' "IV class=a>".toList (by decide)
      (Or.inl (by decide))⟩

/-- C14. Case-insensitive classification: two texts that differ only in the case of ASCII
letters (they have the same lowercase form) get classifications that agree in every
field other than `fullTag`, and `tagName` is always lowercase. -/
theorem analyzeTag_case_insensitive (s t : Str) (h : toLowerCase s = toLowerCase t) :
    blankFullTag (analyzeTag s) = blankFullTag (analyzeTag t) ∧
    toLowerCase (analyzeTag s).tagName = (analyzeTag s).tagName := by
  refine ⟨?_, analyzeTag_tagName_lower s⟩
  rw [← blank_analyzeTag_toLowerCase s, h, blank_analyzeTag_toLowerCase]

/-- C14 on `<DIV Class=x>` and `<div class=X>`. -/
theorem analyzeTag_case_insensitive_witness :
    toLowerCase "<DIV Class=x>".toList = toLowerCase "<div class=X>".toList ∧
    (blankFullTag (analyzeTag "<DIV Class=x>".toList) =
        blankFullTag (analyzeTag "<div class=X>".toList) ∧
      toLowerCase (analyzeTag "<DIV Class=x>".toList).tagName =
        (analyzeTag "<DIV Class=x>".toList).tagName) :=
  ⟨by decide, analyzeTag_case_insensitive _ _ (by decide)⟩

/-- C18 on a stack that holds `div` twice. -/
theorem findMatching_innermost_witness :
    findMatchingTagInStack
        [{ toTagInfo := analyzeTag "<div>".toList, indentLevel := 0 },
         { toTagInfo := analyzeTag "<p>".toList, indentLevel := 1 },
         { toTagInfo := analyzeTag "<div>".toList, indentLevel := 2 },
         { toTagInfo := analyzeTag "<ul>".toList, indentLevel := 3 }] "div".toList =
      some { toTagInfo := analyzeTag "<div>".toList, indentLevel := 2 } ∧
    ∃ i, [({ toTagInfo := analyzeTag "<div>".toList, indentLevel := 0 } : StackItem),
         { toTagInfo := analyzeTag "<p>".toList, indentLevel := 1 },
         { toTagInfo := analyzeTag "<div>".toList, indentLevel := 2 },
         { toTagInfo := analyzeTag "<ul>".toList, indentLevel := 3 }][i]? =
        some { toTagInfo := analyzeTag "<div>".toList, indentLevel := 2 } ∧
      ({ toTagInfo := analyzeTag "<div>".toList, indentLevel := 2 } : StackItem).tagName =
        "div".toList ∧
      ∀ (j : Nat) (e' : StackItem), i < j →
        [({ toTagInfo := analyzeTag "<div>".toList, indentLevel := 0 } : StackItem),
         { toTagInfo := analyzeTag "<p>".toList, indentLevel := 1 },
         { toTagInfo := analyzeTag "<div>".toList, indentLevel := 2 },
         { toTagInfo := analyzeTag "<ul>".toList, indentLevel := 3 }][j]? = some e' →
        e'.tagName ≠ "div".toList :=
  ⟨by decide, ((findMatching_innermost _ "div".toList).1 _).1 (by decide)⟩

/-- C19 on a stack that holds `div` twice, the later one not on top. -/
theorem removeFrom_innermost_witness :
    (({ toTagInfo := analyzeTag "<div>".toList, indentLevel := 2 } : StackItem).tagName =
        "div".toList ∧
      ∀ x ∈ [({ toTagInfo := analyzeTag "<ul>".toList, indentLevel := 3 } : StackItem)],
        x.tagName ≠ "div".toList) ∧
    removeFromTagStack
        [{ toTagInfo := analyzeTag "<div>".toList, indentLevel := 0 },
         { toTagInfo := analyzeTag "<p>".toList, indentLevel := 1 },
         { toTagInfo := analyzeTag "<div>".toList, indentLevel := 2 },
         { toTagInfo := analyzeTag "<ul>".toList, indentLevel := 3 }] "div".toList =
      [{ toTagInfo := analyzeTag "<div>".toList, indentLevel := 0 },
       { toTagInfo := analyzeTag "<p>".toList, indentLevel := 1 }] ++
      [{ toTagInfo := analyzeTag "<ul>".toList, indentLevel := 3 }] :=
  ⟨⟨by decide, by decide⟩,
    (removeFrom_innermost _ "div".toList).1
      [{ toTagInfo := analyzeTag "<div>".toList, indentLevel := 0 },
       { toTagInfo := analyzeTag "<p>".toList, indentLevel := 1 }]
      { toTagInfo := analyzeTag "<div>".toList, indentLevel := 2 }
      [{ toTagInfo := analyzeTag "<ul>".toList, indentLevel := 3 }] rfl (by decide) (by decide)⟩

/-- C16. Line count is preserved: for every text and every configuration, the number of
lines of the output of `formatDocument` (the empty output has no line) is the number of
non-blank lines of the input with its line endings normalised, and the `k`-th output
line, once trimmed, holds exactly the tags of the `k`-th non-blank input line, in the
same order. -/
theorem line_count_preserved (text : Str) (options : Options) :
    (outputLines (formatDocument text options)).length =
      ((splitLines (replaceCR (replaceCRLF text))).filter
        (fun l => decide (trim l ≠ []))).length ∧
    ∀ (k : Nat) (o i : Str), (outputLines (formatDocument text options))[k]? = some o →
      ((splitLines (replaceCR (replaceCRLF text))).filter
        (fun l => decide (trim l ≠ [])))[k]? = some i →
      tagsOf (trim o) = tagsOf i := by
  rw [outputLines_formatDocument]
  exact formatLines_tags (indentUnitOf_ws options).1 _ 0 []

/-- C16 on a four-line text with CRLF endings and a blank line: the second output line
holds the tags of the second non-blank input line. -/
theorem line_count_preserved_witness :
    ((outputLines (formatDocument "<div>\r\n\r\n  <p>a</p><br>\n</div>".toList {}))[1]? =
        some "    <p> a </p> <br>".toList ∧
      ((splitLines (replaceCR (replaceCRLF "<div>\r\n\r\n  <p>a</p><br>\n</div>".toList))).filter
        (fun l => decide (trim l ≠ [])))[1]? = some "  <p>a</p><br>".toList) ∧
    tagsOf (trim "    <p> a </p> <br>".toList) = tagsOf "  <p>a</p><br>".toList :=
  ⟨⟨by decide, by decide⟩,
    (line_count_preserved "<div>\r\n\r\n  <p>a</p><br>\n</div>".toList {}).2 1 _ _
      (by decide) (by decide)⟩

/-- C23. The formatter only changes white space: for every text and every configuration,
deleting the characters that `trim` removes from the output of `formatDocument` gives
the same character sequence as deleting them from the input. -/
theorem formatDocument_only_whitespace (text : Str) (options : Options) :
    stripWhiteSpace (formatDocument text options) = stripWhiteSpace text := by
  rw [formatDocument_eq]
  unfold parseAndFormat
  rw [strip_joinLines, strip_formatLines (indentUnitOf_ws options).1, strip_splitLines,
    strip_replaceCR, strip_replaceCRLF]

/-- C24. Indent levels are never negative: in every iteration of the line loop on any text,
the running indent level, the level of every stack entry (before the line, in every
state of the tag loop, and after the line), the level of the emitted line and the next
running level are at least 0, so `Math.max(0, ...)` returns the level of the emitted
line unchanged; the same holds of the emitted lines and of the state the loop ends in. -/
theorem levels_nonneg (text : Str) :
    (∀ s ∈ documentSteps text,
      0 ≤ s.indentLevel ∧ (∀ e ∈ s.tagStack, 0 ≤ e.indentLevel) ∧
      (∀ p ∈ s.states, 0 ≤ p.indentLevel ∧ ∀ e ∈ p.tagStack, 0 ≤ e.indentLevel) ∧
      0 ≤ s.result.indentLevel ∧ 0 ≤ s.result.newIndentLevel ∧
      (∀ e ∈ s.result.tagStack, 0 ≤ e.indentLevel) ∧
      max 0 s.result.indentLevel = s.result.indentLevel) ∧
    (∀ x ∈ layout text, 0 ≤ x.1 ∧ max 0 x.1 = x.1) ∧
    0 ≤ (finalState (splitLines (replaceCR (replaceCRLF text))) 0 []).1 ∧
    ∀ e ∈ (finalState (splitLines (replaceCR (replaceCRLF text))) 0 []).2,
      0 ≤ e.indentLevel := by
  have key := lineSteps_nonneg (splitLines (replaceCR (replaceCRLF text))) 0 []
    (le_refl 0) (fun e he => by simp at he)
  refine ⟨?_, ?_, finalState_nonneg _ 0 [] (le_refl 0) (fun e he => by simp at he)⟩
  · intro s hs
    obtain ⟨h1, h2, h3, h4, h5, h6⟩ := key s hs
    exact ⟨h1, h2, h3, h4, h5, h6, max_eq_right h4⟩
  · intro x hx
    unfold layout at hx
    rw [layoutLines_eq_lineSteps] at hx
    obtain ⟨s, hs, rfl⟩ := List.mem_map.1 hx
    obtain ⟨_, _, _, h4, _⟩ := key s hs
    exact ⟨h4, max_eq_right h4⟩

/-- C24 on a text with two closing tags that match nothing. -/
theorem levels_nonneg_witness :
    (documentSteps "</div>\n<p>\n</p>\n</p>".toList).map
        (fun s => (s.indentLevel, s.result.indentLevel, s.result.newIndentLevel)) =
      [(0, 0, 0), (0, 0, 1), (1, 0, 0), (0, 0, 0)] ∧
    ∀ s ∈ documentSteps "</div>\n<p>\n</p>\n</p>".toList,
      0 ≤ s.result.indentLevel ∧ 0 ≤ s.result.newIndentLevel :=
  ⟨by decide, fun s hs =>
    ⟨((levels_nonneg "</div>\n<p>\n</p>\n</p>".toList).1 s hs).2.2.2.1,
      ((levels_nonneg "</div>\n<p>\n</p>\n</p>".toList).1 s hs).2.2.2.2.1⟩⟩

/-- C20, as stated, fails: in `<div>` / `<p>` / `</div><ul>` the third line is aligned with
`<div>` at level 0, pops the `div` entry from under the `p` entry of level 1 and pushes
`ul` with level 0 above it. -/
theorem stack_order_counterexample :
    ((documentSteps "<div>\n<p>\n</div><ul>".toList)[2]?).map
        (fun s => (s.result.indentLevel,
          s.states.map (fun p => p.tagStack.map (fun e => (e.tagName, e.indentLevel))))) =
      some (0, [[("div".toList, 0), ("p".toList, 1)], [("p".toList, 1)],
        [("p".toList, 1), ("ul".toList, 0)]]) ∧
    ∃ s ∈ documentSteps "<div>\n<p>\n</div><ul>".toList, ∃ p ∈ s.states,
      ¬ NonDecreasing p.tagStack := by
  decide

/-- C20, amended: for every text in which every line is emitted at a level that is not below
the level of any entry on the stack when the line starts, every stack that occurs while
formatting has levels that do not decrease from the bottom to the top; so each pushed
entry has a level at least that of every entry below it. -/
theorem stack_order (text : Str)
    (h : ∀ s ∈ documentSteps text, ∀ e ∈ s.tagStack,
      e.indentLevel ≤ s.result.indentLevel) :
    ∀ s ∈ documentSteps text, ∀ p ∈ s.states, NonDecreasing p.tagStack :=
  lineSteps_ordered _ 0 [] List.Pairwise.nil h

/-- C20, amended, on `<tr>` / `<td>` / `</td><td>` / `</td>` / `</tr>`. -/
theorem stack_order_witness :
    (∀ s ∈ documentSteps "<tr>\n<td>\n</td><td>\n</td>\n</tr>".toList, ∀ e ∈ s.tagStack,
      e.indentLevel ≤ s.result.indentLevel) ∧
    ∀ s ∈ documentSteps "<tr>\n<td>\n</td><td>\n</td>\n</tr>".toList, ∀ p ∈ s.states,
      NonDecreasing p.tagStack :=
  ⟨by decide, stack_order "<tr>\n<td>\n</td><td>\n</td>\n</tr>".toList (by decide)⟩

/-- C21. Nesting depth on well-nested input: for every text in which each non-blank line
holds exactly one tag, an opening non-self-closing block tag or the closing tag of the
innermost open block tag, every opening line is emitted at the number of block tags open
before it and pushes an entry with that level, every closing line pops the top entry and
is emitted at the level of the line that opened the tag it closes, one less than the
number of tags open before it, and when no tag is open after the last line the loop ends
with the empty stack and the running level 0. -/
theorem nesting_depth (text : Str) (opens : List (List (Nat × Str)))
    (h : nesting 0 [] (splitLines (replaceCR (replaceCRLF text))) = some opens) :
    (∀ (k : Nat) (s : LineStep), (documentSteps text)[k]? = some s →
      ∃ o info, opens[k]? = some o ∧ singleTag s.line = some info ∧
        (isOpener info = true →
          s.result.indentLevel = o.length ∧
          s.result.tagStack = s.tagStack ++ [StackItem.mk info o.length]) ∧
        (isOpener info = false →
          ∃ j s0 info0, o.getLast? = some (j, info.tagName) ∧
            (documentSteps text)[j]? = some s0 ∧
            singleTag s0.line = some info0 ∧ isOpener info0 = true ∧
            info0.tagName = info.tagName ∧
            s.result.indentLevel = s0.result.indentLevel ∧
            s.result.indentLevel + 1 = o.length ∧
            s.result.tagStack = s.tagStack.dropLast)) ∧
    (opens.getLast? = some [] →
      finalState (splitLines (replaceCR (replaceCRLF text))) 0 [] = (0, [])) := by
  have hinv : NestInv [] [] 0 [] :=
    ⟨rfl, rfl, fun i e o he _ => by simp at he⟩
  have := nesting_steps (splitLines (replaceCR (replaceCRLF text))) [] [] 0 [] opens hinv h
  simpa [documentSteps] using this

/-- C21 on a well-nested seven-line text with a blank line. -/
theorem nesting_depth_witness :
    nesting 0 [] (splitLines (replaceCR (replaceCRLF
        "<cfif x>\n\n  <div>\n  </div>\n  <ul>\n</ul>\n</cfif>".toList))) =
      some [[], [(0, "cfif".toList)], [(0, "cfif".toList), (1, "div".toList)],
        [(0, "cfif".toList)], [(0, "cfif".toList), (3, "ul".toList)],
        [(0, "cfif".toList)], []] ∧
    ((documentSteps "<cfif x>\n\n  <div>\n  </div>\n  <ul>\n</ul>\n</cfif>".toList).map
        (fun s => s.result.indentLevel) = [0, 1, 1, 1, 1, 0]) ∧
    finalState (splitLines (replaceCR (replaceCRLF
        "<cfif x>\n\n  <div>\n  </div>\n  <ul>\n</ul>\n</cfif>".toList))) 0 [] = (0, []) :=
  ⟨by decide, by decide,
    (nesting_depth "<cfif x>\n\n  <div>\n  </div>\n  <ul>\n</ul>\n</cfif>".toList
      [[], [(0, "cfif".toList)], [(0, "cfif".toList), (1, "div".toList)],
        [(0, "cfif".toList)], [(0, "cfif".toList), (3, "ul".toList)],
        [(0, "cfif".toList)], []] (by decide)).2 (by decide)⟩

end CFML
